import Mathlib

/-!
# LexRank (continuous LexRank over a CSR feature matrix)

A shallow embedding of `src/lexrank.cpp`.

* A `double` is modelled in exact arithmetic over an ordered field `α`
  (the theorems take `α := ℝ` and `Real.sqrt`): it is either a finite number
  or a non-finite value (`Dbl.nan`).  Rounding is not modelled.
* `vector::operator[]` is unchecked in C++; an access outside the bounds of a
  vector is undefined behaviour.  Every function that indexes a vector returns
  an `Option`, and `none` means that the run performed an out-of-range access
  (or could not allocate its work vector).
* `int` counters and the `int` entries of `row_ptr` and `col_idx` are `Int`.
* `LexRank::csr_matrix` runs on the list of the lines of the input file; the
  library functions `std::stoi` and `std::stod` are parameters that return a
  value or throw `invalid_argument` or `out_of_range` (`Parsed`); a value of
  `std::stod` is a finite number, an infinity or a NaN (`Weight`).
-/

namespace LexRank

/-! ## Doubles in exact arithmetic -/

/-- A `double`: a finite number, or a non-finite value.  On finite inputs the
only divisions that the program performs with a zero divisor are `0/0` in
`CSR::normalization` (a NaN) and `d / nfile` for an empty matrix (whose value
is stored in no vector), so that one non-finite value is enough. -/
inductive Dbl (α : Type) where
  | fin (x : α)
  | nan
deriving DecidableEq

namespace Dbl

variable {α : Type} [LinearOrderedField α]

/-- Addition of doubles: a non-finite operand gives a non-finite result. -/
def add : Dbl α → Dbl α → Dbl α
  | fin x, fin y => fin (x + y)
  | _, _ => nan

/-- Subtraction of doubles. -/
def sub : Dbl α → Dbl α → Dbl α
  | fin x, fin y => fin (x - y)
  | _, _ => nan

/-- Multiplication of doubles. -/
def mul : Dbl α → Dbl α → Dbl α
  | fin x, fin y => fin (x * y)
  | _, _ => nan

/-- Division of doubles: a zero divisor gives a non-finite result. -/
def div : Dbl α → Dbl α → Dbl α
  | fin x, fin y => if y = 0 then nan else fin (x / y)
  | _, _ => nan

/-- The C function `sqrt`, given the square root `sq` of the field: a negative
argument gives a NaN. -/
def sqrt (sq : α → α) : Dbl α → Dbl α
  | fin x => if x < 0 then nan else fin (sq x)
  | nan => nan

instance : Zero (Dbl α) := ⟨fin 0⟩
instance : One (Dbl α) := ⟨fin 1⟩
instance : Add (Dbl α) := ⟨add⟩
instance : Sub (Dbl α) := ⟨sub⟩
instance : Mul (Dbl α) := ⟨mul⟩
instance : Div (Dbl α) := ⟨div⟩

/-- The constant `DBL_EPSILON` of `<cfloat>`, `2^-52`. -/
def DBL_EPSILON : α := 1 / 2 ^ 52

/-- The test `x != 0`: true for a NaN. -/
def ne_zero : Dbl α → Bool
  | fin x => decide (x ≠ 0)
  | nan => true

/-- The test `fabs(x) < DBL_EPSILON`: false for a NaN. -/
def fabs_lt_eps : Dbl α → Bool
  | fin x => decide (|x| < DBL_EPSILON)
  | nan => false

/-- The number that a finite double holds (0 for a non-finite one). -/
def get : Dbl α → α
  | fin x => x
  | nan => 0

/-- In exact arithmetic the addition of doubles is associative and commutative
with unit 0, so that sums over lists of doubles are defined. -/
instance : AddCommMonoid (Dbl α) where
  add_assoc a b c := by
    cases a <;> cases b <;> cases c <;>
      first | rfl | exact congrArg fin (add_assoc _ _ _)
  zero_add a := by
    cases a <;> first | rfl | exact congrArg fin (zero_add _)
  add_zero a := by
    cases a <;> first | rfl | exact congrArg fin (add_zero _)
  add_comm a b := by
    cases a <;> cases b <;> first | rfl | exact congrArg fin (add_comm _ _)
  nsmul := nsmulRec

end Dbl

open Dbl

/-! ## Unchecked vector accesses and `for` loops -/

/-- A read `xs[i]`: `none` outside the bounds. -/
def rd {β : Type} (xs : List β) (i : Int) : Option β :=
  if 0 ≤ i then xs[i.toNat]? else none

/-- A write `xs[i] = v`: `none` outside the bounds. -/
def wr {β : Type} (xs : List β) (i : Int) (v : β) : Option (List β) :=
  if 0 ≤ i ∧ i.toNat < xs.length then some (xs.set i.toNat v) else none

/-- The loop `for (int j = lo; j < hi; j++) s = body(j, s)`. -/
def forLoop {σ : Type} (lo hi : Int) (body : Int → σ → Option σ) (s : σ) : Option σ :=
  (List.range (hi - lo).toNat).foldlM (fun s (k : Nat) => body (lo + (k : Int)) s) s

/-- The loop nest shared by the methods of `CSR`:
`for (int i = 0; i < row_ptr.size() - 1; i++)
   for (int j = row_ptr[i]; j < row_ptr[i + 1]; j++) s = body(i, j, s)`. -/
def forEntries {σ : Type} (row_ptr : List Int) (body : Int → Int → σ → Option σ) (s : σ) :
    Option σ :=
  forLoop 0 ((row_ptr.length : Int) - 1) (fun i s => do
    let lo ← rd row_ptr i
    let hi ← rd row_ptr (i + 1)
    forLoop lo hi (body i) s) s

/-- The entry `xs[i]`, or `dflt` outside the bounds. -/
def getI {β : Type} (xs : List β) (dflt : β) (i : Int) : β := (rd xs i).getD dflt

/-- The index pairs `(i, j)` that the loop nest of `forEntries` visits, in
the order of the visit. -/
def entries (row_ptr : List Int) : List (Int × Int) :=
  (List.range (row_ptr.length - 1)).flatMap (fun (i : Nat) =>
    (List.range (row_ptr.getD (i + 1) 0 - row_ptr.getD i 0).toNat).map
      (fun (k : Nat) => ((i : Int), row_ptr.getD i 0 + (k : Int))))

/-- The positions `j` of the entries of row `i`: `row_ptr[i] ≤ j < row_ptr[i+1]`. -/
def rowRange (rp : List Int) (i : Nat) : List Int :=
  (List.range (rp.getD (i + 1) 0 - rp.getD i 0).toNat).map
    (fun (k : Nat) => rp.getD i 0 + (k : Int))

/-! ## The class `CSR` -/

/-- The class `CSR`: the three vectors of a sparse matrix in CSR form. -/
structure CSR (α : Type) where
  values : List (Dbl α)
  row_ptr : List Int
  col_idx : List Int

namespace CSR

variable {α : Type} [LinearOrderedField α]

/-- `CSR::get_nfile`: `row_ptr.size() - 1`. -/
def get_nfile (M : CSR α) : Int := (M.row_ptr.length : Int) - 1

/-- `CSR::normalization` (lines 84-107), with `sq` the square root of `α`.
`row_ptr.size() - 1` wraps around for an empty `row_ptr` and the allocation of
`sum` fails: `none`. -/
def normalization (sq : α → α) (M : CSR α) : Option (CSR α) :=
  if M.row_ptr = [] then none else do
    let sum : List (Dbl α) := List.replicate (M.row_ptr.length - 1) 0
    let sum ← forEntries M.row_ptr (fun i j sum => do
      let s ← rd sum i
      let v ← rd M.values j
      wr sum i (s + v * v)) sum
    let sum ← forLoop 0 sum.length (fun i sum => do
      let s ← rd sum i
      wr sum i (Dbl.sqrt sq s)) sum
    let values ← forEntries M.row_ptr (fun i j values => do
      let v ← rd values j
      let s ← rd sum i
      wr values j (v / s)) M.values
    pure { M with values := values }

/-- `CSR::prod` (lines 194-205). -/
def prod (M : CSR α) (vec : List (Dbl α)) : Option (List (Dbl α)) :=
  if M.row_ptr = [] then none else
    forEntries M.row_ptr (fun i j temp => do
      let t ← rd temp i
      let v ← rd M.values j
      let c ← rd M.col_idx j
      let x ← rd vec c
      wr temp i (t + v * x)) (List.replicate (M.row_ptr.length - 1) 0)

/-- `CSR::prod_t` (lines 211-223): the work vector `temp` has
`row_ptr.size() - 1` entries. -/
def prod_t (M : CSR α) (vec : List (Dbl α)) : Option (List (Dbl α)) :=
  if M.row_ptr = [] then none else
    forEntries M.row_ptr (fun i j temp => do
      let c ← rd M.col_idx j
      let t ← rd temp c
      let v ← rd M.values j
      let x ← rd vec i
      wr temp c (t + v * x)) (List.replicate (M.row_ptr.length - 1) 0)

/-- One pass of the inner `for` of lines 171-179: erase the first entry with
`fabs(x) < DBL_EPSILON`; the flag tells whether one was erased. -/
def eraseFirstTiny : List (Dbl α) → List (Dbl α) × Bool
  | [] => ([], false)
  | x :: xs =>
    if fabs_lt_eps x then (xs, true)
    else ((x :: (eraseFirstTiny xs).1), (eraseFirstTiny xs).2)

/-- The `while (flag == true)` loop of lines 167-180, run for at most `fuel`
passes. -/
def eraseTinyLoop : Nat → List (Dbl α) → List (Dbl α)
  | 0, xs => xs
  | fuel + 1, xs =>
    match eraseFirstTiny xs with
    | (ys, true) => eraseTinyLoop fuel ys
    | (ys, false) => ys

/-- The loop of lines 167-180: every pass but the last erases one entry, so
`size + 1` passes are enough (`eraseTiny_eq_filter`). -/
def eraseTiny (xs : List (Dbl α)) : List (Dbl α) := eraseTinyLoop (xs.length + 1) xs

/-- `CSR::inv_diag` (lines 112-188). -/
def inv_diag (M : CSR α) : Option (CSR α) :=
  if M.row_ptr = [] then none else do
    let e_vec : List (Dbl α) := List.replicate (M.row_ptr.length - 1) 1
    let temp : List (Dbl α) := List.replicate (M.row_ptr.length - 1) 0
    let temp2 : List (Dbl α) := List.replicate (M.row_ptr.length - 1) 0
    let temp ← forEntries M.row_ptr (fun i j temp => do
      let c ← rd M.col_idx j
      let t ← rd temp c
      let v ← rd M.values j
      let e ← rd e_vec i
      wr temp c (t + v * e)) temp
    let temp2 ← forEntries M.row_ptr (fun i j temp2 => do
      let t2 ← rd temp2 i
      let v ← rd M.values j
      let c ← rd M.col_idx j
      let t ← rd temp c
      wr temp2 i (t2 + v * t)) temp2
    let d_values := temp2
    let (d_row_ptr, row_ptr_count, d_col_idx) ←
      forLoop 0 d_values.length (fun i (st : List Int × Int × List Int) => do
        let x ← rd d_values i
        if ne_zero x then
          pure (st.1 ++ [st.2.1], st.2.1 + 1, st.2.2 ++ [i])
        else
          pure (st.1 ++ [st.2.1], st.2.1, st.2.2)) ([], 0, [])
    let d_row_ptr := d_row_ptr ++ [row_ptr_count]
    let d_values := eraseTiny d_values
    let d_values ← forLoop 0 d_values.length (fun i d_values => do
      let x ← rd d_values i
      wr d_values i (1 / x)) d_values
    pure { values := d_values, row_ptr := d_row_ptr, col_idx := d_col_idx }

end CSR

/-! ## `LexRank::prop` -/

section Defs

variable {α : Type} [LinearOrderedField α]

/-- One pass of the loop body of `LexRank::prop` (lines 380-413): the new
`p_vec`.  The norm of the change (lines 406-410) reads `temp` within its
bounds and its value is not used. -/
def prop_step (csr d_csr : CSR α) (nfile : Int) (d : Dbl α) (cons_vec p_vec : List (Dbl α)) :
    Option (List (Dbl α)) := do
  let temp : List (Dbl α) := List.replicate nfile.toNat 0
  let a ← d_csr.prod p_vec
  let b ← csr.prod_t a
  let next_p_vec ← csr.prod b
  let next_p_vec ← forLoop 0 next_p_vec.length (fun i next => do
    let x ← rd next i
    wr next i (x * (1 - d))) next_p_vec
  let next_p_vec ← forLoop 0 next_p_vec.length (fun i next => do
    let c ← rd cons_vec i
    let x ← rd next i
    wr next i (c + x)) next_p_vec
  let _ ← forLoop 0 next_p_vec.length (fun i temp => do
    let x ← rd next_p_vec i
    let p ← rd p_vec i
    wr temp i (x - p)) temp
  pure next_p_vec

/-- `LexRank::prop` (lines 366-417) on the matrix `S` that `csr_matrix()`
returns at line 368: the vector stored in `u`. -/
def prop (sq : α → α) (S : CSR α) (n : Int) (d : Dbl α) : Option (List (Dbl α)) := do
  let csr ← S.normalization sq
  let d_csr ← csr.inv_diag
  let nfile := csr.get_nfile
  let cons : Dbl α := d / fin (nfile : α)
  let p_vec : List (Dbl α) := List.replicate nfile.toNat cons
  let cons_vec : List (Dbl α) := List.replicate nfile.toNat cons
  forLoop 0 n (fun _ p_vec => prop_step csr d_csr nfile d cons_vec p_vec) p_vec

/-! ## Specification-level definitions -/

/-- The invariant of a CSR matrix (spec, section 3): `row_ptr` starts at 0, is
non-decreasing and ends at the number of stored values; `col_idx` is as long
as `values` and holds non-negative column ids. -/
structure CSR.WellFormed {α : Type} (M : CSR α) : Prop where
  row_ptr_head : M.row_ptr.head? = some 0
  row_ptr_sorted : M.row_ptr.Pairwise (· ≤ ·)
  row_ptr_last : M.row_ptr.getLast? = some (M.values.length : Int)
  col_idx_length : M.col_idx.length = M.values.length
  col_idx_nonneg : ∀ c ∈ M.col_idx, 0 ≤ c

/-- The dot product of row `i` of `M` with `vec`, summed over the stored
entries of the row. -/
def CSR.rowDot (M : CSR α) (vec : List (Dbl α)) (i : Nat) : Dbl α :=
  ((rowRange M.row_ptr i).map
    (fun j => getI M.values 0 j * getI vec 0 (getI M.col_idx 0 j))).sum

/-- Entry `c` of the transposed product: the sum of `values[j] * vec[i]` over
the stored entries `(i, j)` with `col_idx[j] = c`. -/
def CSR.colDot (M : CSR α) (vec : List (Dbl α)) (c : Nat) : Dbl α :=
  (((entries M.row_ptr).filter (fun p => (getI M.col_idx 0 p.2).toNat = c)).map
    (fun p => getI M.values 0 p.2 * getI vec 0 p.1)).sum

/-- The sum of the squares of the stored values of row `i`. -/
def CSR.rowSumSq (M : CSR α) (i : Nat) : Dbl α :=
  ((rowRange M.row_ptr i).map (fun j => getI M.values 0 j * getI M.values 0 j)).sum

/-- The vector `S * S^T * 1` of `CSR::inv_diag` (`temp2`): entry `i` is the dot
product of row `i` with the column sums of `M`. -/
def CSR.degree (M : CSR α) : List (Dbl α) :=
  (List.range (M.row_ptr.length - 1)).map
    (M.rowDot ((List.range (M.row_ptr.length - 1)).map
      (M.colDot (List.replicate (M.row_ptr.length - 1) 1))))

/-- The number of entries of `dv` before position `i` that pass the test
`!= 0` of line 151. -/
def nzCount (dv : List (Dbl α)) (i : Nat) : Int :=
  (((List.range i).filter (fun k => ne_zero (dv[k]?.getD 0))).length : Int)

/-- Entry `(i, c)` of the dense matrix that `M` stores: the sum of the stored
values of row `i` whose column id is `c` (0 when the row stores none). -/
def CSR.entry (M : CSR α) (i c : Nat) : Dbl α :=
  (((rowRange M.row_ptr i).filter (fun j => getI M.col_idx 0 j = (c : Int))).map
    (fun j => getI M.values 0 j)).sum

/-- The CSR matrix `M` represents the dense `nrows × ncols` matrix `A`: it is
well formed, has `nrows` rows and column ids below `ncols`, and the entries
that row `i` stores under column `c` add up to `A i c`. -/
structure CSR.Represents (M : CSR ℝ) {nrows ncols : Nat}
    (A : Matrix (Fin nrows) (Fin ncols) ℝ) : Prop where
  wf : M.WellFormed
  nrows_eq : M.row_ptr.length = nrows + 1
  col_lt : ∀ c ∈ M.col_idx, c < (ncols : Int)
  entry_eq : ∀ (i : Fin nrows) (c : Fin ncols), M.entry i c = fin (A i c)

/-- The entries that CSR stores for a dense row: the pairs of the column id
and the value of its non-zero entries, by increasing column. -/
def denseRow (row : List α) : List (Int × Dbl α) :=
  ((List.range row.length).filter (fun (c : Nat) => decide (row.getD c 0 ≠ 0))).map
    (fun (c : Nat) => ((c : Int), fin (row.getD c 0)))

/-- The CSR representation of a dense array given by its rows (spec,
glossary): the non-zero entries, grouped by row, with `row_ptr[i]` the number
of entries stored before row `i`. -/
def CSR.ofDense (A : List (List α)) : CSR α :=
  { values := (A.flatMap denseRow).map Prod.snd
    row_ptr := (List.range (A.length + 1)).map
      (fun (i : Nat) => (((A.take i).flatMap denseRow).length : Int))
    col_idx := (A.flatMap denseRow).map Prod.fst }

/-- A feature matrix whose feature ids index the items: a well-formed CSR
matrix with finite weights `≥ 0` (`csr_matrix` stores no negative weight) and
every column id below the number of rows. -/
structure CSR.InRange (S : CSR ℝ) : Prop where
  wf : S.WellFormed
  nonneg : ∀ v ∈ S.values, v = fin v.get ∧ 0 ≤ v.get
  col_lt : ∀ c ∈ S.col_idx, c < (S.row_ptr.length : Int) - 1

/-- No stored row has L2 norm zero: a row with an entry has a non-zero sum
of squares. -/
def CSR.NoZeroRow (S : CSR ℝ) : Prop :=
  ∀ i : Nat, i + 1 < S.row_ptr.length → rowRange S.row_ptr i ≠ [] → S.rowSumSq i ≠ 0

/-- The matrix after `CSR::normalization`: the rows that store an entry are
unit vectors with entries `≥ 0`. -/
structure CSR.Normalized (S : CSR ℝ) : Prop where
  wf : S.WellFormed
  nonneg : ∀ v ∈ S.values, v = fin v.get ∧ 0 ≤ v.get
  col_lt : ∀ c ∈ S.col_idx, c < (S.row_ptr.length : Int) - 1
  unit : ∀ i : Nat, i + 1 < S.row_ptr.length → rowRange S.row_ptr i ≠ [] →
    S.rowSumSq i = fin 1

/-! ## Concrete matrices -/

/-- The matrix that `csr_matrix` builds from the records `"1,5:1"`, `"2,5:1"`:
two items, feature id 5. -/
def S_two_five : CSR α :=
  { values := [fin 1, fin 1], row_ptr := [0, 1, 2], col_idx := [5, 5] }

/-- The matrix of the single record `"1,7:1"`. -/
def S_one_seven : CSR α := { values := [fin 1], row_ptr := [0, 1], col_idx := [7] }

/-- The matrix of the end-to-end example of the spec, the records `"1,7:w"`,
`"2,7:w"`, `"3"`. -/
def S_example (w : α) : CSR α :=
  { values := [fin w, fin w], row_ptr := [0, 1, 2, 2], col_idx := [7, 7] }

/-- The end-to-end example with feature id 0 in place of 7: the records
`"1,0:1"`, `"2,0:1"`, `"3"`. -/
def S_shared : CSR α :=
  { values := [fin 1, fin 1], row_ptr := [0, 1, 2, 2], col_idx := [0, 0] }

/-- The matrix of the records `"1,7:1"`, `"2"`: the second item is isolated. -/
def S_isolated : CSR α := { values := [fin 1], row_ptr := [0, 1, 1], col_idx := [7] }

/-- The CSR form of the dense `2 × 1` matrix with both entries 1. -/
def M_tall : CSR α := { values := [fin 1, fin 1], row_ptr := [0, 1, 2], col_idx := [0, 0] }

/-- The CSR form of the dense `1 × 2` matrix `(0 1)`. -/
def M_wide : CSR α := { values := [fin 1], row_ptr := [0, 1], col_idx := [1] }

/-- The CSR form of the dense `2 × 2` matrix with rows `(1 2)` and `(0 3)`. -/
def M_square : CSR α :=
  { values := [fin 1, fin 2, fin 3], row_ptr := [0, 2, 3], col_idx := [0, 1, 1] }

/-- A `1 × 1` matrix whose only value is `2^-30`. -/
def S_tiny : CSR α := { values := [fin (1 / 2 ^ 30)], row_ptr := [0, 1], col_idx := [0] }

/-- The matrix of the single record `"1,0:0"`: a stored weight 0. -/
def S_zero_weight : CSR α := { values := [fin 0], row_ptr := [0, 1], col_idx := [0] }

/-- The matrix of the single record `"1,0:1"`. -/
def S_unit : CSR α := { values := [fin 1], row_ptr := [0, 1], col_idx := [0] }

/-- A row with the values 3 and 4. -/
def M_three_four : CSR α :=
  { values := [fin 3, fin 4], row_ptr := [0, 2], col_idx := [0, 1] }

end Defs

/-! ## `LexRank::csr_matrix` -/

/-- The outcome of `std::stoi` or `std::stod` on a token: the value that the
function returns, or one of the two exceptions that the functions throw. -/
inductive Parsed (β : Type) where
  | ok (v : β)
  | invalid_argument
  | out_of_range
deriving DecidableEq

/-- A value that `std::stod` returns: a finite number, an infinity (for the
token `inf`) with its sign, or a NaN (for the token `nan`). -/
inductive Weight (α : Type) where
  | num (x : α)
  | inf (negative : Bool)
  | nan

/-- The loop of `split` (line 43): `piece` is the text read since the last
separator. -/
def splitLoop (sep : Char) : List Char → List Char → List (List Char)
  | [], piece => [piece]
  | c :: cs, piece =>
    if c = sep then piece :: splitLoop sep cs [] else splitLoop sep cs (piece ++ [c])

/-- `split` (lines 34-48) for the one-character separators `","` and `":"` of
its two call sites: the pieces of `str` between the separators; since the loop
runs on `str + sep`, the text after the last separator is a piece too. -/
def split (str : List Char) (sep : Char) : List (List Char) := splitLoop sep str []

/-- The local variables of `LexRank::csr_matrix` and the member `file_ids`. -/
structure Builder (α : Type) where
  values : List (Dbl α)
  row_ptr : List Int
  col_idx : List Int
  e_count : Int
  file_ids : List Int

section CsrMatrix

variable {α : Type} [LinearOrderedField α]

/-- The test `std::stod(result[1]) < 0` of line 334: false for a NaN. -/
def Weight.lt_zero : Weight α → Bool
  | Weight.num x => decide (x < 0)
  | Weight.inf negative => negative
  | Weight.nan => false

/-- The double that `values.push_back` stores for a weight: the one
non-finite value of `Dbl` stands for an infinity and for a NaN. -/
def Weight.toDbl : Weight α → Dbl α
  | Weight.num x => fin x
  | Weight.inf _ => Dbl.nan
  | Weight.nan => Dbl.nan

/-- The loop over the elements of one line (lines 326-351), with `stoi` and
`stod` the library functions `std::stoi` and `std::stod`.
An element without `":"` makes `result[1]` an out-of-range read: `none`. -/
def csr_elements (stoi : List Char → Parsed Int) (stod : List Char → Parsed (Weight α)) :
    List (List Char) → Builder α → Option (Builder α)
  | [], st => some st
  | element :: rest, st =>
    match split element ':' with
    | r0 :: r1 :: _ =>
      match stod r1 with
      | Parsed.invalid_argument => some st
      | Parsed.out_of_range =>
        csr_elements stoi stod rest { st with e_count := st.e_count + 1 }
      | Parsed.ok w =>
        if w.lt_zero = true then csr_elements stoi stod rest st
        else
          match stoi r0 with
          | Parsed.invalid_argument => some st
          | Parsed.out_of_range =>
            csr_elements stoi stod rest { st with e_count := st.e_count + 1 }
          | Parsed.ok c =>
            csr_elements stoi stod rest
              { st with
                col_idx := st.col_idx ++ [c]
                values := st.values ++ [w.toDbl]
                e_count := st.e_count + 1 }
    | _ => none

/-- The `try` block of lines 288-300 and 309-321: `file_ids` gets the
identifier when `std::stoi` returns. -/
def csr_file_id (stoi : List Char → Parsed Int) (text : List Char) (st : Builder α) :
    Builder α :=
  match stoi text with
  | Parsed.ok file_id => { st with file_ids := st.file_ids ++ [file_id] }
  | _ => st

/-- The body of the `while (getline(...))` loop (lines 279-352) for one line. -/
def csr_line (stoi : List Char → Parsed Int) (stod : List Char → Parsed (Weight α))
    (line : List Char) (st : Builder α) : Option (Builder α) :=
  if ',' ∈ line then
    let pos := line.indexOf ','
    let st := csr_file_id stoi (line.take pos) st
    let st := { st with row_ptr := st.row_ptr ++ [st.e_count] }
    csr_elements stoi stod (split (line.drop (pos + 1)) ',') st
  else
    let st := csr_file_id stoi line st
    some { st with row_ptr := st.row_ptr ++ [st.e_count] }

/-- `LexRank::csr_matrix` (lines 262-357) on the lines of the input file: the
matrix that it returns and the member `file_ids`. -/
def csr_matrix (stoi : List Char → Parsed Int) (stod : List Char → Parsed (Weight α))
    (lines : List (List Char)) : Option (CSR α × List Int) := do
  let st ← lines.foldlM (fun st line => csr_line stoi stod line st)
    { values := [], row_ptr := [], col_idx := [], e_count := 0, file_ids := [] }
  pure ({ values := st.values, row_ptr := st.row_ptr ++ [st.e_count], col_idx := st.col_idx },
    st.file_ids)

/-! ### Readers of decimal tokens -/

/-- The decimal digits at the start of a text. -/
def readDigits (s : List Char) : List Nat :=
  (s.takeWhile Char.isDigit).map (fun c => c.toNat - '0'.toNat)

/-- The number that a list of decimal digits writes. -/
def digitsValue (ds : List Nat) : Nat := ds.foldl (fun n d => 10 * n + d) 0

/-- An optional sign at the start of a text: whether it is `-`, and the rest. -/
def readSign : List Char → Bool × List Char
  | '-' :: t => (true, t)
  | '+' :: t => (false, t)
  | s => (false, s)

/-- A model of `std::stoi` in base 10, used for the examples: leading white
space, an optional sign and decimal digits are read and the rest of the text
is ignored; no digit gives `invalid_argument`, a value outside the range of
`int` gives `out_of_range`. -/
def stoi10 (s : List Char) : Parsed Int :=
  let t := readSign (s.dropWhile Char.isWhitespace)
  let ds := readDigits t.2
  if ds = [] then Parsed.invalid_argument
  else
    let v : Int := if t.1 then -(digitsValue ds : Int) else (digitsValue ds : Int)
    if v < -2147483648 ∨ 2147483647 < v then Parsed.out_of_range else Parsed.ok v

/-- A model of `std::stod` on plain decimal tokens, used for the examples:
leading white space and an optional sign are read, then the token `nan` or
`inf` (in any case), or digits and an optional fraction; the rest of the text
is ignored; no digit gives `invalid_argument`.  Exponents and hexadecimal
numbers are not modelled. -/
def stod10 (s : List Char) : Parsed (Weight α) :=
  let t := readSign (s.dropWhile Char.isWhitespace)
  if (t.2.take 3).map Char.toLower = ['n', 'a', 'n'] then Parsed.ok Weight.nan
  else if (t.2.take 3).map Char.toLower = ['i', 'n', 'f'] then Parsed.ok (Weight.inf t.1)
  else
    let ip := readDigits t.2
    let fp := match t.2.dropWhile Char.isDigit with
      | '.' :: u => readDigits u
      | _ => []
    if ip = [] ∧ fp = [] then Parsed.invalid_argument
    else
      let m : α := ((digitsValue (ip ++ fp) : Nat) : α) / 10 ^ fp.length
      Parsed.ok (Weight.num (if t.1 then -m else m))

end CsrMatrix

/-! ### What `csr_matrix` stores for each line -/

/-- What the loop body of lines 326-351 does with one element. -/
inductive ElemAction (α : Type) where
  | undefined
  | stop
  | skip
  | count
  | store (c : Int) (w : Weight α)

section ScanDefs

variable {α : Type} [LinearOrderedField α]

/-- The action of the loop body on an element: an out-of-range read of
`result[1]` (`undefined`), the `break` after `invalid_argument` (`stop`), the
`continue` on a negative weight (`skip`), the bare `e_count++` after
`out_of_range` (`count`), or the two `push_back` and `e_count++` (`store`). -/
def elemAction (stoi : List Char → Parsed Int) (stod : List Char → Parsed (Weight α))
    (element : List Char) : ElemAction α :=
  match split element ':' with
  | r0 :: r1 :: _ =>
    match stod r1 with
    | Parsed.invalid_argument => ElemAction.stop
    | Parsed.out_of_range => ElemAction.count
    | Parsed.ok w =>
      if w.lt_zero = true then ElemAction.skip
      else
        match stoi r0 with
        | Parsed.invalid_argument => ElemAction.stop
        | Parsed.out_of_range => ElemAction.count
        | Parsed.ok c => ElemAction.store c w
  | _ => ElemAction.undefined

/-- The pairs that the loop over the elements of a line stores, and the
number that it adds to `e_count`; `none` when the loop reads out of range. -/
def scanElements (stoi : List Char → Parsed Int) (stod : List Char → Parsed (Weight α)) :
    List (List Char) → Option (List (Int × Weight α) × Int)
  | [] => some ([], 0)
  | element :: rest =>
    match elemAction stoi stod element with
    | ElemAction.undefined => none
    | ElemAction.stop => some ([], 0)
    | ElemAction.skip => scanElements stoi stod rest
    | ElemAction.count => (scanElements stoi stod rest).map (fun r => (r.1, r.2 + 1))
    | ElemAction.store c w =>
      (scanElements stoi stod rest).map (fun r => ((c, w) :: r.1, r.2 + 1))

/-- The elements of a line: the text after the first comma, split at the
commas; none for a line without a comma. -/
def lineElements (line : List Char) : List (List Char) :=
  if ',' ∈ line then split (line.drop (line.indexOf ',' + 1)) ',' else []

/-- The text of the identifier of a line: the text before the first comma. -/
def lineIdText (line : List Char) : List Char :=
  if ',' ∈ line then line.take (line.indexOf ',') else line

/-- The identifiers that a line adds to `file_ids`. -/
def lineIds (stoi : List Char → Parsed Int) (line : List Char) : List Int :=
  match stoi (lineIdText line) with
  | Parsed.ok file_id => [file_id]
  | _ => []

/-- The scan of every line of a file, `none` when a line reads out of range. -/
def scanLines (stoi : List Char → Parsed Int) (stod : List Char → Parsed (Weight α)) :
    List (List Char) → Option (List (List (Int × Weight α) × Int))
  | [] => some []
  | line :: rest =>
    match scanElements stoi stod (lineElements line) with
    | none => none
    | some r => (scanLines stoi stod rest).map (fun rs => r :: rs)

/-- The matrix that `csr_matrix` builds from the scans of the lines: the
stored pairs in order, and in `row_ptr` the value of `e_count` at the start
of each line and at the end. -/
def matrixOf (rs : List (List (Int × Weight α) × Int)) : CSR α :=
  { values := rs.flatMap (fun r => r.1.map (fun p => p.2.toDbl))
    row_ptr := (List.range (rs.length + 1)).map
      (fun (k : Nat) => (((rs.take k).map (fun r => r.2)).sum : Int))
    col_idx := rs.flatMap (fun r => r.1.map (fun p => p.1)) }

/-- The stored entries of row `i`: the pairs of a column id and a value. -/
def CSR.rowPairs (M : CSR α) (i : Nat) : List (Int × Dbl α) :=
  (rowRange M.row_ptr i).map (fun j => (getI M.col_idx 0 j, getI M.values 0 j))

end ScanDefs

section ParseDefs

variable {α : Type} [LinearOrderedField α]

/-- The pair that an element writes when both of its numbers parse. -/
def parsedPair (stoi : List Char → Parsed Int) (stod : List Char → Parsed (Weight α))
    (element : List Char) : Option (Int × Weight α) :=
  match split element ':' with
  | r0 :: r1 :: _ =>
    match stoi r0, stod r1 with
    | Parsed.ok c, Parsed.ok w => some (c, w)
    | _, _ => none
  | _ => none

/-- Every element of the line is a pair `featureId:weight` whose two numbers
parse. -/
def PairsParse (stoi : List Char → Parsed Int) (stod : List Char → Parsed (Weight α))
    (line : List Char) : Prop :=
  ∀ e ∈ lineElements line, (parsedPair stoi stod e).isSome = true

/-- Every element of the line has a `":"`, and neither of its two numbers is
out of the range of its type: `std::stoi` and `std::stod` may throw
`invalid_argument` on them, not `out_of_range`. -/
def NoOutOfRange (stoi : List Char → Parsed Int) (stod : List Char → Parsed (Weight α))
    (line : List Char) : Prop :=
  ∀ e ∈ lineElements line, ∃ r0 r1 tl, split e ':' = r0 :: r1 :: tl ∧
    stoi r0 ≠ Parsed.out_of_range ∧ stod r1 ≠ Parsed.out_of_range

/-- The pairs of a line whose weight is not strictly less than zero, in the
order of the line, with the weight as the double that is stored. -/
def keptPairs (stoi : List Char → Parsed Int) (stod : List Char → Parsed (Weight α))
    (line : List Char) : List (Int × Dbl α) :=
  (((lineElements line).filterMap (parsedPair stoi stod)).filter
    (fun p => !p.2.lt_zero)).map (fun p => (p.1, p.2.toDbl))

end ParseDefs

/-- The matrix after `CSR::normalization` of a feature matrix with weights
`≥ 0`: a stored value is a NaN (its row had norm zero) or a number `≥ 0`, and
a row that stores an entry has sum of squares 1 unless its values are NaN. -/
structure CSR.RowScaled (S : CSR ℝ) : Prop where
  wf : S.WellFormed
  value_cases : ∀ v ∈ S.values, v = nan ∨ (v = fin v.get ∧ 0 ≤ v.get)
  col_lt : ∀ c ∈ S.col_idx, c < (S.row_ptr.length : Int) - 1
  unit : ∀ i : Nat, i + 1 < S.row_ptr.length → rowRange S.row_ptr i ≠ [] →
    S.rowSumSq i = nan ∨ S.rowSumSq i = fin 1

/-- Row `i` stores a feature that a row of norm zero stores too (row `i`
itself, when it stores an entry and has norm zero). -/
def CSR.TouchesZeroRow (S : CSR ℝ) (i : Nat) : Prop :=
  ∃ j ∈ rowRange S.row_ptr i, ∃ r : Nat, r + 1 < S.row_ptr.length ∧ S.rowSumSq r = fin 0 ∧
    ∃ q ∈ rowRange S.row_ptr r, getI S.col_idx 0 q = getI S.col_idx 0 j

section ScaleDefs
variable {α : Type} [LinearOrderedField α]

/-- Modelled from the spec: the matrix of the input in which every weight of
record `i` is multiplied by `c`, the stored values at the positions
`row_ptr[i] ≤ k < row_ptr[i+1]`. -/
def CSR.scaleRow (S : CSR α) (i : Nat) (c : α) : CSR α :=
  { S with
    values := (List.range S.values.length).map (fun (k : Nat) =>
      if S.row_ptr.getD i 0 ≤ (k : Int) ∧ (k : Int) < S.row_ptr.getD (i + 1) 0
      then fin c * S.values[k]?.getD 0 else S.values[k]?.getD 0) }

/-- The matrix of the records `"1,0:0"`, `"2,0:1"`: the first row has norm
zero and shares feature 0 with the second. -/
def S_zero_and_unit : CSR α :=
  { values := [fin 0, fin 1], row_ptr := [0, 1, 2], col_idx := [0, 0] }

/-- The matrix of the records `"1,0:0"`, `"2,1:1"`: the first row has norm
zero and shares no feature with the second. -/
def S_zero_apart : CSR α :=
  { values := [fin 0, fin 1], row_ptr := [0, 1, 2], col_idx := [0, 1] }

/-- The matrix of the records `"1,0:1"`, `"2,1:1"`, `"3,2:1"`: no two items
share a feature. -/
def S_disjoint : CSR α :=
  { values := [fin 1, fin 1, fin 1], row_ptr := [0, 1, 2, 3], col_idx := [0, 1, 2] }

end ScaleDefs

/-- Every record has at least one strictly positive weight. -/
def CSR.PositiveRows (S : CSR ℝ) : Prop :=
  ∀ i : Nat, i + 1 < S.row_ptr.length →
    ∃ j ∈ rowRange S.row_ptr i, 0 < (getI S.values 0 j).get

/-! ## Lemmas -/

/-! ### Arithmetic of doubles -/

section DblLemmas
variable {α : Type} [LinearOrderedField α]

@[simp] theorem Dbl.fin_add_fin (x y : α) : (fin x + fin y : Dbl α) = fin (x + y) := rfl
@[simp] theorem Dbl.fin_mul_fin (x y : α) : (fin x * fin y : Dbl α) = fin (x * y) := rfl
@[simp] theorem Dbl.fin_sub_fin (x y : α) : (fin x - fin y : Dbl α) = fin (x - y) := rfl
@[simp] theorem Dbl.nan_add (x : Dbl α) : (nan + x : Dbl α) = nan := rfl
@[simp] theorem Dbl.add_nan (x : Dbl α) : (x + nan : Dbl α) = nan := by cases x <;> rfl
@[simp] theorem Dbl.nan_mul (x : Dbl α) : (nan * x : Dbl α) = nan := rfl
@[simp] theorem Dbl.mul_nan (x : Dbl α) : (x * nan : Dbl α) = nan := by cases x <;> rfl
@[simp] theorem Dbl.nan_sub (x : Dbl α) : (nan - x : Dbl α) = nan := rfl
@[simp] theorem Dbl.sub_nan (x : Dbl α) : (x - nan : Dbl α) = nan := by cases x <;> rfl
@[simp] theorem Dbl.nan_div (x : Dbl α) : (nan / x : Dbl α) = nan := rfl
@[simp] theorem Dbl.div_nan (x : Dbl α) : (x / nan : Dbl α) = nan := by cases x <;> rfl
theorem Dbl.fin_div_fin (x y : α) :
    (fin x / fin y : Dbl α) = if y = 0 then nan else fin (x / y) := rfl
@[simp] theorem Dbl.fin_div_fin_of_ne (x : α) {y : α} (h : y ≠ 0) :
    (fin x / fin y : Dbl α) = fin (x / y) := by simp [Dbl.fin_div_fin, h]
@[simp] theorem Dbl.fin_div_zero (x : α) : (fin x / fin 0 : Dbl α) = nan := by
  simp [Dbl.fin_div_fin]
theorem Dbl.zero_def : (0 : Dbl α) = fin 0 := rfl
theorem Dbl.one_def : (1 : Dbl α) = fin 1 := rfl

theorem Dbl.sum_map_fin {ι : Type} (l : List ι) (f : ι → α) :
    (l.map (fun x => (fin (f x) : Dbl α))).sum = fin ((l.map f).sum) := by
  induction l with
  | nil => rfl
  | cons a l ih => simp [ih]

end DblLemmas

/-! ### Vector accesses -/

section Access
variable {β : Type}

theorem rd_natCast (xs : List β) (k : Nat) : rd xs (k : Int) = xs[k]? := by
  simp [rd]

theorem rd_eq_some_getI (xs : List β) (dflt : β) {i : Int} (h0 : 0 ≤ i)
    (h1 : i < xs.length) : rd xs i = some (getI xs dflt i) := by
  obtain ⟨k, rfl⟩ := Int.eq_ofNat_of_zero_le h0
  have hk : k < xs.length := by exact_mod_cast h1
  simp [getI, rd_natCast, List.getElem?_eq_getElem hk]

theorem getI_natCast (xs : List β) (dflt : β) (k : Nat) :
    getI xs dflt (k : Int) = xs[k]?.getD dflt := by
  simp [getI, rd_natCast]

theorem wr_natCast (xs : List β) {k : Nat} (v : β) (h : k < xs.length) :
    wr xs (k : Int) v = some (xs.set k v) := by
  simp [wr, h]

theorem wr_eq_some (xs : List β) {i : Int} (v : β) (h0 : 0 ≤ i) (h1 : i < xs.length) :
    wr xs i v = some (xs.set i.toNat v) := by
  obtain ⟨k, rfl⟩ := Int.eq_ofNat_of_zero_le h0
  have hk : k < xs.length := by exact_mod_cast h1
  simp [wr, hk]

end Access

/-! ### The loop nest as a fold over the visited index pairs -/

section Loops
variable {σ : Type}

theorem foldlM_flatMap_option {ι κ : Type} (f : σ → κ → Option σ) (g : ι → List κ) :
    ∀ (l : List ι) (s : σ),
      (l.flatMap g).foldlM f s = l.foldlM (fun s i => (g i).foldlM f s) s := by
  intro l
  induction l with
  | nil => intro s; rfl
  | cons a l ih =>
    intro s
    simp only [List.flatMap_cons, List.foldlM_append, List.foldlM_cons]
    cases h : (g a).foldlM f s with
    | none => rfl
    | some s1 => simpa using ih s1

theorem foldlM_congr_option {ι : Type} (f g : σ → ι → Option σ) :
    ∀ (l : List ι) (s : σ), (∀ x ∈ l, ∀ s, f s x = g s x) → l.foldlM f s = l.foldlM g s := by
  intro l
  induction l with
  | nil => intro s _; rfl
  | cons a l ih =>
    intro s h
    simp only [List.foldlM_cons]
    rw [h a (List.mem_cons_self _ _) s]
    cases g s a with
    | none => rfl
    | some s1 => exact ih s1 (fun x hx => h x (List.mem_cons_of_mem _ hx))

/-- The loop nest visits the index pairs of `entries` in order. -/
theorem forEntries_eq (row_ptr : List Int) (body : Int → Int → σ → Option σ) (s : σ) :
    forEntries row_ptr body s = (entries row_ptr).foldlM (fun s p => body p.1 p.2 s) s := by
  unfold forEntries forLoop entries
  rw [foldlM_flatMap_option]
  have hn : ((row_ptr.length : Int) - 1 - 0).toNat = row_ptr.length - 1 := by omega
  rw [hn]
  apply foldlM_congr_option
  intro i hi s
  have hi1 : i + 1 < row_ptr.length := by
    have := List.mem_range.1 hi; omega
  have hi0 : i < row_ptr.length := by omega
  have e0 : rd row_ptr (0 + (i : Int)) = some (row_ptr.getD i 0) := by
    rw [zero_add, rd_natCast, List.getElem?_eq_getElem hi0, List.getD_eq_getElem _ _ hi0]
  have e1 : rd row_ptr (0 + (i : Int) + 1) = some (row_ptr.getD (i + 1) 0) := by
    have : (0 + (i : Int) + 1) = ((i + 1 : Nat) : Int) := by push_cast; ring
    rw [this, rd_natCast, List.getElem?_eq_getElem hi1, List.getD_eq_getElem _ _ hi1]
  rw [zero_add] at e0 e1
  simp only [e0, e1, Option.bind_eq_bind, Option.some_bind, List.foldlM_map, zero_add]

end Loops

/-! ### Accumulating and updating folds -/

section Folds
variable {ι β : Type}

/-- A loop that adds `w x` to entry `key x` of a vector for each `x` of `l`
adds to each entry `c` the sum of the `w x` with `key x = c`. -/
theorem foldlM_scatter [AddCommMonoid β] (n : Nat) (key : ι → Nat) (w : ι → β)
    (body : List β → ι → Option (List β)) :
    ∀ (l : List ι) (t : List β), t.length = n →
      (∀ x ∈ l, ∀ t : List β, t.length = n →
        body t x = some (t.set (key x) (t[key x]?.getD 0 + w x))) →
      l.foldlM body t = some ((List.range n).map fun c =>
        t[c]?.getD 0 + ((l.filter (fun x => key x = c)).map w).sum) := by
  intro l
  induction l with
  | nil =>
    intro t ht _
    simp only [List.foldlM_nil, List.filter_nil, List.map_nil, List.sum_nil, add_zero]
    congr 1
    apply List.ext_getElem
    · simp [ht]
    · intro c h1 h2
      simp [List.getElem?_eq_getElem h1]
  | cons a l ih =>
    intro t ht hb
    rw [List.foldlM_cons, hb a (List.mem_cons_self _ _) t ht]
    simp only [Option.bind_eq_bind, Option.some_bind]
    rw [ih _ (by simp [ht]) (fun x hx => hb x (List.mem_cons_of_mem _ hx))]
    congr 1
    apply List.map_congr_left
    intro c hc
    have hc : c < t.length := by rw [ht]; exact List.mem_range.1 hc
    by_cases hk : key a = c
    · subst hk
      simp [List.getElem?_set, hc, List.filter_cons, add_assoc]
    · simp [List.getElem?_set, hk, List.filter_cons]

/-- A loop that replaces entry `key x` by `g x` of it, for keys that are
pairwise different, changes exactly the entries at the keys. -/
theorem foldlM_update (n : Nat) (key : ι → Nat) (g : ι → β → β)
    (body : List β → ι → Option (List β)) :
    ∀ (l : List ι) (t : List β), t.length = n → (l.map key).Nodup →
      (∀ x ∈ l, key x < n) →
      (∀ x ∈ l, ∀ t : List β, ∀ h : key x < t.length, 
        body t x = some (t.set (key x) (g x t[key x]))) →
      ∃ t', l.foldlM body t = some t' ∧ t'.length = n ∧
        (∀ x ∈ l, t'[key x]? = (t[key x]?).map (g x)) ∧
        (∀ k, k ∉ l.map key → t'[k]? = t[k]?) := by
  intro l
  induction l with
  | nil =>
    intro t ht _ _ _
    exact ⟨t, rfl, ht, by simp, by simp⟩
  | cons a l ih =>
    intro t ht hnd hlt hb
    rw [List.map_cons, List.nodup_cons] at hnd
    have hka : key a < t.length := by rw [ht]; exact hlt a (List.mem_cons_self _ _)
    obtain ⟨t', h1, h2, h3, h4⟩ := ih (t.set (key a) (g a t[key a])) (by simp [ht]) hnd.2
      (fun x hx => hlt x (List.mem_cons_of_mem _ hx))
      (fun x hx => hb x (List.mem_cons_of_mem _ hx))
    refine ⟨t', ?_, h2, ?_, ?_⟩
    · rw [List.foldlM_cons, hb a (List.mem_cons_self _ _) t hka]
      simpa using h1
    · intro x hx
      rcases List.mem_cons.1 hx with rfl | hx
      · rw [h4 _ hnd.1]
        simp [List.getElem?_set, hka, List.getElem?_eq_getElem hka]
      · rw [h3 x hx]
        have hne : key a ≠ key x := by
          intro h
          exact hnd.1 (h ▸ List.mem_map_of_mem key hx)
        simp [List.getElem?_set, hne]
    · intro k hk
      simp only [List.map_cons, List.mem_cons, not_or] at hk
      rw [h4 k hk.2]
      simp [List.getElem?_set, Ne.symm hk.1]

end Folds

/-! ### The entries of a well-formed matrix -/

section Entries

theorem mem_entries {rp : List Int} {p : Int × Int} :
    p ∈ entries rp ↔ ∃ i k : Nat, i + 1 < rp.length ∧
      k < (rp.getD (i + 1) 0 - rp.getD i 0).toNat ∧ p = ((i : Int), rp.getD i 0 + (k : Int)) := by
  unfold entries
  simp only [List.mem_flatMap, List.mem_range, List.mem_map]
  constructor
  · rintro ⟨i, hi, k, hk, rfl⟩
    exact ⟨i, k, by omega, hk, rfl⟩
  · rintro ⟨i, k, hi, hk, rfl⟩
    exact ⟨i, by omega, k, hk, rfl⟩

theorem getD_le_getD {rp : List Int} (hs : rp.Pairwise (· ≤ ·)) {i j : Nat} (hij : i ≤ j)
    (hj : j < rp.length) : rp.getD i 0 ≤ rp.getD j 0 := by
  have hi : i < rp.length := by omega
  rw [List.getD_eq_getElem _ _ hi, List.getD_eq_getElem _ _ hj]
  rcases Nat.eq_or_lt_of_le hij with h | h
  · subst h; exact le_refl _
  · exact List.pairwise_iff_getElem.1 hs i j hi hj h

theorem getD_zero_of_head {rp : List Int} (h : rp.head? = some 0) : rp.getD 0 0 = 0 := by
  cases rp with
  | nil => simp at h
  | cons a l => simpa using h

theorem getD_last {rp : List Int} {L : Int} (h : rp.getLast? = some L) :
    rp.getD (rp.length - 1) 0 = L := by
  cases rp with
  | nil => simp at h
  | cons a l =>
    rw [List.getLast?_eq_getElem?] at h
    have hlt : (a :: l).length - 1 < (a :: l).length := by simp
    rw [List.getD_eq_getElem _ _ hlt]
    rw [List.getElem?_eq_getElem hlt] at h
    exact Option.some.inj h

theorem entries_bounds {rp : List Int} {L : Nat} (h0 : rp.head? = some 0)
    (hs : rp.Pairwise (· ≤ ·)) (hl : rp.getLast? = some (L : Int)) {p : Int × Int}
    (hp : p ∈ entries rp) :
    0 ≤ p.1 ∧ p.1 < (rp.length : Int) - 1 ∧ 0 ≤ p.2 ∧ p.2 < L := by
  obtain ⟨i, k, hi, hk, rfl⟩ := mem_entries.1 hp
  have h1 : rp.getD 0 0 ≤ rp.getD i 0 := getD_le_getD hs (Nat.zero_le _) (by omega)
  have h2 : rp.getD (i + 1) 0 ≤ rp.getD (rp.length - 1) 0 :=
    getD_le_getD hs (by omega) (by omega)
  rw [getD_zero_of_head h0] at h1
  rw [getD_last hl] at h2
  refine ⟨?_, ?_, ?_, ?_⟩ <;> dsimp only <;> omega

theorem flatMap_blocks (r : Nat → Int) (h0 : r 0 = 0) :
    ∀ m : Nat, (∀ i, i < m → r i ≤ r (i + 1)) →
      (List.range m).flatMap (fun (i : Nat) =>
        (List.range (r (i + 1) - r i).toNat).map (fun (k : Nat) => r i + (k : Int))) =
      (List.range (r m).toNat).map (fun (k : Nat) => (k : Int)) := by
  intro m
  induction m with
  | zero => intro _; simp [h0]
  | succ m ih =>
    intro hm
    have hnn : ∀ i, i ≤ m + 1 → 0 ≤ r i := by
      intro i
      induction i with
      | zero => intro _; rw [h0]
      | succ i ihi => intro hi; exact le_trans (ihi (by omega)) (hm i (by omega))
    rw [List.range_succ, List.flatMap_append, ih (fun i hi => hm i (by omega))]
    simp only [List.flatMap_cons, List.flatMap_nil, List.append_nil]
    obtain ⟨a, ha⟩ := Int.eq_ofNat_of_zero_le (hnn m (by omega))
    obtain ⟨b, hb⟩ := Int.eq_ofNat_of_zero_le (hnn (m + 1) (by omega))
    have hab : a ≤ b := by
      have := hm m (by omega)
      rw [ha, hb] at this
      exact_mod_cast this
    rw [ha, hb]
    have e1 : ((b : Int) - (a : Int)).toNat = b - a := by omega
    rw [e1, Int.toNat_ofNat, Int.toNat_ofNat]
    have e2 : List.range b = List.range a ++ (List.range (b - a)).map (fun k => a + k) := by
      rw [← List.range'_eq_map_range, List.range_eq_range', List.range_eq_range']
      have e3 : List.range' 0 a ++ List.range' (0 + a) (b - a) = List.range' 0 (b - a + a) :=
        List.range'_append_1 0 a (b - a)
      rw [Nat.zero_add] at e3
      rw [e3]
      congr 1
      omega
    rw [e2, List.map_append, List.map_map]
    congr 1

theorem entries_snd {rp : List Int} {L : Nat} (h0 : rp.head? = some 0)
    (hs : rp.Pairwise (· ≤ ·)) (hl : rp.getLast? = some (L : Int)) :
    (entries rp).map Prod.snd = (List.range L).map (fun (k : Nat) => (k : Int)) := by
  unfold entries
  rw [List.map_flatMap]
  simp only [List.map_map, Function.comp_def]
  have := flatMap_blocks (fun i => rp.getD i 0) (getD_zero_of_head h0) (rp.length - 1)
    (fun i hi => getD_le_getD hs (Nat.le_succ i) (by omega))
  simp only at this
  rw [this, getD_last hl, Int.toNat_ofNat]

theorem entries_filter_row (rp : List Int) (i : Nat) (hi : i + 1 < rp.length) :
    (entries rp).filter (fun p => p.1.toNat = i) = (rowRange rp i).map (fun j => ((i : Int), j)) := by
  unfold entries rowRange
  rw [List.filter_flatMap]
  have key : ∀ (m : Nat), 
      (List.range m).flatMap (fun (i' : Nat) =>
        ((List.range (rp.getD (i' + 1) 0 - rp.getD i' 0).toNat).map
          (fun (k : Nat) => ((i' : Int), rp.getD i' 0 + (k : Int)))).filter
            (fun p => p.1.toNat = i)) =
      if i < m then (List.range (rp.getD (i + 1) 0 - rp.getD i 0).toNat).map
          (fun (k : Nat) => ((i : Int), rp.getD i 0 + (k : Int))) else [] := by
    intro m
    induction m with
    | zero => simp
    | succ m ih =>
      rw [List.range_succ, List.flatMap_append, ih]
      simp only [List.flatMap_cons, List.flatMap_nil, List.append_nil, List.filter_map,
        Function.comp_def, Int.toNat_ofNat]
      by_cases h1 : i < m
      · have h2 : ¬ m = i := by omega
        simp [h1, h2, Nat.lt_succ_of_lt h1]
      · by_cases h2 : m = i
        · subst h2; simp
        · have h3 : ¬ i < m + 1 := by omega
          simp [h1, h2, h3]
  rw [key]
  have : i < rp.length - 1 := by omega
  simp [this, List.map_map, Function.comp_def]

end Entries

/-! ### `CSR::prod` as row dot products -/

section ProdChar
variable {α : Type} [LinearOrderedField α]
set_option linter.unusedSectionVars false

theorem CSR.WellFormed.row_ptr_ne {M : CSR α} (h : M.WellFormed) : M.row_ptr ≠ [] := by
  intro h0
  have := h.row_ptr_head
  rw [h0] at this
  simp at this

theorem CSR.WellFormed.bounds {M : CSR α} (h : M.WellFormed) {p : Int × Int}
    (hp : p ∈ entries M.row_ptr) :
    0 ≤ p.1 ∧ p.1 < (M.row_ptr.length : Int) - 1 ∧ 0 ≤ p.2 ∧ p.2 < M.values.length :=
  entries_bounds h.row_ptr_head h.row_ptr_sorted h.row_ptr_last hp

theorem getI_mem {β : Type} (xs : List β) (dflt : β) {i : Int} (h0 : 0 ≤ i)
    (h1 : i < xs.length) : getI xs dflt i ∈ xs := by
  obtain ⟨k, rfl⟩ := Int.eq_ofNat_of_zero_le h0
  have hk : k < xs.length := by exact_mod_cast h1
  rw [getI_natCast, List.getElem?_eq_getElem hk]
  exact List.getElem_mem hk

theorem rd_eq_getElem?_toNat {β : Type} (xs : List β) {i : Int} (h0 : 0 ≤ i) :
    rd xs i = xs[i.toNat]? := by
  simp [rd, h0]

theorem rd_eq_some_getD {β : Type} (xs : List β) (dflt : β) {i : Int} (h0 : 0 ≤ i)
    (h1 : i < xs.length) : rd xs i = some (xs[i.toNat]?.getD dflt) := by
  rw [rd_eq_getElem?_toNat xs h0]
  have : i.toNat < xs.length := by omega
  simp [List.getElem?_eq_getElem this]

/-- `CSR::prod` on a well-formed matrix whose column ids index `vec`: no
access is out of range and entry `i` is the dot product of row `i`. -/
theorem CSR.prod_eq (M : CSR α) (vec : List (Dbl α)) (hwf : M.WellFormed)
    (hcol : ∀ c ∈ M.col_idx, c < vec.length) :
    M.prod vec = some ((List.range (M.row_ptr.length - 1)).map (M.rowDot vec)) := by
  unfold CSR.prod
  rw [if_neg hwf.row_ptr_ne, forEntries_eq]
  rw [foldlM_scatter (M.row_ptr.length - 1) (fun p => p.1.toNat)
    (fun p => getI M.values 0 p.2 * getI vec 0 (getI M.col_idx 0 p.2))]
  · congr 1
    apply List.map_congr_left
    intro i hi
    have hi : i + 1 < M.row_ptr.length := by
      have := List.mem_range.1 hi; omega
    have hz : (List.replicate (M.row_ptr.length - 1) (0 : Dbl α))[i]?.getD 0 = 0 := by
      rw [List.getElem?_replicate]; split <;> rfl
    rw [hz, zero_add, entries_filter_row _ _ hi, List.map_map]
    rfl
  · simp
  · intro p hp t ht
    obtain ⟨h1, h2, h3, h4⟩ := hwf.bounds hp
    have hc : getI M.col_idx 0 p.2 ∈ M.col_idx :=
      getI_mem _ _ h3 (by rw [hwf.col_idx_length]; exact h4)
    have e1 := rd_eq_some_getD t 0 h1 (by omega)
    have e2 := rd_eq_some_getI M.values 0 h3 h4
    have e3 := rd_eq_some_getI M.col_idx 0 h3 (by rw [hwf.col_idx_length]; exact h4)
    have e4 := rd_eq_some_getI vec 0 (hwf.col_idx_nonneg _ hc) (hcol _ hc)
    simp only [e1, e2, e3, e4, Option.bind_eq_bind, Option.some_bind]
    rw [wr_eq_some t _ h1 (by omega)]

end ProdChar

/-! ### `CSR::prod_t` and `CSR::normalization` -/

section NormChar
variable {α : Type} [LinearOrderedField α]
set_option linter.unusedSectionVars false

/-- `CSR::prod_t` on a well-formed matrix whose column ids are below the
number of rows: no access is out of range and entry `c` sums the stored
entries of column `c`. -/
theorem CSR.prod_t_eq (M : CSR α) (vec : List (Dbl α)) (hwf : M.WellFormed)
    (hcol : ∀ c ∈ M.col_idx, c < (M.row_ptr.length : Int) - 1)
    (hvec : M.row_ptr.length - 1 ≤ vec.length) :
    M.prod_t vec = some ((List.range (M.row_ptr.length - 1)).map (M.colDot vec)) := by
  unfold CSR.prod_t
  rw [if_neg hwf.row_ptr_ne, forEntries_eq]
  rw [foldlM_scatter (M.row_ptr.length - 1) (fun p => (getI M.col_idx 0 p.2).toNat)
    (fun p => getI M.values 0 p.2 * getI vec 0 p.1)]
  · congr 1
    apply List.map_congr_left
    intro i hi
    have hz : (List.replicate (M.row_ptr.length - 1) (0 : Dbl α))[i]?.getD 0 = 0 := by
      rw [List.getElem?_replicate]; split <;> rfl
    rw [hz, zero_add]
    rfl
  · simp
  · intro p hp t ht
    obtain ⟨h1, h2, h3, h4⟩ := hwf.bounds hp
    have hc : getI M.col_idx 0 p.2 ∈ M.col_idx :=
      getI_mem _ _ h3 (by rw [hwf.col_idx_length]; exact h4)
    have hc0 := hwf.col_idx_nonneg _ hc
    have hc1 := hcol _ hc
    have e1 := rd_eq_some_getD t 0 hc0 (by omega)
    have e2 := rd_eq_some_getI M.values 0 h3 h4
    have e3 := rd_eq_some_getI M.col_idx 0 h3 (by rw [hwf.col_idx_length]; exact h4)
    have e4 := rd_eq_some_getI vec 0 h1 (by omega)
    simp only [e1, e2, e3, e4, Option.bind_eq_bind, Option.some_bind]
    rw [wr_eq_some t _ hc0 (by omega)]

theorem forLoop_update {β : Type} (n : Nat) (g : Nat → β → β)
    (body : Int → List β → Option (List β))
    (hb : ∀ k : Nat, k < n → ∀ (t : List β) (h : k < t.length),
      body (k : Int) t = some (t.set k (g k t[k])))
    (t : List β) (ht : t.length = n) :
    ∃ t', forLoop 0 (n : Int) body t = some t' ∧ t'.length = n ∧
      ∀ k : Nat, k < n → t'[k]? = (t[k]?).map (g k) := by
  unfold forLoop
  have hn : ((n : Int) - 0).toNat = n := by omega
  rw [hn]
  obtain ⟨t', h1, h2, h3, _⟩ := foldlM_update n (fun k : Nat => k) g
    (fun t (k : Nat) => body (0 + (k : Int)) t) (List.range n) t ht
    (by simpa using List.nodup_range n) (fun x hx => List.mem_range.1 hx)
    (fun x hx t h => by
      show body (0 + (x : Int)) t = _
      rw [zero_add]; exact hb x (List.mem_range.1 hx) t h)
  exact ⟨t', h1, h2, fun k hk => h3 k (List.mem_range.2 hk)⟩

theorem forLoop_map {β : Type} (f : β → β) (t : List β) :
    forLoop 0 (t.length : Int) (fun i t => do
      let s ← rd t i
      wr t i (f s)) t = some (t.map f) := by
  obtain ⟨t', h1, h2, h3⟩ := forLoop_update t.length (fun _ => f)
    (fun i t => do
      let s ← rd t i
      wr t i (f s))
    (fun k _ t h => by
      simp only [rd_natCast, List.getElem?_eq_getElem h, Option.bind_eq_bind, Option.some_bind]
      exact wr_natCast t _ h) t rfl
  rw [h1]
  congr 1
  apply List.ext_getElem?
  intro k
  by_cases hk : k < t.length
  · rw [h3 k hk, List.getElem?_map]
  · rw [List.getElem?_eq_none (by omega), List.getElem?_eq_none (by simp; omega)]

theorem mem_entries_of_mem_rowRange {rp : List Int} {i : Nat} {j : Int}
    (hi : i + 1 < rp.length) (hj : j ∈ rowRange rp i) : ((i : Int), j) ∈ entries rp := by
  unfold rowRange at hj
  obtain ⟨k, hk, rfl⟩ := List.mem_map.1 hj
  exact mem_entries.2 ⟨i, k, hi, List.mem_range.1 hk, rfl⟩

theorem CSR.normalization_sum (M : CSR α) (hwf : M.WellFormed) :
    forEntries M.row_ptr (fun i j sum => do
      let s ← rd sum i
      let v ← rd M.values j
      wr sum i (s + v * v)) (List.replicate (M.row_ptr.length - 1) (0 : Dbl α)) =
    some ((List.range (M.row_ptr.length - 1)).map M.rowSumSq) := by
  rw [forEntries_eq]
  rw [foldlM_scatter (M.row_ptr.length - 1) (fun p => p.1.toNat)
    (fun p => getI M.values 0 p.2 * getI M.values 0 p.2)]
  · congr 1
    apply List.map_congr_left
    intro i hi
    have hi : i + 1 < M.row_ptr.length := by
      have := List.mem_range.1 hi; omega
    have hz : (List.replicate (M.row_ptr.length - 1) (0 : Dbl α))[i]?.getD 0 = 0 := by
      rw [List.getElem?_replicate]; split <;> rfl
    rw [hz, zero_add, entries_filter_row _ _ hi, List.map_map]
    rfl
  · simp
  · intro p hp t ht
    obtain ⟨h1, h2, h3, h4⟩ := hwf.bounds hp
    have e1 := rd_eq_some_getD t 0 h1 (by omega)
    have e2 := rd_eq_some_getI M.values 0 h3 h4
    simp only [e1, e2, Option.bind_eq_bind, Option.some_bind]
    rw [wr_eq_some t _ h1 (by omega)]

/-- `CSR::normalization` on a well-formed matrix: it returns, and each value
of row `i` is divided by the square root of the row's sum of squares. -/
theorem CSR.normalization_eq (sq : α → α) (M : CSR α) (hwf : M.WellFormed) :
    ∃ vals : List (Dbl α),
      M.normalization sq = some { M with values := vals } ∧
      vals.length = M.values.length ∧
      ∀ i : Nat, i + 1 < M.row_ptr.length → ∀ j ∈ rowRange M.row_ptr i,
        getI vals 0 j = getI M.values 0 j / Dbl.sqrt sq (M.rowSumSq i) := by
  unfold CSR.normalization
  rw [if_neg hwf.row_ptr_ne]
  have H1 := CSR.normalization_sum M hwf
  have H2 := fun t : List (Dbl α) => forLoop_map (Dbl.sqrt sq) t
  simp only [Option.bind_eq_bind, Option.pure_def] at H1 H2 ⊢
  rw [H1]
  simp only [Option.some_bind]
  rw [H2]
  simp only [Option.some_bind]
  rw [forEntries_eq]
  set sum2 := (List.range (M.row_ptr.length - 1)).map M.rowSumSq |>.map (Dbl.sqrt sq) with hsum2
  have hnd : ((entries M.row_ptr).map (fun p => p.2.toNat)).Nodup := by
    have := entries_snd hwf.row_ptr_head hwf.row_ptr_sorted hwf.row_ptr_last
    have h2 : (entries M.row_ptr).map (fun p => p.2.toNat) =
        ((entries M.row_ptr).map Prod.snd).map Int.toNat := by
      rw [List.map_map]; rfl
    rw [h2, this, List.map_map]
    simpa [Function.comp_def] using List.nodup_range _
  obtain ⟨t', h1, h2, h3, _⟩ := foldlM_update M.values.length (fun p : Int × Int => p.2.toNat)
    (fun p v => v / getI sum2 0 p.1)
    (fun values (p : Int × Int) =>
      (rd values p.2).bind fun v => (rd sum2 p.1).bind fun s => wr values p.2 (v / s))
    (entries M.row_ptr) M.values rfl hnd
    (fun p hp => by
      obtain ⟨h1, h2, h3, h4⟩ := hwf.bounds hp
      show p.2.toNat < _
      omega)
    (fun p hp t h => by
      obtain ⟨h1, h2, h3, h4⟩ := hwf.bounds hp
      have h : p.2.toNat < t.length := h
      have e1 : rd t p.2 = some t[p.2.toNat] := by
        rw [rd_eq_getElem?_toNat t h3, List.getElem?_eq_getElem h]
      have e2 := rd_eq_some_getI sum2 0 h1 (by simp [hsum2]; omega)
      simp only [e1, e2, Option.bind_eq_bind, Option.some_bind]
      rw [wr_eq_some t _ h3 (by omega)])
  refine ⟨t', ?_, h2, ?_⟩
  · rw [h1]; rfl
  · intro i hi j hj
    have hp := mem_entries_of_mem_rowRange hi hj
    obtain ⟨b1, b2, b3, b4⟩ := hwf.bounds hp
    have := h3 _ hp
    simp only at this
    have hj1 : j.toNat < M.values.length := by omega
    rw [List.getElem?_eq_getElem hj1, List.getElem?_eq_getElem (by omega)] at this
    simp only [Option.map_some'] at this
    have e := Option.some.inj this
    have hj2 : j.toNat < t'.length := by omega
    have g1 : getI t' 0 j = t'[j.toNat] := by
      simp [getI, rd_eq_getElem?_toNat _ b3, List.getElem?_eq_getElem (h2 ▸ hj1)]
    have g2 : getI M.values 0 j = M.values[j.toNat] := by
      simp [getI, rd_eq_getElem?_toNat _ b3, List.getElem?_eq_getElem hj1]
    have g3 : getI sum2 0 (i : Int) = Dbl.sqrt sq (M.rowSumSq i) := by
      rw [getI_natCast]
      have : i < M.row_ptr.length - 1 := by omega
      simp [hsum2, List.getElem?_eq_getElem, this]
    rw [g1, g2, e, g3]

end NormChar

/-! ### Finite sums of doubles; `CSR::normalization` on rows of non-zero norm -/

section Fin
variable {α : Type} [LinearOrderedField α]
set_option linter.unusedSectionVars false

theorem Dbl.add_eq_fin {a b : Dbl α} {s : α} (h : a + b = fin s) :
    a = fin a.get ∧ b = fin b.get ∧ a.get + b.get = s := by
  cases a <;> cases b <;> simp [Dbl.get] at h ⊢
  exact h

theorem Dbl.mul_self_eq_fin {a : Dbl α} {s : α} (h : a * a = fin s) : a = fin a.get := by
  cases a <;> simp [Dbl.get] at h ⊢

theorem Dbl.sum_eq_fin {ι : Type} (f : ι → Dbl α) :
    ∀ (l : List ι) (s : α), (l.map f).sum = fin s →
      (∀ x ∈ l, f x = fin (f x).get) ∧ (l.map (fun x => (f x).get)).sum = s := by
  intro l
  induction l with
  | nil =>
    intro s h
    have h : (fin 0 : Dbl α) = fin s := h
    simp at h
    simp [h]
  | cons a l ih =>
    intro s h
    rw [List.map_cons, List.sum_cons] at h
    obtain ⟨h1, h2, h3⟩ := Dbl.add_eq_fin h
    obtain ⟨h4, h5⟩ := ih _ h2
    refine ⟨?_, ?_⟩
    · intro x hx
      rcases List.mem_cons.1 hx with rfl | hx
      · exact h1
      · exact h4 x hx
    · rw [List.map_cons, List.sum_cons, h5]
      exact h3

theorem Dbl.sum_congr_fin {ι : Type} (f : ι → Dbl α) (g : ι → α) (l : List ι)
    (h : ∀ x ∈ l, f x = fin (g x)) : (l.map f).sum = fin ((l.map g).sum) := by
  rw [← Dbl.sum_map_fin]
  congr 1
  exact List.map_congr_left h

end Fin

theorem CSR.normalization_unit_rows_aux (M : CSR ℝ) (hwf : M.WellFormed) :
    ∃ M' : CSR ℝ, M.normalization Real.sqrt = some M' ∧
      M'.row_ptr = M.row_ptr ∧ M'.col_idx = M.col_idx ∧
      M'.values.length = M.values.length ∧
      ∀ (i : Nat) (s : ℝ), i + 1 < M.row_ptr.length → M.rowSumSq i = fin s → s ≠ 0 →
        (∀ j ∈ rowRange M.row_ptr i,
          getI M'.values 0 j = getI M.values 0 j / fin (Real.sqrt s)) ∧
        M'.rowSumSq i = fin 1 := by
  obtain ⟨vals, h1, h2, h3⟩ := CSR.normalization_eq Real.sqrt M hwf
  refine ⟨_, h1, rfl, rfl, h2, ?_⟩
  intro i s hi hs hs0
  obtain ⟨hf, hsum⟩ := Dbl.sum_eq_fin _ _ _ hs
  have hnn : 0 ≤ s := by
    rw [← hsum]
    apply List.sum_nonneg
    intro x hx
    obtain ⟨j, _, rfl⟩ := List.mem_map.1 hx
    have := Dbl.mul_self_eq_fin (hf j ‹_›)
    rw [this]
    simp only [Dbl.fin_mul_fin, Dbl.get]
    exact mul_self_nonneg _
  have hpos : 0 < s := lt_of_le_of_ne hnn (Ne.symm hs0)
  have hsq : Dbl.sqrt Real.sqrt (fin s) = fin (Real.sqrt s) := by
    simp [Dbl.sqrt, not_lt.2 hnn]
  have hne : Real.sqrt s ≠ 0 := (Real.sqrt_pos.2 hpos).ne'
  have hval : ∀ j ∈ rowRange M.row_ptr i,
      getI vals 0 j = getI M.values 0 j / fin (Real.sqrt s) := by
    intro j hj
    rw [h3 i hi j hj, hs, hsq]
  refine ⟨hval, ?_⟩
  show ((rowRange M.row_ptr i).map (fun j => getI vals 0 j * getI vals 0 j)).sum = fin 1
  rw [Dbl.sum_congr_fin _ (fun j => (getI M.values 0 j).get * (getI M.values 0 j).get / s)]
  · congr 1
    have e : (rowRange M.row_ptr i).map
        (fun j => (getI M.values 0 j).get * (getI M.values 0 j).get / s) =
        ((rowRange M.row_ptr i).map
          (fun j => (getI M.values 0 j * getI M.values 0 j).get)).map (fun y => y / s) := by
      rw [List.map_map]
      apply List.map_congr_left
      intro j hj
      have := Dbl.mul_self_eq_fin (hf j hj)
      rw [Function.comp_apply, this]
      simp [Dbl.get]
    rw [e]
    have e2 : ∀ l : List ℝ, (l.map (fun y => y / s)).sum = l.sum / s := by
      intro l
      induction l with
      | nil => simp
      | cons a l ih => simp [ih, add_div]
    rw [e2, hsum]
    exact div_self hs0
  · intro j hj
    rw [hval j hj]
    have := Dbl.mul_self_eq_fin (hf j hj)
    rw [this]
    simp only [Dbl.get, Dbl.fin_div_fin_of_ne _ hne, Dbl.fin_mul_fin]
    congr 1
    rw [div_mul_div_comm, Real.mul_self_sqrt hnn]

/-! ### `CSR::prod` against the dense product -/

theorem sum_regroup {ncols : Nat} (x : Int → ℝ) (col : Int → Int) (v : Fin ncols → ℝ) :
    ∀ l : List Int, (∀ j ∈ l, 0 ≤ col j ∧ col j < ncols) →
      (l.map (fun j => x j * (if h : (col j).toNat < ncols then v ⟨(col j).toNat, h⟩ else 0))).sum =
      ∑ c : Fin ncols, ((l.filter (fun j => col j = ((c : Nat) : Int))).map x).sum * v c := by
  intro l
  induction l with
  | nil => intro _; simp
  | cons a l ih =>
    intro hl
    rw [List.map_cons, List.sum_cons, ih (fun j hj => hl j (List.mem_cons_of_mem _ hj))]
    obtain ⟨h0, h1⟩ := hl a (List.mem_cons_self _ _)
    have hlt : (col a).toNat < ncols := by omega
    rw [dif_pos hlt]
    have : ∀ c : Fin ncols,
        (((a :: l).filter (fun j => col j = ((c : Nat) : Int))).map x).sum * v c =
        (if c = ⟨(col a).toNat, hlt⟩ then x a * v c else 0) +
          ((l.filter (fun j => col j = ((c : Nat) : Int))).map x).sum * v c := by
      intro c
      by_cases hc : c = ⟨(col a).toNat, hlt⟩
      · have hca : col a = ((c : Nat) : Int) := by rw [hc]; simp; omega
        rw [if_pos hc, List.filter_cons, if_pos (by simpa using hca), List.map_cons,
          List.sum_cons, add_mul]
      · have : ¬ col a = ((c : Nat) : Int) := by
          intro h
          apply hc
          apply Fin.ext
          simp [h]
        simp [List.filter_cons, this, hc]
    simp only [this, Finset.sum_add_distrib, Finset.sum_ite_eq', Finset.mem_univ, if_true]

theorem CSR.prod_dense_aux (M : CSR ℝ) {nrows ncols : Nat}
    (A : Matrix (Fin nrows) (Fin ncols) ℝ) (h : M.Represents A) (v : Fin ncols → ℝ) :
    M.prod ((List.ofFn v).map fin) = some (List.ofFn (fun i => fin (A.mulVec v i))) := by
  have hwf := h.wf
  rw [CSR.prod_eq M _ hwf (by intro c hc; simpa using h.col_lt c hc)]
  congr 1
  apply List.ext_getElem
  · simp [h.nrows_eq]
  · intro i h1 h2
    have hi : i < nrows := by simpa using h2
    simp only [List.getElem_map, List.getElem_range, List.getElem_ofFn]
    -- every stored value of row `i` is finite
    have hrow : ∀ j ∈ rowRange M.row_ptr i,
        (0 ≤ getI M.col_idx 0 j ∧ getI M.col_idx 0 j < ncols) ∧
        getI M.values 0 j = fin (getI M.values 0 j).get := by
      intro j hj
      have hp := mem_entries_of_mem_rowRange (by rw [h.nrows_eq]; omega) hj
      obtain ⟨b1, b2, b3, b4⟩ := hwf.bounds hp
      have hc : getI M.col_idx 0 j ∈ M.col_idx :=
        getI_mem _ _ b3 (by rw [hwf.col_idx_length]; exact b4)
      have hc0 := hwf.col_idx_nonneg _ hc
      have hc1 := h.col_lt _ hc
      refine ⟨⟨hc0, hc1⟩, ?_⟩
      have he := h.entry_eq ⟨i, hi⟩ ⟨(getI M.col_idx 0 j).toNat, by omega⟩
      unfold CSR.entry at he
      obtain ⟨hf, _⟩ := Dbl.sum_eq_fin _ _ _ he
      apply hf
      simp only [List.mem_filter, decide_eq_true_eq]
      exact ⟨hj, by simp; omega⟩
    unfold CSR.rowDot
    rw [Dbl.sum_congr_fin _ (fun j => (getI M.values 0 j).get *
      (if h : (getI M.col_idx 0 j).toNat < ncols then
        v ⟨(getI M.col_idx 0 j).toNat, h⟩ else 0))]
    · congr 1
      rw [sum_regroup _ _ _ _ (fun j hj => (hrow j hj).1)]
      unfold Matrix.mulVec Matrix.dotProduct
      apply Finset.sum_congr rfl
      intro c _
      congr 1
      have he := h.entry_eq ⟨i, hi⟩ c
      unfold CSR.entry at he
      obtain ⟨_, hs⟩ := Dbl.sum_eq_fin _ _ _ he
      exact hs
    · intro j hj
      obtain ⟨⟨hc0, hc1⟩, hfin⟩ := hrow j hj
      have hlt : (getI M.col_idx 0 j).toNat < ncols := by omega
      rw [dif_pos hlt]
      conv_lhs => rw [hfin]
      have : getI ((List.ofFn v).map fin) 0 (getI M.col_idx 0 j) =
          fin (v ⟨(getI M.col_idx 0 j).toNat, hlt⟩) := by
        obtain ⟨k, hk⟩ := Int.eq_ofNat_of_zero_le hc0
        simp only [hk, getI_natCast, Int.toNat_ofNat]
        have hk' : k < ncols := by omega
        simp [List.getElem?_eq_getElem, hk']
      rw [this]
      rfl

/-! ### The CSR representation built from a dense array -/

theorem take_succ_flatMap {β γ : Type} (f : β → List γ) (A : List β) (i : Nat) (hi : i < A.length) :
    (A.take (i + 1)).flatMap f = (A.take i).flatMap f ++ f A[i] := by
  rw [List.take_succ, List.flatMap_append, List.getElem?_eq_getElem hi]
  simp

theorem flatMap_take_length_mono {β γ : Type} (f : β → List γ) (A : List β) {i j : Nat}
    (hij : i ≤ j) : ((A.take i).flatMap f).length ≤ ((A.take j).flatMap f).length := by
  have : A.take i = (A.take j).take i := by
    rw [List.take_take, Nat.min_eq_left hij]
  rw [this]
  conv_rhs => rw [← List.take_append_drop i (A.take j)]
  rw [List.flatMap_append, List.length_append]
  omega

theorem ofDense_wf (A : List (List ℝ)) : (CSR.ofDense A).WellFormed := by
  refine ⟨?_, ?_, ?_, ?_, ?_⟩
  · simp [CSR.ofDense, List.range_succ_eq_map]
  · simp only [CSR.ofDense]
    rw [List.pairwise_map]
    exact (List.pairwise_lt_range _).imp (fun hab => by
      exact_mod_cast flatMap_take_length_mono denseRow A (le_of_lt hab))
  · simp only [CSR.ofDense, List.range_succ, List.map_append, List.map_cons, List.map_nil,
      List.getLast?_append, List.getLast?_singleton, List.take_length,
      List.length_map]
    rfl
  · simp [CSR.ofDense]
  · intro c hc
    simp only [CSR.ofDense, List.mem_map, List.mem_flatMap, denseRow] at hc
    obtain ⟨p, ⟨row, _, k, _, rfl⟩, rfl⟩ := hc
    exact Int.natCast_nonneg k

theorem range_filter_eq_and (q : Nat → Bool) (c : Nat) :
    ∀ n : Nat, (List.range n).filter (fun k => decide (k = c) && q k) =
      if c < n ∧ q c = true then [c] else [] := by
  intro n
  induction n with
  | zero => simp
  | succ n ih =>
    rw [List.range_succ, List.filter_append, ih]
    by_cases h1 : c < n
    · have h2 : ¬ n = c := by omega
      by_cases hq : q c = true
      · simp [h1, hq, h2, Nat.lt_succ_of_lt h1]
      · simp [h1, hq, h2]
    · by_cases h2 : n = c
      · subst h2
        by_cases hq : q n = true
        · simp [hq]
        · simp [hq]
      · have h3 : ¬ c < n + 1 := by omega
        simp [h1, h2, h3]

theorem denseRow_filter (row : List ℝ) (c : Nat) (hc : c < row.length) :
    (((denseRow row).filter (fun p => decide (p.1 = (c : Int)))).map Prod.snd).sum =
      fin (row.getD c 0) := by
  unfold denseRow
  rw [List.filter_map, List.filter_filter, List.map_map]
  have : (List.range row.length).filter
      (fun a => ((fun p : Int × Dbl ℝ => decide (p.1 = (c : Int))) ∘
        fun (c : Nat) => ((c : Int), fin (row.getD c 0))) a &&
        decide (row.getD a 0 ≠ 0)) =
      (List.range row.length).filter
        (fun k => decide (k = c) && decide (row.getD k 0 ≠ 0)) := by
    apply List.filter_congr
    intro k _
    simp
  rw [this, range_filter_eq_and]
  by_cases hz : row.getD c 0 = 0
  · have hn : ¬ (c < row.length ∧ decide (row.getD c 0 ≠ 0) = true) :=
      fun h => (of_decide_eq_true h.2) hz
    rw [if_neg hn, hz]
    rfl
  · have hp : c < row.length ∧ decide (row.getD c 0 ≠ 0) = true := ⟨hc, decide_eq_true hz⟩
    rw [if_pos hp]
    simp only [List.map_cons, List.map_nil, List.sum_cons, List.sum_nil, Function.comp_apply,
      add_zero]

theorem ofDense_row (A : List (List ℝ)) (i : Nat) (hi : i < A.length) :
    (rowRange (CSR.ofDense A).row_ptr i).map
      (fun j => (getI (CSR.ofDense A).col_idx 0 j, getI (CSR.ofDense A).values 0 j)) =
    denseRow A[i] := by
  have hsplit : A.flatMap denseRow =
      (A.take i).flatMap denseRow ++ (denseRow A[i] ++ (A.drop (i + 1)).flatMap denseRow) := by
    conv_lhs => rw [← List.take_append_drop i A, List.drop_eq_getElem_cons hi]
    rw [List.flatMap_append, List.flatMap_cons]
  have h0 : (CSR.ofDense A).row_ptr.getD i 0 = (((A.take i).flatMap denseRow).length : Int) := by
    have : i < (CSR.ofDense A).row_ptr.length := by simp [CSR.ofDense]; omega
    rw [List.getD_eq_getElem _ _ this]
    simp [CSR.ofDense]
  have h1 : (CSR.ofDense A).row_ptr.getD (i + 1) 0 =
      (((A.take i).flatMap denseRow).length : Int) + ((denseRow A[i]).length : Int) := by
    have : i + 1 < (CSR.ofDense A).row_ptr.length := by simp [CSR.ofDense]; omega
    rw [List.getD_eq_getElem _ _ this]
    simp only [CSR.ofDense, List.getElem_map, List.getElem_range]
    rw [take_succ_flatMap denseRow A i hi, List.length_append]
    push_cast
    rfl
  unfold rowRange
  rw [h0, h1, List.map_map]
  have hlen : ((((A.take i).flatMap denseRow).length : Int) + ((denseRow A[i]).length : Int) -
      (((A.take i).flatMap denseRow).length : Int)).toNat = (denseRow A[i]).length := by omega
  rw [hlen]
  apply List.ext_getElem
  · simp
  · intro k hk1 hk2
    simp only [List.getElem_map, List.getElem_range, Function.comp_apply]
    have hk : k < (denseRow A[i]).length := hk2
    have hidx : ((((A.take i).flatMap denseRow).length : Int) + (k : Int)) =
        ((((A.take i).flatMap denseRow).length + k : Nat) : Int) := by push_cast; rfl
    have hget : (A.flatMap denseRow)[((A.take i).flatMap denseRow).length + k]? =
        some (denseRow A[i])[k] := by
      rw [hsplit, List.getElem?_append_right (Nat.le_add_right _ _), Nat.add_sub_cancel_left,
        List.getElem?_append_left hk, List.getElem?_eq_getElem hk]
    rw [hidx, getI_natCast, getI_natCast]
    simp only [CSR.ofDense, List.getElem?_map, hget, Option.map_some', Option.getD_some]

/-- The CSR representation built from a dense matrix represents it. -/
theorem CSR.ofDense_represents {nrows ncols : Nat} (A : Matrix (Fin nrows) (Fin ncols) ℝ) :
    (CSR.ofDense (List.ofFn (fun i => List.ofFn (A i)))).Represents A := by
  refine ⟨ofDense_wf _, by simp [CSR.ofDense], ?_, ?_⟩
  · intro c hc
    simp only [CSR.ofDense, List.mem_map, List.mem_flatMap, denseRow, List.mem_ofFn,
      List.mem_filter, List.mem_range] at hc
    obtain ⟨p, ⟨row, ⟨i, rfl⟩, k, ⟨hk, _⟩, rfl⟩, rfl⟩ := hc
    simp only [List.length_ofFn] at hk
    show (k : Int) < (ncols : Int)
    exact_mod_cast hk
  · intro i c
    have hi : (i : Nat) < (List.ofFn (fun i => List.ofFn (A i))).length := by simp
    have hrow := ofDense_row (List.ofFn (fun i => List.ofFn (A i))) i hi
    unfold CSR.entry
    have e : (((rowRange (CSR.ofDense (List.ofFn (fun i => List.ofFn (A i)))).row_ptr i).filter
        (fun j => decide (getI (CSR.ofDense (List.ofFn (fun i => List.ofFn (A i)))).col_idx 0 j =
          ((c : Nat) : Int)))).map
        (fun j => getI (CSR.ofDense (List.ofFn (fun i => List.ofFn (A i)))).values 0 j)) =
        ((((rowRange (CSR.ofDense (List.ofFn (fun i => List.ofFn (A i)))).row_ptr i).map
          (fun j => (getI (CSR.ofDense (List.ofFn (fun i => List.ofFn (A i)))).col_idx 0 j,
            getI (CSR.ofDense (List.ofFn (fun i => List.ofFn (A i)))).values 0 j))).filter
          (fun p => decide (p.1 = ((c : Nat) : Int)))).map Prod.snd) := by
      rw [List.filter_map, List.map_map]
      rfl
    rw [e, hrow]
    have hrowi : (List.ofFn (fun i => List.ofFn (A i)))[(i : Nat)] = List.ofFn (A i) := by
      simp
    rw [hrowi, denseRow_filter _ c (by simp)]
    congr 1
    rw [List.getD_eq_getElem _ _ (by simp)]
    simp

/-- `CSR::prod` on the CSR representation built from a dense matrix is the
dense matrix-vector product. -/
theorem CSR.prod_ofDense {nrows ncols : Nat} (A : Matrix (Fin nrows) (Fin ncols) ℝ)
    (v : Fin ncols → ℝ) :
    (CSR.ofDense (List.ofFn (fun i => List.ofFn (A i)))).prod ((List.ofFn v).map fin) =
      some (List.ofFn (fun i => fin (A.mulVec v i))) :=
  CSR.prod_dense_aux _ A (CSR.ofDense_represents A) v

/-! ### Products of finite data; the erasing loop -/

section Finite
variable {α : Type} [LinearOrderedField α]
set_option linter.unusedSectionVars false

theorem getI_fin {l : List (Dbl α)} (hl : ∀ v ∈ l, v = fin v.get) {i : Int} (h0 : 0 ≤ i)
    (h1 : i < l.length) : getI l 0 i = fin (getI l 0 i).get :=
  hl _ (getI_mem l 0 h0 h1)

theorem CSR.WellFormed.rowRange_bounds {M : CSR α} (hwf : M.WellFormed) {i : Nat}
    (hi : i + 1 < M.row_ptr.length) {j : Int} (hj : j ∈ rowRange M.row_ptr i) :
    0 ≤ j ∧ j < M.values.length ∧ getI M.col_idx 0 j ∈ M.col_idx := by
  obtain ⟨_, _, b3, b4⟩ := hwf.bounds (mem_entries_of_mem_rowRange hi hj)
  exact ⟨b3, b4, getI_mem _ _ b3 (by rw [hwf.col_idx_length]; exact b4)⟩

theorem CSR.rowDot_fin (M : CSR α) (vec : List (Dbl α)) (hwf : M.WellFormed)
    (hcol : ∀ c ∈ M.col_idx, c < vec.length)
    (hval : ∀ v ∈ M.values, v = fin v.get) (hvec : ∀ v ∈ vec, v = fin v.get)
    {i : Nat} (hi : i + 1 < M.row_ptr.length) :
    M.rowDot vec i = fin (((rowRange M.row_ptr i).map
      (fun j => (getI M.values 0 j).get * (getI vec 0 (getI M.col_idx 0 j)).get)).sum) := by
  unfold CSR.rowDot
  apply Dbl.sum_congr_fin
  intro j hj
  obtain ⟨b1, b2, b3⟩ := hwf.rowRange_bounds hi hj
  rw [getI_fin hval b1 b2, getI_fin hvec (hwf.col_idx_nonneg _ b3) (hcol _ b3)]
  rfl

theorem CSR.colDot_fin (M : CSR α) (vec : List (Dbl α)) (hwf : M.WellFormed)
    (hlen : M.row_ptr.length - 1 ≤ vec.length)
    (hval : ∀ v ∈ M.values, v = fin v.get) (hvec : ∀ v ∈ vec, v = fin v.get) (c : Nat) :
    M.colDot vec c = fin ((((entries M.row_ptr).filter
      (fun p => (getI M.col_idx 0 p.2).toNat = c)).map
      (fun p => (getI M.values 0 p.2).get * (getI vec 0 p.1).get)).sum) := by
  unfold CSR.colDot
  apply Dbl.sum_congr_fin
  intro p hp
  obtain ⟨b1, b2, b3, b4⟩ := hwf.bounds (List.mem_filter.1 hp).1
  rw [getI_fin hval b3 b4, getI_fin hvec b1 (by omega)]
  rfl

theorem CSR.prod_fin (M : CSR α) (vec : List (Dbl α)) (hwf : M.WellFormed)
    (hcol : ∀ c ∈ M.col_idx, c < vec.length)
    (hval : ∀ v ∈ M.values, v = fin v.get) (hvec : ∀ v ∈ vec, v = fin v.get) :
    ∃ r : List (Dbl α), M.prod vec = some r ∧ r.length = M.row_ptr.length - 1 ∧
      ∀ v ∈ r, v = fin v.get := by
  refine ⟨_, CSR.prod_eq M vec hwf hcol, by simp, ?_⟩
  intro v hv
  obtain ⟨i, hi, rfl⟩ := List.mem_map.1 hv
  have hi : i + 1 < M.row_ptr.length := by
    have := List.mem_range.1 hi; omega
  rw [CSR.rowDot_fin M vec hwf hcol hval hvec hi]
  rfl

theorem CSR.prod_t_fin (M : CSR α) (vec : List (Dbl α)) (hwf : M.WellFormed)
    (hcol : ∀ c ∈ M.col_idx, c < (M.row_ptr.length : Int) - 1)
    (hlen : M.row_ptr.length - 1 ≤ vec.length)
    (hval : ∀ v ∈ M.values, v = fin v.get) (hvec : ∀ v ∈ vec, v = fin v.get) :
    ∃ r : List (Dbl α), M.prod_t vec = some r ∧ r.length = M.row_ptr.length - 1 ∧
      ∀ v ∈ r, v = fin v.get := by
  refine ⟨_, CSR.prod_t_eq M vec hwf hcol hlen, by simp, ?_⟩
  intro v hv
  obtain ⟨c, _, rfl⟩ := List.mem_map.1 hv
  rw [CSR.colDot_fin M vec hwf hlen hval hvec c]
  rfl

/-- A loop that keeps an invariant returns, in a state with the invariant. -/
theorem forLoop_invariant {σ : Type} (P : Nat → σ → Prop) (body : Int → σ → Option σ) (n : Nat)
    (hstep : ∀ k : Nat, k < n → ∀ s, P k s → ∃ s', body (k : Int) s = some s' ∧ P (k + 1) s')
    (s : σ) (h0 : P 0 s) : ∃ s', forLoop 0 (n : Int) body s = some s' ∧ P n s' := by
  unfold forLoop
  have hn : ((n : Int) - 0).toNat = n := by omega
  rw [hn]
  clear hn
  induction n with
  | zero => exact ⟨s, rfl, h0⟩
  | succ n ih =>
    obtain ⟨s1, h1, h2⟩ := ih (fun k hk => hstep k (by omega))
    obtain ⟨s2, h3, h4⟩ := hstep n (by omega) s1 h2
    refine ⟨s2, ?_, h4⟩
    rw [List.range_succ, List.foldlM_append, h1]
    simp only [Option.bind_eq_bind, Option.some_bind, List.foldlM_cons, List.foldlM_nil,
      zero_add]
    rw [h3]
    rfl

theorem CSR.eraseFirstTiny_spec (xs : List (Dbl α)) :
    ((CSR.eraseFirstTiny xs).2 = false → (CSR.eraseFirstTiny xs).1 = xs ∧
      xs.filter (fun x => !fabs_lt_eps x) = xs) ∧
    ((CSR.eraseFirstTiny xs).2 = true →
      (CSR.eraseFirstTiny xs).1.length + 1 = xs.length ∧
      (CSR.eraseFirstTiny xs).1.filter (fun x => !fabs_lt_eps x) =
        xs.filter (fun x => !fabs_lt_eps x)) := by
  induction xs with
  | nil => simp [CSR.eraseFirstTiny]
  | cons a l ih =>
    unfold CSR.eraseFirstTiny
    by_cases h : fabs_lt_eps a = true
    · simp [h]
    · simp only [h, Bool.false_eq_true, if_false]
      have h' : fabs_lt_eps a = false := by simpa using h
      constructor
      · intro hf
        obtain ⟨e1, e2⟩ := ih.1 hf
        simp [e1, List.filter_cons, h', e2]
      · intro ht
        obtain ⟨e1, e2⟩ := ih.2 ht
        simp [e1, List.filter_cons, h', e2]

theorem CSR.eraseTinyLoop_eq_filter :
    ∀ (fuel : Nat) (xs : List (Dbl α)), xs.length < fuel →
      CSR.eraseTinyLoop fuel xs = xs.filter (fun x => !fabs_lt_eps x) := by
  intro fuel
  induction fuel with
  | zero => intro xs h; omega
  | succ fuel ih =>
    intro xs h
    unfold CSR.eraseTinyLoop
    have hs := CSR.eraseFirstTiny_spec xs
    rcases hp : CSR.eraseFirstTiny xs with ⟨ys, flag⟩
    rw [hp] at hs
    cases flag with
    | false =>
      obtain ⟨e1, e2⟩ := hs.1 rfl
      simp only at e1 e2 ⊢
      rw [e2, e1]
    | true =>
      simp only
      obtain ⟨e1, e2⟩ := hs.2 rfl
      simp only at e1 e2
      rw [ih ys (by omega), e2]

/-- The erasing loop of lines 167-180 ends with the entries that fail the
test `fabs(x) < DBL_EPSILON`, in order. -/
theorem CSR.eraseTiny_eq_filter (xs : List (Dbl α)) :
    CSR.eraseTiny xs = xs.filter (fun x => !fabs_lt_eps x) :=
  CSR.eraseTinyLoop_eq_filter _ _ (Nat.lt_succ_self _)

end Finite

/-! ### The output of `CSR::inv_diag` -/

section InvDiag
variable {α : Type} [LinearOrderedField α]
set_option linter.unusedSectionVars false

theorem CSR.inv_diag_build (dv : List (Dbl α)) :
    forLoop 0 (dv.length : Int) (fun i (st : List Int × Int × List Int) =>
        (rd dv i).bind fun x =>
          if ne_zero x = true then
            some (st.1 ++ [st.2.1], st.2.1 + 1, st.2.2 ++ [i])
          else
            some (st.1 ++ [st.2.1], st.2.1, st.2.2)) ([], 0, []) =
      some ((List.range dv.length).map (nzCount dv), nzCount dv dv.length,
        ((List.range dv.length).filter (fun k => ne_zero (dv[k]?.getD 0))).map
          (fun (k : Nat) => (k : Int))) := by
  obtain ⟨s', h1, h2⟩ := forLoop_invariant
    (fun m (st : List Int × Int × List Int) =>
      st = ((List.range m).map (nzCount dv), nzCount dv m,
        ((List.range m).filter (fun k => ne_zero (dv[k]?.getD 0))).map
          (fun (k : Nat) => (k : Int))))
    (fun i (st : List Int × Int × List Int) =>
        (rd dv i).bind fun x =>
          if ne_zero x = true then
            some (st.1 ++ [st.2.1], st.2.1 + 1, st.2.2 ++ [i])
          else
            some (st.1 ++ [st.2.1], st.2.1, st.2.2)) dv.length
    (by
      intro k hk s hs
      subst hs
      simp only [rd_natCast, List.getElem?_eq_getElem hk, Option.some_bind]
      by_cases hz : ne_zero dv[k] = true
      · refine ⟨_, if_pos hz, ?_⟩
        simp [List.range_succ, List.filter_append, nzCount, List.getElem?_eq_getElem hk, hz]
      · refine ⟨_, if_neg hz, ?_⟩
        simp [List.range_succ, List.filter_append, nzCount, List.getElem?_eq_getElem hk, hz])
    ([], 0, []) (by simp [nzCount])
  rw [h1, h2]

/-- The output of `CSR::inv_diag` on a well-formed matrix whose column ids are
below the number of rows: `row_ptr` and `col_idx` follow the test `!= 0` on
the degrees, `values` the test `fabs(x) < DBL_EPSILON`. -/
theorem CSR.inv_diag_eq (M : CSR α) (hwf : M.WellFormed)
    (hcol : ∀ c ∈ M.col_idx, c < (M.row_ptr.length : Int) - 1) :
    M.inv_diag = some
      { values := (M.degree.filter (fun x => !fabs_lt_eps x)).map (fun x => 1 / x)
        row_ptr := (List.range (M.row_ptr.length - 1)).map (nzCount M.degree) ++
          [nzCount M.degree (M.row_ptr.length - 1)]
        col_idx := ((List.range (M.row_ptr.length - 1)).filter
          (fun k => ne_zero (M.degree[k]?.getD 0))).map (fun (k : Nat) => (k : Int)) } := by
  have hlen : M.degree.length = M.row_ptr.length - 1 := by simp [CSR.degree]
  have H1 := CSR.prod_t_eq M (List.replicate (M.row_ptr.length - 1) 1) hwf hcol (by simp)
  have H2 := CSR.prod_eq M ((List.range (M.row_ptr.length - 1)).map
      (M.colDot (List.replicate (M.row_ptr.length - 1) 1))) hwf
      (by intro c hc; have := hcol c hc; simp; omega)
  have H3 := CSR.inv_diag_build M.degree
  have H4 := fun t : List (Dbl α) => forLoop_map (fun x : Dbl α => 1 / x) t
  unfold CSR.prod_t at H1
  unfold CSR.prod at H2
  rw [if_neg hwf.row_ptr_ne] at H1 H2
  unfold CSR.inv_diag
  rw [if_neg hwf.row_ptr_ne]
  simp only [Option.bind_eq_bind, Option.pure_def] at H1 H2 H4 ⊢
  rw [H1]
  simp only [Option.some_bind]
  rw [H2]
  simp only [Option.some_bind]
  rw [← CSR.degree, H3]
  simp only [Option.some_bind]
  rw [CSR.eraseTiny_eq_filter, H4]
  simp only [Option.some_bind, hlen]

end InvDiag

/-! ### `CSR::normalization` on an in-range feature matrix -/

theorem exists_row_of_lt {α : Type} {M : CSR α} (hwf : M.WellFormed) {k : Nat}
    (hk : k < M.values.length) :
    ∃ i : Nat, i + 1 < M.row_ptr.length ∧ (k : Int) ∈ rowRange M.row_ptr i := by
  have h1 : (k : Int) ∈ (entries M.row_ptr).map Prod.snd := by
    rw [entries_snd hwf.row_ptr_head hwf.row_ptr_sorted hwf.row_ptr_last]
    exact List.mem_map.2 ⟨k, List.mem_range.2 hk, rfl⟩
  obtain ⟨p, hp, hp2⟩ := List.mem_map.1 h1
  obtain ⟨i, k', hi, hk', rfl⟩ := mem_entries.1 hp
  refine ⟨i, hi, ?_⟩
  rw [← hp2]
  exact List.mem_map.2 ⟨k', List.mem_range.2 hk', rfl⟩

theorem CSR.rowSumSq_fin {S : CSR ℝ} (hwf : S.WellFormed)
    (hval : ∀ v ∈ S.values, v = fin v.get) {i : Nat} (hi : i + 1 < S.row_ptr.length) :
    S.rowSumSq i = fin (((rowRange S.row_ptr i).map
      (fun j => (getI S.values 0 j).get * (getI S.values 0 j).get)).sum) := by
  unfold CSR.rowSumSq
  apply Dbl.sum_congr_fin
  intro j hj
  obtain ⟨b1, b2, _⟩ := hwf.rowRange_bounds hi hj
  rw [getI_fin hval b1 b2]
  rfl

theorem CSR.InRange.normalization {S : CSR ℝ} (h : S.InRange) (hz : S.NoZeroRow) :
    ∃ S' : CSR ℝ, S.normalization Real.sqrt = some S' ∧ S'.row_ptr = S.row_ptr ∧
      S'.col_idx = S.col_idx ∧ S'.Normalized := by
  obtain ⟨S', h1, h2, h3, h4, h5⟩ := CSR.normalization_unit_rows_aux S h.wf
  have hwf' : S'.WellFormed :=
    ⟨h2 ▸ h.wf.row_ptr_head, h2 ▸ h.wf.row_ptr_sorted, by rw [h2, h4]; exact h.wf.row_ptr_last,
      by rw [h3, h4]; exact h.wf.col_idx_length, h3 ▸ h.wf.col_idx_nonneg⟩
  have hvalS : ∀ v ∈ S.values, v = fin v.get := fun v hv => (h.nonneg v hv).1
  have hrow : ∀ i : Nat, i + 1 < S.row_ptr.length → rowRange S.row_ptr i ≠ [] →
      ∃ s : ℝ, S.rowSumSq i = fin s ∧ s ≠ 0 := by
    intro i hi hne
    refine ⟨_, CSR.rowSumSq_fin h.wf hvalS hi, ?_⟩
    intro h0
    apply hz i hi hne
    rw [CSR.rowSumSq_fin h.wf hvalS hi, h0]
    rfl
  refine ⟨S', h1, h2, h3, hwf', ?_, by rw [h2, h3]; exact h.col_lt, ?_⟩
  · intro v hv
    obtain ⟨k, hk, rfl⟩ := List.getElem_of_mem hv
    obtain ⟨i, hi, hmem⟩ := exists_row_of_lt h.wf (h4 ▸ hk)
    obtain ⟨s, hs, hs0⟩ := hrow i hi (List.ne_nil_of_mem hmem)
    have hv := (h5 i s hi hs hs0).1 _ hmem
    have hk' : k < S.values.length := h4 ▸ hk
    rw [getI_natCast, getI_natCast, List.getElem?_eq_getElem hk,
      List.getElem?_eq_getElem hk'] at hv
    simp only [Option.getD_some] at hv
    obtain ⟨e1, e2⟩ := h.nonneg _ (List.getElem_mem hk')
    have hsq : 0 ≤ Real.sqrt s := Real.sqrt_nonneg s
    rw [hv, e1]
    by_cases hs2 : Real.sqrt s = 0
    · exfalso
      have hs' := hs
      rw [CSR.rowSumSq_fin h.wf hvalS hi] at hs'
      have hs3 : 0 ≤ s := by
        have := Dbl.fin.inj hs'
        rw [← this]
        apply List.sum_nonneg
        intro x hx
        obtain ⟨j, _, rfl⟩ := List.mem_map.1 hx
        exact mul_self_nonneg _
      exact hs0 ((Real.sqrt_eq_zero hs3).1 hs2)
    · rw [Dbl.fin_div_fin_of_ne _ hs2]
      exact ⟨rfl, div_nonneg e2 hsq⟩
  · intro i hi hne
    rw [h2] at hi hne
    obtain ⟨s, hs, hs0⟩ := hrow i hi hne
    exact (h5 i s hi hs hs0).2

/-! ### The degrees of a normalized matrix -/

/-- Every entry of `S * S^T * 1` of a normalized matrix with entries `≥ 0` is
0 (empty row) or at least 1 (the row's own squared norm). -/
theorem CSR.Normalized.degree_cases {S : CSR ℝ} (h : S.Normalized) :
    ∀ v ∈ S.degree, v = fin v.get ∧ (v.get = 0 ∨ 1 ≤ v.get) := by
  intro v hv
  unfold CSR.degree at hv
  obtain ⟨i, hi, rfl⟩ := List.mem_map.1 hv
  have hi : i + 1 < S.row_ptr.length := by
    have := List.mem_range.1 hi; omega
  have hval : ∀ v ∈ S.values, v = fin v.get := fun v hv => (h.nonneg v hv).1
  set ones : List (Dbl ℝ) := List.replicate (S.row_ptr.length - 1) 1 with hones
  have hones_fin : ∀ v ∈ ones, v = fin v.get := by
    intro v hv
    rw [List.eq_of_mem_replicate hv]
    rfl
  set temp : List (Dbl ℝ) := (List.range (S.row_ptr.length - 1)).map (S.colDot ones) with htemp
  have htemp_fin : ∀ v ∈ temp, v = fin v.get := by
    intro v hv
    obtain ⟨c, _, rfl⟩ := List.mem_map.1 hv
    rw [CSR.colDot_fin S ones h.wf (by simp [hones]) hval hones_fin c]
    rfl
  have hcol : ∀ c ∈ S.col_idx, c < (temp.length : Int) := by
    intro c hc
    have := h.col_lt c hc
    simp [htemp]; omega
  rw [CSR.rowDot_fin S temp h.wf hcol hval htemp_fin hi]
  refine ⟨rfl, ?_⟩
  simp only [Dbl.get]
  by_cases hne : rowRange S.row_ptr i = []
  · left; rw [hne]; rfl
  · right
    have hunit := h.unit i hi hne
    rw [CSR.rowSumSq_fin h.wf hval hi] at hunit
    have hunit := Dbl.fin.inj hunit
    rw [← hunit]
    apply List.sum_le_sum
    intro j hj
    obtain ⟨b1, b2, b3⟩ := h.wf.rowRange_bounds hi hj
    have hx : 0 ≤ (getI S.values 0 j).get := (h.nonneg _ (getI_mem _ _ b1 b2)).2
    apply mul_le_mul_of_nonneg_left _ hx
    -- the column sum of the column of `j` contains the value at `j`
    have hc0 := h.wf.col_idx_nonneg _ b3
    have hc1 := h.col_lt _ b3
    obtain ⟨c, hc⟩ := Int.eq_ofNat_of_zero_le hc0
    have hcN : c < S.row_ptr.length - 1 := by omega
    rw [hc, getI_natCast, htemp, List.getElem?_map, List.getElem?_range hcN]
    simp only [Option.map_some', Option.getD_some]
    rw [CSR.colDot_fin S ones h.wf (by simp [hones]) hval hones_fin c]
    simp only [Dbl.get]
    have hmem : (getI S.values 0 j).get * (getI ones 0 (i : Int)).get ∈
        ((entries S.row_ptr).filter (fun p => (getI S.col_idx 0 p.2).toNat = c)).map
          (fun p => (getI S.values 0 p.2).get * (getI ones 0 p.1).get) := by
      apply List.mem_map.2
      refine ⟨((i : Int), j), ?_, rfl⟩
      apply List.mem_filter.2
      refine ⟨mem_entries_of_mem_rowRange hi hj, ?_⟩
      simp [hc]
    have hle := List.single_le_sum (by
      intro x hx
      obtain ⟨p, hp, rfl⟩ := List.mem_map.1 hx
      obtain ⟨q1, q2, q3, q4⟩ := h.wf.bounds (List.mem_filter.1 hp).1
      have hx1 : 0 ≤ (getI S.values 0 p.2).get := (h.nonneg _ (getI_mem _ _ q3 q4)).2
      have hone : getI ones 0 p.1 = 1 :=
        List.eq_of_mem_replicate (getI_mem ones 0 q1 (by simp [hones]; omega))
      rw [hone]
      simpa [Dbl.one_def, Dbl.get] using hx1) _ hmem
    have hone : getI ones 0 (i : Int) = 1 :=
      List.eq_of_mem_replicate (getI_mem ones 0 (by omega) (by simp [hones]; omega))
    rw [hone] at hle
    simpa [Dbl.one_def, Dbl.get] using hle

/-! ### `CSR::inv_diag` on a normalized matrix -/

section Build
variable {α : Type} [LinearOrderedField α]
set_option linter.unusedSectionVars false

theorem nzCount_succ (dv : List (Dbl α)) (k : Nat) :
    nzCount dv (k + 1) = nzCount dv k + if ne_zero (dv[k]?.getD 0) = true then 1 else 0 := by
  unfold nzCount
  rw [List.range_succ, List.filter_append]
  by_cases h : ne_zero (dv[k]?.getD 0) = true
  · simp [List.filter_cons, h]
  · simp [List.filter_cons, h]

theorem nzCount_mono (dv : List (Dbl α)) {a b : Nat} (hab : a ≤ b) :
    nzCount dv a ≤ nzCount dv b := by
  induction b with
  | zero =>
    have : a = 0 := by omega
    rw [this]
  | succ b ih =>
    rcases Nat.eq_or_lt_of_le hab with h | h
    · rw [h]
    · have := ih (by omega)
      rw [nzCount_succ]
      split <;> omega

theorem filter_length_range {β : Type} (p : β → Bool) (d : β) (l : List β) :
    (l.filter p).length = ((List.range l.length).filter (fun k => p (l[k]?.getD d))).length := by
  have h : l = (List.range l.length).map (fun k => l[k]?.getD d) := by
    apply List.ext_getElem
    · simp
    · intro k h1 h2
      simp [List.getElem?_eq_getElem h1]
  conv_lhs => rw [h]
  rw [List.filter_map, List.length_map]
  rfl

end Build

/-- On a normalized matrix `CSR::inv_diag` returns a well-formed matrix with
finite values: the two zero tests agree on degrees that are 0 or `≥ 1`. -/
theorem CSR.Normalized.inv_diag {S : CSR ℝ} (h : S.Normalized) :
    ∃ D : CSR ℝ, S.inv_diag = some D ∧ D.WellFormed ∧
      D.row_ptr.length = S.row_ptr.length ∧
      (∀ c ∈ D.col_idx, c < (S.row_ptr.length : Int) - 1) ∧
      ∀ v ∈ D.values, v = fin v.get := by
  refine ⟨_, CSR.inv_diag_eq S h.wf h.col_lt, ?_, ?_, ?_, ?_⟩
  · have hlen : S.degree.length = S.row_ptr.length - 1 := by simp [CSR.degree]
    have hfilter : S.degree.filter (fun x => !fabs_lt_eps x) = S.degree.filter ne_zero := by
      apply List.filter_congr
      intro v hv
      obtain ⟨e1, e2⟩ := h.degree_cases v hv
      rw [e1]
      rcases e2 with e2 | e2
      · rw [e2]
        simp [fabs_lt_eps, ne_zero, DBL_EPSILON]
      · have h1 : v.get ≠ 0 := by linarith
        have h2 : ¬ |v.get| < DBL_EPSILON := by
          rw [abs_of_nonneg (by linarith)]
          have : (DBL_EPSILON : ℝ) ≤ 1 := by
            unfold DBL_EPSILON; norm_num
          linarith
        simp [fabs_lt_eps, ne_zero, h1, h2]
    have hcount : ((S.degree.filter (fun x => !fabs_lt_eps x)).length : Int) =
        nzCount S.degree (S.row_ptr.length - 1) := by
      rw [hfilter, filter_length_range ne_zero 0, hlen]
      rfl
    refine ⟨?_, ?_, ?_, ?_, ?_⟩
    · simp only
      cases hN : S.row_ptr.length - 1 with
      | zero => simp [nzCount]
      | succ n => simp [List.range_succ_eq_map, nzCount]
    · simp only
      have : (List.range (S.row_ptr.length - 1)).map (nzCount S.degree) ++
          [nzCount S.degree (S.row_ptr.length - 1)] =
          (List.range (S.row_ptr.length - 1 + 1)).map (nzCount S.degree) := by
        rw [List.range_succ, List.map_append]; rfl
      rw [this, List.pairwise_map]
      exact (List.pairwise_lt_range _).imp (fun hab => nzCount_mono _ (le_of_lt hab))
    · simp only [List.getLast?_append, List.getLast?_singleton, List.length_map]
      rw [hcount]; rfl
    · simp only [List.length_map]
      rw [hfilter, filter_length_range ne_zero 0, hlen]
    · intro c hc
      simp only [List.mem_map] at hc
      obtain ⟨k, _, rfl⟩ := hc
      exact Int.natCast_nonneg k
  · have := h.wf.row_ptr_ne
    have : 0 < S.row_ptr.length := List.length_pos.2 this
    simp only [List.length_append, List.length_map, List.length_range, List.length_singleton]
    omega
  · intro c hc
    simp only [List.mem_map, List.mem_filter, List.mem_range] at hc
    obtain ⟨k, ⟨hk, _⟩, rfl⟩ := hc
    omega
  · intro v hv
    simp only [List.mem_map, List.mem_filter] at hv
    obtain ⟨x, ⟨hx, hx2⟩, rfl⟩ := hv
    obtain ⟨e1, e2⟩ := h.degree_cases x hx
    rw [e1] at hx2 ⊢
    have hne : x.get ≠ 0 := by
      intro h0
      rw [h0] at hx2
      simp [fabs_lt_eps, DBL_EPSILON] at hx2
    rw [Dbl.one_def, Dbl.fin_div_fin_of_ne _ hne]
    rfl

/-! ### One pass of the loop of `LexRank::prop` -/

section Step
variable {α : Type} [LinearOrderedField α]
set_option linter.unusedSectionVars false

theorem forLoop_zip {β : Type} (f : β → β → β) (cs t : List β) (h : t.length ≤ cs.length) :
    forLoop 0 (t.length : Int) (fun i next =>
      (rd cs i).bind fun c => (rd next i).bind fun x => wr next i (f c x)) t =
    some (List.zipWith f cs t) := by
  obtain ⟨t', h1, h2, h3⟩ := forLoop_update t.length (fun k x => match cs[k]? with
      | some c => f c x
      | none => x)
    (fun i next => (rd cs i).bind fun c => (rd next i).bind fun x => wr next i (f c x))
    (fun k hk t' h' => by
      have hk' : k < cs.length := by omega
      simp only [rd_natCast, List.getElem?_eq_getElem h', List.getElem?_eq_getElem hk',
        Option.some_bind]
      exact wr_natCast t' _ h') t rfl
  rw [h1]
  congr 1
  apply List.ext_getElem?
  intro k
  by_cases hk : k < t.length
  · have hk' : k < cs.length := by omega
    rw [h3 k hk, List.getElem?_zipWith, List.getElem?_eq_getElem hk,
      List.getElem?_eq_getElem hk']
    rfl
  · rw [List.getElem?_eq_none (by omega), List.getElem?_eq_none (by simp; omega)]

theorem forLoop_sub_ok (next p temp : List (Dbl α)) (h1 : next.length ≤ p.length)
    (h2 : next.length ≤ temp.length) :
    ∃ t', forLoop 0 (next.length : Int) (fun i temp =>
      (rd next i).bind fun x => (rd p i).bind fun q => wr temp i (x - q)) temp = some t' := by
  obtain ⟨t', h, _⟩ := forLoop_invariant (fun _ (t : List (Dbl α)) => t.length = temp.length)
    (fun i temp => (rd next i).bind fun x => (rd p i).bind fun q => wr temp i (x - q))
    next.length
    (fun k hk s hs => by
      have hk1 : k < p.length := by omega
      have hk2 : k < s.length := by omega
      refine ⟨s.set k (next[k] - p[k]), ?_, by simp [hs]⟩
      simp only [rd_natCast, List.getElem?_eq_getElem hk, List.getElem?_eq_getElem hk1,
        Option.some_bind]
      exact wr_natCast s _ hk2) temp rfl
  exact ⟨t', h⟩

/-- The loop body of `LexRank::prop`, given its three products. -/
theorem prop_step_eq (csr d_csr : CSR α) (nfile : Int) (d : Dbl α)
    (cons_vec p_vec a b c : List (Dbl α))
    (ha : d_csr.prod p_vec = some a) (hb : csr.prod_t a = some b) (hc : csr.prod b = some c)
    (hN : c.length = nfile.toNat) (hcons : cons_vec.length = c.length)
    (hp : p_vec.length = c.length) :
    prop_step csr d_csr nfile d cons_vec p_vec =
      some (List.zipWith (fun cv x => cv + x) cons_vec (c.map (fun x => x * (1 - d)))) := by
  have H1 := fun t : List (Dbl α) => forLoop_map (fun x : Dbl α => x * (1 - d)) t
  have H2 := forLoop_zip (fun cv x : Dbl α => cv + x) cons_vec (c.map (fun x => x * (1 - d)))
    (by simp [hcons])
  obtain ⟨t', H3⟩ := forLoop_sub_ok
    (List.zipWith (fun cv x => cv + x) cons_vec (c.map (fun x => x * (1 - d)))) p_vec
    (List.replicate nfile.toNat (0 : Dbl α)) (by simp [hcons, hp]) (by simp [hcons, hN])
  unfold prop_step
  simp only [Option.bind_eq_bind, Option.pure_def] at H1 ⊢
  rw [ha]
  simp only [Option.some_bind]
  rw [hb]
  simp only [Option.some_bind]
  rw [hc]
  simp only [Option.some_bind]
  rw [H1]
  simp only [Option.some_bind]
  rw [H2]
  simp only [Option.some_bind]
  rw [H3]
  rfl

end Step

/-! ### Whole runs of `LexRank::prop` -/

theorem zipWith_add_replicate {α : Type} [LinearOrderedField α] (N : Nat) (cons : Dbl α)
    (c : List (Dbl α)) (hc : c.length = N) (hz : ∀ v ∈ c, v = 0) :
    List.zipWith (fun cv x => cv + x) (List.replicate N cons) c = List.replicate N cons := by
  apply List.ext_getElem
  · simp [hc]
  · intro k h1 h2
    have hk : k < c.length := by simp at h1; omega
    simp only [List.getElem_zipWith, List.getElem_replicate]
    rw [hz _ (List.getElem_mem hk), add_zero]

theorem prop_damping_one_aux (S : CSR ℝ) (h : S.InRange) (hz : S.NoZeroRow) (n : Nat) :
    prop Real.sqrt S (n : Int) (fin 1) =
      some (List.replicate (S.row_ptr.length - 1)
        (fin (1 / ((S.row_ptr.length - 1 : Nat) : ℝ)))) := by
  obtain ⟨S', h1, h2, h3, hS'⟩ := h.normalization hz
  obtain ⟨D, h4, hD, h5, h6, h7⟩ := hS'.inv_diag
  have hlen : 0 < S.row_ptr.length := List.length_pos.2 h.wf.row_ptr_ne
  have hnfile : S'.get_nfile.toNat = S.row_ptr.length - 1 := by
    unfold CSR.get_nfile; rw [h2]; omega
  have hS'len : S'.row_ptr.length = S.row_ptr.length := by rw [h2]
  unfold prop
  simp only [Option.bind_eq_bind, Option.pure_def]
  rw [h1]
  simp only [Option.some_bind]
  rw [h4]
  simp only [Option.some_bind]
  rw [hnfile]
  set N := S.row_ptr.length - 1 with hN
  set cons : Dbl ℝ := fin 1 / fin ((S'.get_nfile : ℤ) : ℝ) with hcons
  have hconsfin : 0 < N → cons = fin (1 / (N : ℝ)) := by
    intro hpos
    have e : ((S'.get_nfile : ℤ) : ℝ) = (N : ℝ) := by
      have : S'.get_nfile = ((N : Nat) : ℤ) := by
        unfold CSR.get_nfile; rw [h2]; omega
      rw [this]; simp
    rw [hcons, e, Dbl.fin_div_fin_of_ne]
    exact_mod_cast hpos.ne'
  have hres : List.replicate N cons = List.replicate N (fin (1 / (N : ℝ))) := by
    rcases Nat.eq_zero_or_pos N with h0 | hpos
    · rw [h0]; rfl
    · rw [hconsfin hpos]
  have hpfin : ∀ v ∈ List.replicate N cons, v = fin v.get := by
    intro v hv
    have hpos : 0 < N := by
      rcases Nat.eq_zero_or_pos N with h0 | hpos
      · rw [h0] at hv; simp at hv
      · exact hpos
    rw [List.eq_of_mem_replicate hv, hconsfin hpos]
    rfl
  obtain ⟨s', e1, e2⟩ := forLoop_invariant (fun _ (p : List (Dbl ℝ)) => p = List.replicate N cons)
    (fun _ p_vec => prop_step S' D S'.get_nfile (fin 1) (List.replicate N cons) p_vec) n
    (by
      intro k _ p hp
      subst hp
      refine ⟨List.replicate N cons, ?_, rfl⟩
      obtain ⟨a, ha, ha1, ha2⟩ := CSR.prod_fin D (List.replicate N cons) hD
        (by intro c hc; have := h6 c hc; rw [List.length_replicate]; omega) h7 hpfin
      obtain ⟨b, hb, hb1, hb2⟩ := CSR.prod_t_fin S' a hS'.wf hS'.col_lt
        (by rw [ha1, h5, h2]) (fun v hv => (hS'.nonneg v hv).1) ha2
      obtain ⟨c, hc, hc1, hc2⟩ := CSR.prod_fin S' b hS'.wf
        (by intro c hc; have := hS'.col_lt c hc; rw [hb1]; omega)
        (fun v hv => (hS'.nonneg v hv).1) hb2
      have hcN : c.length = N := by rw [hc1, h2]
      show prop_step S' D S'.get_nfile (fin 1) (List.replicate N cons)
        (List.replicate N cons) = _
      rw [prop_step_eq S' D S'.get_nfile (fin 1) (List.replicate N cons)
        (List.replicate N cons) a b c ha hb hc (by rw [hcN, hnfile])
        (by simp [hcN]) (by simp [hcN])]
      congr 1
      apply zipWith_add_replicate
      · simp [hcN]
      · intro v hv
        obtain ⟨x, hx, rfl⟩ := List.mem_map.1 hv
        rw [hc2 x hx]
        show fin (x.get * (1 - 1)) = fin 0
        simp)
    (List.replicate N cons) rfl
  rw [e1, e2, hres]

/-- With `n = 0`, `LexRank::prop` on a well-formed matrix whose column ids are
below the number of rows returns `d/N` in every entry (NaN rows included). -/
theorem prop_zero_iterations (sq : ℝ → ℝ) (S : CSR ℝ) (hwf : S.WellFormed)
    (hcol : ∀ c ∈ S.col_idx, c < (S.row_ptr.length : Int) - 1) (d : Dbl ℝ) :
    prop sq S 0 d = some (List.replicate (S.row_ptr.length - 1)
      (d / fin (((S.row_ptr.length : Int) - 1 : Int) : ℝ))) := by
  obtain ⟨vals, h1, h2, _⟩ := CSR.normalization_eq sq S hwf
  have hwf' : ({ S with values := vals } : CSR ℝ).WellFormed :=
    ⟨hwf.row_ptr_head, hwf.row_ptr_sorted, by rw [h2]; exact hwf.row_ptr_last,
      by rw [h2]; exact hwf.col_idx_length, hwf.col_idx_nonneg⟩
  have h3 := CSR.inv_diag_eq _ hwf' hcol
  unfold prop
  simp only [Option.bind_eq_bind, Option.pure_def]
  rw [h1]
  simp only [Option.some_bind]
  rw [h3]
  simp only [Option.some_bind]
  have : ({ S with values := vals } : CSR ℝ).get_nfile.toNat = S.row_ptr.length - 1 := by
    unfold CSR.get_nfile; simp only; omega
  rw [this]
  rfl

theorem S_shared_inRange : (S_shared : CSR ℝ).InRange := by
  refine ⟨⟨by decide, by decide, by decide, by decide, by decide⟩, ?_, by decide⟩
  intro v hv
  simp only [S_shared, List.mem_cons, List.mem_singleton, List.not_mem_nil, or_false] at hv
  rcases hv with rfl | rfl <;> simp [Dbl.get]

theorem S_shared_noZeroRow : (S_shared : CSR ℝ).NoZeroRow := by
  intro i hi hne
  have hi : i < 3 := by simp [S_shared] at hi; omega
  interval_cases i
  · simp [CSR.rowSumSq, rowRange, S_shared, getI, rd, Dbl.zero_def, List.range_succ]
  · simp [CSR.rowSumSq, rowRange, S_shared, getI, rd, Dbl.zero_def, List.range_succ]
  · exact absurd (by simp [rowRange, S_shared]) hne

theorem CSR.rowDot_empty (M : CSR ℝ) (vec : List (Dbl ℝ)) {i : Nat}
    (h : rowRange M.row_ptr i = []) : M.rowDot vec i = 0 := by
  unfold CSR.rowDot
  rw [h]
  rfl

theorem forLoop_succ {σ : Type} (body : Int → σ → Option σ) (n : Nat) (s : σ) :
    forLoop 0 ((n + 1 : Nat) : Int) body s = (forLoop 0 (n : Int) body s).bind (body (n : Int)) := by
  unfold forLoop
  have h1 : (((n + 1 : Nat) : Int) - 0).toNat = n + 1 := by omega
  have h2 : ((n : Int) - 0).toNat = n := by omega
  rw [h1, h2, List.range_succ, List.foldlM_append]
  simp only [Option.bind_eq_bind, List.foldlM_cons, List.foldlM_nil, zero_add]
  congr 1
  funext s'
  cases body (n : Int) s' <;> rfl

/-- One pass of the loop of `LexRank::prop` on a normalized in-range matrix
and finite scores `p`: the three products stay in range and are finite, and
the new scores are `cons + (1 - d) * S.prod(S.prod_t(D.prod(p)))`. -/
theorem CSR.Normalized.prop_step_chain {S' D : CSR ℝ} (hS' : S'.Normalized)
    (hD : D.WellFormed) (h5 : D.row_ptr.length = S'.row_ptr.length)
    (h6 : ∀ c ∈ D.col_idx, c < (S'.row_ptr.length : Int) - 1)
    (h7 : ∀ v ∈ D.values, v = fin v.get) (d cons : ℝ) (p : List (Dbl ℝ))
    (hp : p.length = S'.row_ptr.length - 1) (hpfin : ∀ v ∈ p, v = fin v.get) :
    ∃ a b r : List (Dbl ℝ),
      D.prod p = some a ∧ S'.prod_t a = some b ∧ S'.prod b = some r ∧
      r.length = S'.row_ptr.length - 1 ∧ (∀ v ∈ r, v = fin v.get) ∧
      prop_step S' D S'.get_nfile (fin d)
        (List.replicate (S'.row_ptr.length - 1) (fin cons)) p =
        some (List.zipWith (fun cv x => cv + x)
          (List.replicate (S'.row_ptr.length - 1) (fin cons))
          (r.map (fun x => x * (1 - fin d)))) := by
  have hlen : 0 < S'.row_ptr.length := List.length_pos.2 hS'.wf.row_ptr_ne
  have hnfile : S'.get_nfile.toNat = S'.row_ptr.length - 1 := by
    unfold CSR.get_nfile; omega
  obtain ⟨a, ha, ha1, ha2⟩ := CSR.prod_fin D p hD
    (by intro c hc; have := h6 c hc; rw [hp]; omega) h7 hpfin
  obtain ⟨b, hb, hb1, hb2⟩ := CSR.prod_t_fin S' a hS'.wf hS'.col_lt
    (by rw [ha1, h5]) (fun v hv => (hS'.nonneg v hv).1) ha2
  have hcolb : ∀ c ∈ S'.col_idx, c < (b.length : Int) := by
    intro c hc; have := hS'.col_lt c hc; rw [hb1]; omega
  obtain ⟨r, hc, hc1, hc2⟩ := CSR.prod_fin S' b hS'.wf hcolb
    (fun v hv => (hS'.nonneg v hv).1) hb2
  exact ⟨a, b, r, ha, hb, hc, hc1, hc2,
    prop_step_eq S' D S'.get_nfile (fin d) _ p a b r ha hb hc (by rw [hc1, hnfile])
      (by simp [hc1]) (by rw [hp, hc1])⟩

/-- The pass of `prop_step_chain` keeps the scores finite and gives an item
with an empty row the score `cons`. -/
theorem CSR.Normalized.prop_step_fin {S' D : CSR ℝ} (hS' : S'.Normalized) (hD : D.WellFormed)
    (h5 : D.row_ptr.length = S'.row_ptr.length)
    (h6 : ∀ c ∈ D.col_idx, c < (S'.row_ptr.length : Int) - 1)
    (h7 : ∀ v ∈ D.values, v = fin v.get) (d cons : ℝ) (p : List (Dbl ℝ))
    (hp : p.length = S'.row_ptr.length - 1) (hpfin : ∀ v ∈ p, v = fin v.get) :
    ∃ u : List (Dbl ℝ),
      prop_step S' D S'.get_nfile (fin d)
        (List.replicate (S'.row_ptr.length - 1) (fin cons)) p = some u ∧
      u.length = S'.row_ptr.length - 1 ∧ (∀ v ∈ u, v = fin v.get) ∧
      ∀ i : Nat, i + 1 < S'.row_ptr.length → rowRange S'.row_ptr i = [] →
        u[i]? = some (fin cons) := by
  obtain ⟨a, b, r, ha, hb, hc, hc1, hc2, hstep⟩ :=
    hS'.prop_step_chain hD h5 h6 h7 d cons p hp hpfin
  have hcolb : ∀ c ∈ S'.col_idx, c < (b.length : Int) := by
    intro c hc
    have := hS'.col_lt c hc
    have hb1 : b.length = S'.row_ptr.length - 1 := by
      have := CSR.prod_t_eq S' a hS'.wf hS'.col_lt (by
        have := CSR.prod_eq D p hD (by intro c hc; have := h6 c hc; rw [hp]; omega)
        rw [ha] at this
        rw [Option.some.inj this]
        simp [h5])
      rw [hb] at this
      rw [Option.some.inj this]
      simp
    rw [hb1]; omega
  have hce := CSR.prod_eq S' b hS'.wf hcolb
  rw [hc] at hce
  have hce := Option.some.inj hce
  refine ⟨_, hstep, by simp [hc1], ?_, ?_⟩
  · intro v hv
    obtain ⟨k, hk, rfl⟩ := List.getElem_of_mem hv
    simp only [List.getElem_zipWith, List.getElem_replicate, List.getElem_map]
    have hk' : k < r.length := by simp at hk; omega
    rw [hc2 _ (List.getElem_mem hk')]
    rfl
  · intro i hi hempty
    have hi' : i < r.length := by rw [hc1]; omega
    have hi2 : i < ((List.range (S'.row_ptr.length - 1)).map (S'.rowDot b)).length := by
      simp; omega
    rw [List.getElem?_eq_getElem (by simp [hc1]; omega)]
    simp only [List.getElem_zipWith, List.getElem_replicate, List.getElem_map]
    have hri : r[i] = 0 := by
      have h1 : r[i] = ((List.range (S'.row_ptr.length - 1)).map (S'.rowDot b))[i] := by
        simp only [hce]
      rw [h1, List.getElem_map, List.getElem_range, CSR.rowDot_empty _ _ hempty]
    rw [hri]
    show some (fin (cons + 0 * (1 - d))) = some (fin cons)
    simp

/-- The recurrence of `LexRank::prop` on a feature matrix whose feature ids
are below the number `N ≥ 1` of items and that has no zero-norm row: with `S'`
the normalized matrix and `D` its inverse-degree matrix, the scores `p` after
`k` iterations are finite and the scores after `k + 1` iterations are
`d/N + (1 - d) * S'.prod(S'.prod_t(D.prod(p)))`. -/
theorem prop_recurrence_in_range (S : CSR ℝ) (h : S.InRange) (hz : S.NoZeroRow) (d : ℝ)
    (hN : 1 < S.row_ptr.length) :
    ∃ S' D : CSR ℝ, S.normalization Real.sqrt = some S' ∧ S'.inv_diag = some D ∧
      ∀ k : Nat, ∃ p a b r : List (Dbl ℝ),
        prop Real.sqrt S (k : Int) (fin d) = some p ∧
        p.length = S.row_ptr.length - 1 ∧ (∀ v ∈ p, v = fin v.get) ∧
        D.prod p = some a ∧ S'.prod_t a = some b ∧ S'.prod b = some r ∧
        prop Real.sqrt S ((k + 1 : Nat) : Int) (fin d) =
          some (List.zipWith (fun cv x => cv + x)
            (List.replicate (S.row_ptr.length - 1)
              (fin (d / ((S.row_ptr.length - 1 : Nat) : ℝ))))
            (r.map (fun x => x * (1 - fin d)))) := by
  obtain ⟨S', h1, h2, h3, hS'⟩ := h.normalization hz
  obtain ⟨D, h4, hD, h5, h6, h7⟩ := hS'.inv_diag
  refine ⟨S', D, h1, h4, ?_⟩
  have hnfile : S'.get_nfile.toNat = S.row_ptr.length - 1 := by
    unfold CSR.get_nfile; rw [h2]; omega
  have hN' : S'.row_ptr.length - 1 = S.row_ptr.length - 1 := by rw [h2]
  have hcons : (fin d / fin ((S'.get_nfile : ℤ) : ℝ) : Dbl ℝ) =
      fin (d / ((S.row_ptr.length - 1 : Nat) : ℝ)) := by
    have e : ((S'.get_nfile : ℤ) : ℝ) = ((S.row_ptr.length - 1 : Nat) : ℝ) := by
      have : S'.get_nfile = ((S.row_ptr.length - 1 : Nat) : ℤ) := by
        unfold CSR.get_nfile; rw [h2]; omega
      rw [this]; simp
    rw [e, Dbl.fin_div_fin_of_ne]
    have : 0 < S.row_ptr.length - 1 := by omega
    exact_mod_cast this.ne'
  have hprop : ∀ n : Int, prop Real.sqrt S n (fin d) =
      forLoop 0 n (fun _ p_vec => prop_step S' D S'.get_nfile (fin d)
        (List.replicate (S.row_ptr.length - 1)
          (fin (d / ((S.row_ptr.length - 1 : Nat) : ℝ)))) p_vec)
        (List.replicate (S.row_ptr.length - 1)
          (fin (d / ((S.row_ptr.length - 1 : Nat) : ℝ)))) := by
    intro n
    unfold prop
    simp only [Option.bind_eq_bind, Option.pure_def]
    rw [h1]
    simp only [Option.some_bind]
    rw [h4]
    simp only [Option.some_bind]
    rw [hnfile, hcons]
  intro k
  obtain ⟨p, e1, e2, e3⟩ := forLoop_invariant
    (fun _ (p : List (Dbl ℝ)) => p.length = S.row_ptr.length - 1 ∧ (∀ v ∈ p, v = fin v.get))
    (fun _ p_vec => prop_step S' D S'.get_nfile (fin d)
      (List.replicate (S.row_ptr.length - 1)
        (fin (d / ((S.row_ptr.length - 1 : Nat) : ℝ)))) p_vec) k
    (by
      intro j _ p hp
      obtain ⟨u, g1, g2, g3, _⟩ := hS'.prop_step_fin hD h5 h6 h7 d
        (d / ((S.row_ptr.length - 1 : Nat) : ℝ)) p (by rw [hN']; exact hp.1) hp.2
      rw [hN'] at g1 g2
      exact ⟨u, g1, g2, g3⟩)
    (List.replicate (S.row_ptr.length - 1) (fin (d / ((S.row_ptr.length - 1 : Nat) : ℝ))))
    ⟨by simp, fun v hv => by rw [List.eq_of_mem_replicate hv]; rfl⟩
  obtain ⟨a, b, r, ha, hb, hc, _, _, hstep⟩ := hS'.prop_step_chain hD h5 h6 h7 d
    (d / ((S.row_ptr.length - 1 : Nat) : ℝ)) p (by rw [hN']; exact e2) e3
  rw [hN'] at hstep
  refine ⟨p, a, b, r, by rw [hprop, e1], e2, e3, ha, hb, hc, ?_⟩
  rw [hprop, forLoop_succ, e1]
  exact hstep

/-- On a feature matrix whose feature ids are below the number of items and
that has no zero-norm row, an item with an empty row receives the score
`d/N` for every number of iterations. -/
theorem prop_isolated_in_range (S : CSR ℝ) (h : S.InRange) (hz : S.NoZeroRow) (d : ℝ)
    (n i : Nat) (hi : i + 1 < S.row_ptr.length) (hempty : rowRange S.row_ptr i = []) :
    ∃ u : List (Dbl ℝ), prop Real.sqrt S (n : Int) (fin d) = some u ∧
      u.length = S.row_ptr.length - 1 ∧
      u[i]? = some (fin (d / ((S.row_ptr.length - 1 : Nat) : ℝ))) := by
  obtain ⟨S', h1, h2, h3, hS'⟩ := h.normalization hz
  obtain ⟨D, h4, hD, h5, h6, h7⟩ := hS'.inv_diag
  have hnfile : S'.get_nfile.toNat = S.row_ptr.length - 1 := by
    unfold CSR.get_nfile; rw [h2]; omega
  unfold prop
  simp only [Option.bind_eq_bind, Option.pure_def]
  rw [h1]
  simp only [Option.some_bind]
  rw [h4]
  simp only [Option.some_bind]
  rw [hnfile]
  set N := S.row_ptr.length - 1 with hN
  have hpos : 0 < N := by omega
  have hcons : (fin d / fin ((S'.get_nfile : ℤ) : ℝ) : Dbl ℝ) = fin (d / (N : ℝ)) := by
    have e : ((S'.get_nfile : ℤ) : ℝ) = (N : ℝ) := by
      have : S'.get_nfile = ((N : Nat) : ℤ) := by
        unfold CSR.get_nfile; rw [h2]; omega
      rw [this]; simp
    rw [e, Dbl.fin_div_fin_of_ne]
    exact_mod_cast hpos.ne'
  rw [hcons]
  have hN' : S'.row_ptr.length - 1 = N := by rw [h2]
  obtain ⟨u, e1, e2, _, e4⟩ := forLoop_invariant
    (fun _ (p : List (Dbl ℝ)) => p.length = N ∧ (∀ v ∈ p, v = fin v.get) ∧
      p[i]? = some (fin (d / (N : ℝ))))
    (fun _ p_vec => prop_step S' D S'.get_nfile (fin d)
      (List.replicate N (fin (d / (N : ℝ)))) p_vec) n
    (by
      intro k _ p hp
      obtain ⟨u, g1, g2, g3, g4⟩ := hS'.prop_step_fin hD h5 h6 h7 d (d / (N : ℝ)) p
        (by rw [hN']; exact hp.1) hp.2.1
      rw [hN'] at g1 g2
      exact ⟨u, g1, g2, g3, g4 i (by rw [h2]; exact hi) (by rw [h2]; exact hempty)⟩)
    (List.replicate N (fin (d / (N : ℝ))))
    ⟨by simp, fun v hv => by rw [List.eq_of_mem_replicate hv]; rfl, by
      rw [List.getElem?_replicate]; simp; omega⟩
  exact ⟨u, e1, e2, e4⟩

/-! ### The run on a stored weight 0 -/

theorem S_zero_weight_normalization : (S_zero_weight : CSR ℝ).normalization Real.sqrt =
    some { values := [nan], row_ptr := [0, 1], col_idx := [0] } := by
  simp [CSR.normalization, S_zero_weight, forEntries, forLoop, rd, wr, List.range_succ,
    Dbl.zero_def, Dbl.sqrt]

theorem nan_inv_diag : ({ values := [nan], row_ptr := [0, 1], col_idx := [0] } : CSR ℝ).inv_diag =
    some { values := [nan], row_ptr := [0, 1], col_idx := [0] } := by
  simp [CSR.inv_diag, forEntries, forLoop, rd, wr, List.range_succ, Dbl.zero_def,
    Dbl.one_def, ne_zero, CSR.eraseTiny_eq_filter, fabs_lt_eps]

theorem nan_prop_step (d c p : Dbl ℝ) :
    prop_step ({ values := [nan], row_ptr := [0, 1], col_idx := [0] } : CSR ℝ)
      { values := [nan], row_ptr := [0, 1], col_idx := [0] } 1 d [c] [p] = some [nan] := by
  simp [prop_step, CSR.prod, CSR.prod_t, forEntries, forLoop, rd, wr, List.range_succ,
    Dbl.zero_def]

theorem S_zero_weight_prop (d : Dbl ℝ) (n : Nat) :
    prop Real.sqrt (S_zero_weight : CSR ℝ) ((n : Int) + 1) d = some [nan] := by
  unfold prop
  simp only [Option.bind_eq_bind, Option.pure_def]
  rw [S_zero_weight_normalization]
  simp only [Option.some_bind]
  rw [nan_inv_diag]
  simp only [Option.some_bind]
  have hn : CSR.get_nfile ({ values := [nan], row_ptr := [0, 1], col_idx := [0] } : CSR ℝ) = 1 := by
    simp [CSR.get_nfile]
  rw [hn]
  have hcast : ((n : Int) + 1) = ((n + 1 : Nat) : Int) := by push_cast; rfl
  rw [hcast]
  obtain ⟨s', e1, e2⟩ := forLoop_invariant
    (fun k (p : List (Dbl ℝ)) => p.length = 1 ∧ (0 < k → p = [nan]))
    (fun _ p_vec => prop_step ({ values := [nan], row_ptr := [0, 1], col_idx := [0] } : CSR ℝ)
      { values := [nan], row_ptr := [0, 1], col_idx := [0] } 1 d
      (List.replicate (1 : Int).toNat (d / fin (((1 : Int) : ℝ)))) p_vec) (n + 1)
    (by
      intro k _ p hp
      obtain ⟨x, rfl⟩ := List.length_eq_one.1 hp.1
      exact ⟨[nan], nan_prop_step d _ x, rfl, fun _ => rfl⟩)
    (List.replicate (1 : Int).toNat (d / fin (((1 : Int) : ℝ)))) ⟨rfl, fun h => absurd h (lt_irrefl 0)⟩
  rw [e1, e2.2 (Nat.succ_pos n)]

/-! ### Concrete matrices -/

theorem M_square_represents :
    (M_square : CSR ℝ).Represents (Matrix.of ![![1, 2], ![0, 3]] : Matrix (Fin 2) (Fin 2) ℝ) := by
  refine ⟨⟨by decide, by decide, by decide, by decide, by decide⟩, by decide, by decide, ?_⟩
  intro i c
  fin_cases i <;> fin_cases c <;>
    simp [CSR.entry, rowRange, M_square, getI, rd, List.range_succ, List.filter_cons,
      Dbl.zero_def]

theorem M_tall_represents :
    (M_tall : CSR ℝ).Represents (Matrix.of ![![1], ![1]] : Matrix (Fin 2) (Fin 1) ℝ) := by
  refine ⟨⟨by decide, by decide, by decide, by decide, by decide⟩, by decide, by decide, ?_⟩
  intro i c
  fin_cases i <;> fin_cases c <;>
    simp [CSR.entry, rowRange, M_tall, getI, rd, List.range_succ, List.filter_cons,
      Dbl.zero_def]

theorem M_three_four_wf : (M_three_four : CSR ℝ).WellFormed :=
  ⟨by decide, by decide, by decide, by decide, by decide⟩

theorem M_three_four_sumSq : (M_three_four : CSR ℝ).rowSumSq 0 = fin 25 := by
  simp [CSR.rowSumSq, rowRange, M_three_four, getI, rd, List.range_succ, Dbl.zero_def]
  norm_num

theorem S_unit_inRange : (S_unit : CSR ℝ).InRange := by
  refine ⟨⟨by decide, by decide, by decide, by decide, by decide⟩, ?_, by decide⟩
  intro v hv
  simp only [S_unit, List.mem_singleton] at hv
  subst hv
  simp [Dbl.get]

theorem S_unit_noZeroRow : (S_unit : CSR ℝ).NoZeroRow := by
  intro i hi hne
  have hi : i < 1 := by simp [S_unit] at hi; omega
  interval_cases i
  simp [CSR.rowSumSq, rowRange, S_unit, getI, rd, Dbl.zero_def, List.range_succ]

/-! ### The end-to-end example with an in-range feature id -/

theorem range_two : List.range 2 = [0, 1] := rfl

theorem range_three : List.range 3 = [0, 1, 2] := rfl

theorem S_shared_normalization :
    (S_shared : CSR ℝ).normalization Real.sqrt = some S_shared := by
  simp [CSR.normalization, S_shared, forEntries, forLoop, rd, wr, range_two, range_three,
    List.range_succ, Dbl.zero_def, Dbl.sqrt]
  norm_num

theorem S_shared_inv_diag : (S_shared : CSR ℝ).inv_diag =
    some { values := [fin (1 / 2), fin (1 / 2)], row_ptr := [0, 1, 2, 2], col_idx := [0, 1] } := by
  simp [CSR.inv_diag, S_shared, forEntries, forLoop, rd, wr, range_two, range_three,
    List.range_succ, Dbl.zero_def,
    Dbl.one_def, ne_zero, CSR.eraseTiny_eq_filter, fabs_lt_eps, DBL_EPSILON]
  norm_num [abs_of_pos]
  simp [range_two, Dbl.fin_div_fin]

theorem D_shared_prod (x y z : ℝ) :
    ({ values := [fin (1 / 2), fin (1 / 2)], row_ptr := [0, 1, 2, 2], col_idx := [0, 1] }
      : CSR ℝ).prod [fin x, fin y, fin z] = some [fin (x / 2), fin (y / 2), fin 0] := by
  simp [CSR.prod, forEntries, forLoop, rd, wr, range_two, range_three, List.range_succ,
    Dbl.zero_def]
  constructor <;> ring

theorem S_shared_prod_t (x y z : ℝ) :
    (S_shared : CSR ℝ).prod_t [fin x, fin y, fin z] = some [fin (x + y), fin 0, fin 0] := by
  simp [CSR.prod_t, S_shared, forEntries, forLoop, rd, wr, range_two, range_three,
    List.range_succ, Dbl.zero_def]

theorem S_shared_prod (x y z : ℝ) :
    (S_shared : CSR ℝ).prod [fin x, fin y, fin z] = some [fin x, fin x, fin 0] := by
  simp [CSR.prod, S_shared, forEntries, forLoop, rd, wr, range_two, range_three,
    List.range_succ, Dbl.zero_def]

theorem S_shared_prop_step (x y z c : ℝ) :
    prop_step (S_shared : CSR ℝ)
      { values := [fin (1 / 2), fin (1 / 2)], row_ptr := [0, 1, 2, 2], col_idx := [0, 1] }
      3 (fin (1 / 2)) [fin c, fin c, fin c] [fin x, fin y, fin z] =
    some [fin (c + (x + y) / 4), fin (c + (x + y) / 4), fin c] := by
  rw [prop_step_eq _ _ 3 (fin (1 / 2)) [fin c, fin c, fin c] [fin x, fin y, fin z]
    [fin (x / 2), fin (y / 2), fin 0] [fin (x / 2 + y / 2), fin 0, fin 0]
    [fin (x / 2 + y / 2), fin (x / 2 + y / 2), fin 0] (D_shared_prod x y z)
    (S_shared_prod_t _ _ _) (S_shared_prod _ _ _) rfl rfl rfl]
  simp [Dbl.one_def]
  ring

/-- The end-to-end example with a feature id below the number of items (the
records `"1,0:1"`, `"2,0:1"`, `"3"`, `d = 0.5`): after every `n ≥ 1`
iterations the first two scores are equal and above the third, which is
`d/N = 1/6`. -/
theorem S_shared_prop (n : Nat) :
    ∃ x : ℝ, 1 / 6 < x ∧
      prop Real.sqrt (S_shared : CSR ℝ) ((n : Int) + 1) (fin (1 / 2)) =
        some [fin x, fin x, fin (1 / 6)] := by
  unfold prop
  simp only [Option.bind_eq_bind, Option.pure_def]
  rw [S_shared_normalization]
  simp only [Option.some_bind]
  rw [S_shared_inv_diag]
  simp only [Option.some_bind]
  have hn : (S_shared : CSR ℝ).get_nfile = 3 := by simp [CSR.get_nfile, S_shared]
  rw [hn]
  have hcons : (fin (1 / 2) / fin (((3 : Int) : ℝ)) : Dbl ℝ) = fin (1 / 6) := by
    rw [Dbl.fin_div_fin_of_ne _ (by norm_num)]
    congr 1
    norm_num
  rw [hcons]
  have h3 : (3 : Int).toNat = 3 := rfl
  rw [h3]
  have hcast : ((n : Int) + 1) = ((n + 1 : Nat) : Int) := by push_cast; rfl
  rw [hcast]
  obtain ⟨u, e1, x, e2, e3⟩ := forLoop_invariant
    (fun k (p : List (Dbl ℝ)) => ∃ x : ℝ, p = [fin x, fin x, fin (1 / 6)] ∧
      (0 < x) ∧ (0 < k → 1 / 6 < x))
    (fun _ p_vec => prop_step (S_shared : CSR ℝ)
      { values := [fin (1 / 2), fin (1 / 2)], row_ptr := [0, 1, 2, 2], col_idx := [0, 1] }
      3 (fin (1 / 2)) (List.replicate 3 (fin (1 / 6))) p_vec) (n + 1)
    (by
      intro k _ p hp
      obtain ⟨x, rfl, hx, _⟩ := hp
      refine ⟨_, S_shared_prop_step x x (1 / 6) (1 / 6), 1 / 6 + (x + x) / 4, rfl, ?_, ?_⟩
      · positivity
      · intro _
        linarith)
    (List.replicate 3 (fin (1 / 6))) ⟨1 / 6, rfl, by norm_num, fun h => absurd h (lt_irrefl 0)⟩
  exact ⟨x, e3.2 (Nat.succ_pos n), by rw [e1, e2]⟩

theorem M_wide_represents :
    (M_wide : CSR ℝ).Represents (Matrix.of ![![0, 1]] : Matrix (Fin 1) (Fin 2) ℝ) := by
  refine ⟨⟨by decide, by decide, by decide, by decide, by decide⟩, by decide, by decide, ?_⟩
  intro i c
  fin_cases i
  fin_cases c <;>
    simp [CSR.entry, rowRange, M_wide, getI, rd, List.range_succ, List.filter_cons,
      Dbl.zero_def]

theorem S_two_five_wf : (S_two_five : CSR ℝ).WellFormed :=
  ⟨by decide, by decide, by decide, by decide, by decide⟩

theorem S_one_seven_wf : (S_one_seven : CSR ℝ).WellFormed :=
  ⟨by decide, by decide, by decide, by decide, by decide⟩

theorem S_example_wf (w : ℝ) : (S_example w).WellFormed :=
  ⟨rfl, by simp [S_example], rfl, rfl, by simp [S_example]⟩

theorem S_isolated_wf : (S_isolated : CSR ℝ).WellFormed :=
  ⟨by decide, by decide, by decide, by decide, by decide⟩

/-! ## The claims -/

/-- C1 (code bug): the recurrence of `LexRank::prop` is claimed for whatever
feature ids occur in the records.  For the records `"1,5:1"`, `"2,5:1"` (two
items, feature id 5) `CSR::inv_diag` writes `temp[5]` in a vector of length 2:
the matrix is well formed, the run goes out of range and no step `k + 1`
returns a score vector. -/
theorem C1_prop_feature_id_out_of_range (k : Nat) (d : ℝ) :
    (S_two_five : CSR ℝ).WellFormed ∧
      prop Real.sqrt (S_two_five : CSR ℝ) ((k : Int) + 1) (fin d) = none :=
  ⟨S_two_five_wf, rfl⟩

/-- C2 (code bug): for `n = 0` the claim promises the vector `d/N` for every
input matrix.  For the record `"1,7:1"` the matrix is well formed, and the
call of `CSR::inv_diag` that precedes the loop writes `temp[7]` in a vector of
length 1, so the run with `n = 0` goes out of range. -/
theorem C2_prop_zero_iterations_out_of_range (d : ℝ) :
    (S_one_seven : CSR ℝ).WellFormed ∧
      prop Real.sqrt (S_one_seven : CSR ℝ) 0 (fin d) = none :=
  ⟨S_one_seven_wf, rfl⟩

/-- C5 (code bug): the end-to-end example of the spec, the records `"1,7:w"`,
`"2,7:w"`, `"3"` with `d = 0.5`.  `CSR::inv_diag` writes `temp[7]` in a vector
of length 3: the run goes out of range for every `w` and `n`, and returns no
scores. -/
theorem C5_example_out_of_range (w : ℝ) (n : Int) :
    (S_example w).WellFormed ∧ prop Real.sqrt (S_example w) n (fin (1 / 2)) = none :=
  ⟨S_example_wf w, rfl⟩

/-- C6 (code bug): in the records `"1,7:1"`, `"2"` the second item is isolated
(its row is empty), yet the run returns no score for it: `CSR::inv_diag`
writes `temp[7]` in a vector of length 2. -/
theorem C6_isolated_out_of_range (n : Int) (d : Dbl ℝ) :
    (S_isolated : CSR ℝ).WellFormed ∧ rowRange (S_isolated : CSR ℝ).row_ptr 1 = [] ∧
      prop Real.sqrt (S_isolated : CSR ℝ) n d = none :=
  ⟨S_isolated_wf, rfl, rfl⟩

/-- C7: for a dense `nrows × ncols` matrix `A`, a CSR matrix `M` that
represents it and a vector `v` of length `ncols`, `M.prod(v)` is the vector of
length `nrows` whose entry `i` is the dense product `Σ_j A i j * v j`. -/
theorem C7_prod_dense (M : CSR ℝ) {nrows ncols : Nat}
    (A : Matrix (Fin nrows) (Fin ncols) ℝ) (h : M.Represents A) (v : Fin ncols → ℝ) :
    M.prod ((List.ofFn v).map fin) = some (List.ofFn (fun i => fin (A.mulVec v i))) :=
  CSR.prod_dense_aux M A h v

/-- C7 on the `2 × 2` matrix with rows `(1 2)` and `(0 3)` and `v = (1, 1)`. -/
theorem C7_prod_dense_witness :
    (M_square : CSR ℝ).Represents (Matrix.of ![![1, 2], ![0, 3]] : Matrix (Fin 2) (Fin 2) ℝ) ∧
      (M_square : CSR ℝ).prod ((List.ofFn (![1, 1] : Fin 2 → ℝ)).map fin) =
        some (List.ofFn (fun i =>
          fin ((Matrix.of ![![1, 2], ![0, 3]] : Matrix (Fin 2) (Fin 2) ℝ).mulVec ![1, 1] i))) :=
  ⟨M_square_represents, C7_prod_dense M_square _ M_square_represents ![1, 1]⟩

/-- C8 (code bug): `CSR::prod_t` sizes its result by the number of rows, not
of columns.  For the `2 × 1` matrix with both entries 1 and `v = (1, 1)` it
returns the vector `(2, 0)` of length 2, where `A^T v` is the vector `(2)` of
length 1; for the `1 × 2` matrix `(0 1)` it writes `temp[1]` in a vector of
length 1. -/
theorem C8_prod_t_sized_by_rows :
    (M_tall : CSR ℝ).Represents (Matrix.of ![![1], ![1]] : Matrix (Fin 2) (Fin 1) ℝ) ∧
      (M_tall : CSR ℝ).prod_t [fin 1, fin 1] = some [fin 2, fin 0] ∧
      (M_wide : CSR ℝ).Represents (Matrix.of ![![0, 1]] : Matrix (Fin 1) (Fin 2) ℝ) ∧
      (M_wide : CSR ℝ).prod_t [fin 1] = none := by
  refine ⟨M_tall_represents, ?_, M_wide_represents, rfl⟩
  simp [CSR.prod_t, M_tall, forEntries, forLoop, rd, wr, List.range_succ, Dbl.zero_def]
  norm_num

/-- C9: for a well-formed CSR matrix, `CSR::normalization` returns a matrix
with the same `row_ptr` and `col_idx` in which, for every row whose sum of
squares `s` is a non-zero number, each value of the row is the original value
divided by `sqrt s`, and the squares of the values of the row add up to 1. -/
theorem C9_normalization_unit_rows (M : CSR ℝ) (hwf : M.WellFormed) :
    ∃ M' : CSR ℝ, M.normalization Real.sqrt = some M' ∧
      M'.row_ptr = M.row_ptr ∧ M'.col_idx = M.col_idx ∧
      M'.values.length = M.values.length ∧
      ∀ (i : Nat) (s : ℝ), i + 1 < M.row_ptr.length → M.rowSumSq i = fin s → s ≠ 0 →
        (∀ j ∈ rowRange M.row_ptr i,
          getI M'.values 0 j = getI M.values 0 j / fin (Real.sqrt s)) ∧
        M'.rowSumSq i = fin 1 :=
  CSR.normalization_unit_rows_aux M hwf

/-- C9 on a row with the values 3 and 4, whose sum of squares is 25: the
normalized row has sum of squares 1. -/
theorem C9_normalization_unit_rows_witness :
    (M_three_four : CSR ℝ).WellFormed ∧
      ∃ M' : CSR ℝ, (M_three_four : CSR ℝ).normalization Real.sqrt = some M' ∧
        M'.rowSumSq 0 = fin 1 := by
  refine ⟨M_three_four_wf, ?_⟩
  obtain ⟨M', h1, _, _, _, h5⟩ := C9_normalization_unit_rows M_three_four M_three_four_wf
  exact ⟨M', h1, (h5 0 25 (by decide) M_three_four_sumSq (by norm_num)).2⟩

/-- C10 (code bug): for the well-formed `1 × 1` matrix with the value `2^-30`
the row sum of `S * S^T` is `2^-60`, which is not zero.  `CSR::inv_diag` marks
row 0 as holding one entry at column 0 (`row_ptr = [0, 1]`, `col_idx = [0]`)
and erases its value, since `2^-60 < DBL_EPSILON`: `values` is empty, and the
claimed entry `2^60` is not stored. -/
theorem C10_inv_diag_tiny_degree :
    (S_tiny : CSR ℝ).WellFormed ∧ (S_tiny : CSR ℝ).degree = [fin (1 / 2 ^ 60)] ∧
      (S_tiny : CSR ℝ).inv_diag = some { values := [], row_ptr := [0, 1], col_idx := [0] } := by
  refine ⟨⟨by decide, by decide, by decide, by decide, by decide⟩, ?_, ?_⟩
  · simp [CSR.degree, CSR.rowDot, CSR.colDot, entries, rowRange, S_tiny, getI, rd,
      List.range_succ, Dbl.zero_def, Dbl.one_def]
    norm_num
  · simp [CSR.inv_diag, S_tiny, forEntries, forLoop, rd, wr, List.range_succ, Dbl.zero_def,
      Dbl.one_def, ne_zero, CSR.eraseTiny_eq_filter, fabs_lt_eps, DBL_EPSILON]
    norm_num [abs_of_pos]

/-! ## Lemmas on `LexRank::csr_matrix`, the degrees and the scores -/

/-! ### `LexRank::csr_matrix` as a scan of the lines -/

section Scan
variable {α : Type} [LinearOrderedField α]
set_option linter.unusedSectionVars false

theorem csr_elements_eq (stoi : List Char → Parsed Int) (stod : List Char → Parsed (Weight α)) :
    ∀ (es : List (List Char)) (st : Builder α),
      csr_elements stoi stod es st = (scanElements stoi stod es).map (fun r =>
        { st with
          col_idx := st.col_idx ++ r.1.map (fun p => p.1)
          values := st.values ++ r.1.map (fun p => p.2.toDbl)
          e_count := st.e_count + r.2 }) := by
  intro es
  induction es with
  | nil => intro st; simp [csr_elements, scanElements]
  | cons e rest ih =>
    intro st
    unfold csr_elements scanElements elemAction
    split
    · rename_i r0 r1 tl heq
      cases h1 : stod r1 with
      | invalid_argument => simp
      | out_of_range =>
        simp only [ih]
        cases scanElements stoi stod rest with
        | none => rfl
        | some r => simp; omega
      | ok w =>
        by_cases hw : w.lt_zero = true
        · simp only [hw, if_true, ih]
        · simp only [hw, if_false]
          cases h0 : stoi r0 with
          | invalid_argument => simp
          | out_of_range =>
            simp only [ih]
            cases scanElements stoi stod rest with
            | none => rfl
            | some r => simp; omega
          | ok c =>
            simp only [ih]
            cases scanElements stoi stod rest with
            | none => rfl
            | some r => simp; omega
    · rfl

theorem csr_file_id_eq (stoi : List Char → Parsed Int) (text : List Char) (st : Builder α) :
    csr_file_id stoi text st =
      { st with file_ids := st.file_ids ++ (match stoi text with
          | Parsed.ok file_id => [file_id]
          | _ => []) } := by
  unfold csr_file_id
  cases stoi text <;> simp

theorem csr_line_eq (stoi : List Char → Parsed Int) (stod : List Char → Parsed (Weight α))
    (line : List Char) (st : Builder α) :
    csr_line stoi stod line st = (scanElements stoi stod (lineElements line)).map (fun r =>
      { values := st.values ++ r.1.map (fun p => p.2.toDbl)
        row_ptr := st.row_ptr ++ [st.e_count]
        col_idx := st.col_idx ++ r.1.map (fun p => p.1)
        e_count := st.e_count + r.2
        file_ids := st.file_ids ++ lineIds stoi line }) := by
  unfold csr_line lineElements lineIds lineIdText
  by_cases hc : ',' ∈ line
  · simp only [hc, if_true, csr_elements_eq, csr_file_id_eq]
  · simp only [hc, if_false, csr_file_id_eq, scanElements, Option.map_some']
    simp

theorem foldlM_csr_line (stoi : List Char → Parsed Int) (stod : List Char → Parsed (Weight α)) :
    ∀ (lines : List (List Char)) (st : Builder α),
      lines.foldlM (fun st line => csr_line stoi stod line st) st =
        (scanLines stoi stod lines).map (fun rs =>
          { values := st.values ++ rs.flatMap (fun r => r.1.map (fun p => p.2.toDbl))
            row_ptr := st.row_ptr ++ (List.range rs.length).map
              (fun (k : Nat) => st.e_count + (((rs.take k).map (fun r => r.2)).sum : Int))
            col_idx := st.col_idx ++ rs.flatMap (fun r => r.1.map (fun p => p.1))
            e_count := st.e_count + ((rs.map (fun r => r.2)).sum : Int)
            file_ids := st.file_ids ++ lines.flatMap (lineIds stoi) }) := by
  intro lines
  induction lines with
  | nil => intro st; simp [scanLines]
  | cons line rest ih =>
    intro st
    rw [List.foldlM_cons, csr_line_eq]
    unfold scanLines
    cases h : scanElements stoi stod (lineElements line) with
    | none => rfl
    | some r =>
      simp only [Option.map_some', Option.bind_eq_bind, Option.some_bind, ih]
      cases scanLines stoi stod rest with
      | none => rfl
      | some rs =>
        simp only [Option.map_some', List.flatMap_cons, List.append_assoc, List.length_cons,
          List.map_cons, List.sum_cons, List.range_succ_eq_map, List.map_cons, List.take_zero,
          List.map_nil, List.sum_nil, add_zero, List.map_map, List.cons_append,
          List.nil_append, Function.comp_def, List.take_succ_cons, add_assoc]

/-- `csr_matrix` returns the matrix of the scans of the lines and the
identifiers that parse; it reads out of range when a scan does. -/
theorem csr_matrix_eq (stoi : List Char → Parsed Int) (stod : List Char → Parsed (Weight α))
    (lines : List (List Char)) :
    csr_matrix stoi stod lines =
      (scanLines stoi stod lines).map (fun rs => (matrixOf rs, lines.flatMap (lineIds stoi))) := by
  unfold csr_matrix
  rw [foldlM_csr_line]
  cases scanLines stoi stod lines with
  | none => rfl
  | some rs =>
    simp only [Option.map_some', Option.bind_eq_bind, Option.some_bind, Option.pure_def,
      List.nil_append, zero_add, matrixOf, List.range_succ, List.map_append, List.map_cons,
      List.map_nil, List.take_length]

end Scan

section Parse
variable {α : Type} [LinearOrderedField α]
set_option linter.unusedSectionVars false

theorem parsedPair_eq_some {stoi : List Char → Parsed Int} {stod : List Char → Parsed (Weight α)}
    {e : List Char} {p : Int × Weight α} (h : parsedPair stoi stod e = some p) :
    ∃ r0 r1 tl, split e ':' = r0 :: r1 :: tl ∧ stoi r0 = Parsed.ok p.1 ∧
      stod r1 = Parsed.ok p.2 := by
  unfold parsedPair at h
  split at h
  · rename_i r0 r1 tl heq
    refine ⟨r0, r1, tl, heq, ?_⟩
    cases h0 : stoi r0 with
    | ok c =>
      cases h1 : stod r1 with
      | ok w =>
        simp only [h0, h1, Option.some.injEq] at h
        subst h
        exact ⟨rfl, rfl⟩
      | invalid_argument => simp [h0, h1] at h
      | out_of_range => simp [h0, h1] at h
    | invalid_argument => cases h1 : stod r1 <;> simp [h0, h1] at h
    | out_of_range => cases h1 : stod r1 <;> simp [h0, h1] at h
  · simp at h

theorem elemAction_of_parsedPair {stoi : List Char → Parsed Int} {stod : List Char → Parsed (Weight α)}
    {e : List Char} {p : Int × Weight α} (h : parsedPair stoi stod e = some p) :
    elemAction stoi stod e =
      if p.2.lt_zero = true then ElemAction.skip else ElemAction.store p.1 p.2 := by
  obtain ⟨r0, r1, tl, heq, h0, h1⟩ := parsedPair_eq_some h
  unfold elemAction
  simp only [heq, h0, h1]

theorem scanElements_of_parse (stoi : List Char → Parsed Int)
    (stod : List Char → Parsed (Weight α)) :
    ∀ es : List (List Char), (∀ e ∈ es, (parsedPair stoi stod e).isSome = true) →
      scanElements stoi stod es =
        some (((es.filterMap (parsedPair stoi stod)).filter (fun p => !p.2.lt_zero)),
          ((((es.filterMap (parsedPair stoi stod)).filter
            (fun p => !p.2.lt_zero)).length : Nat) : Int)) := by
  intro es
  induction es with
  | nil => intro _; rfl
  | cons e rest ih =>
    intro h
    have he := h e (List.mem_cons_self _ _)
    have ih' := ih (fun x hx => h x (List.mem_cons_of_mem _ hx))
    obtain ⟨p, hp⟩ := Option.isSome_iff_exists.1 he
    unfold scanElements
    rw [elemAction_of_parsedPair hp, List.filterMap_cons, hp]
    by_cases hw : p.2.lt_zero = true
    · simp only [hw, if_true, ih', List.filter_cons, Bool.not_true, Bool.false_eq_true,
        if_false]
    · have hw' : p.2.lt_zero = false := by simpa using hw
      simp only [hw', Bool.false_eq_true, if_false, ih', List.filter_cons, Bool.not_false,
        if_true, Option.map_some', List.length_cons, Nat.cast_add, Nat.cast_one]

/-- Every weight that the loop stores passed the test of line 334. -/
theorem scanElements_not_lt_zero (stoi : List Char → Parsed Int)
    (stod : List Char → Parsed (Weight α)) :
    ∀ (es : List (List Char)) (r : List (Int × Weight α) × Int),
      scanElements stoi stod es = some r → ∀ p ∈ r.1, p.2.lt_zero = false := by
  intro es
  induction es with
  | nil =>
    intro r h p hp
    simp only [scanElements, Option.some.injEq] at h
    subst h
    simp at hp
  | cons e rest ih =>
    intro r h p hp
    unfold scanElements at h
    cases ha : elemAction stoi stod e with
    | undefined => simp [ha] at h
    | stop =>
      simp only [ha, Option.some.injEq] at h
      subst h
      simp at hp
    | skip =>
      simp only [ha] at h
      exact ih r h p hp
    | count =>
      simp only [ha, Option.map_eq_some'] at h
      obtain ⟨r', hr', rfl⟩ := h
      exact ih r' hr' p hp
    | store c w =>
      simp only [ha, Option.map_eq_some'] at h
      obtain ⟨r', hr', rfl⟩ := h
      rcases List.mem_cons.1 hp with rfl | hp
      · unfold elemAction at ha
        split at ha
        · rename_i r0 r1 tl heq
          cases h1 : stod r1 with
          | ok w' =>
            simp only [h1] at ha
            by_cases hw : w'.lt_zero = true
            · simp [hw] at ha
            · have hw' : w'.lt_zero = false := by simpa using hw
              simp only [hw', Bool.false_eq_true, if_false] at ha
              cases h0 : stoi r0 with
              | ok c' =>
                simp only [h0, ElemAction.store.injEq] at ha
                simp only
                rw [← ha.2]
                exact hw'
              | invalid_argument => simp [h0] at ha
              | out_of_range => simp [h0] at ha
          | invalid_argument => simp [h1] at ha
          | out_of_range => simp [h1] at ha
        · simp at ha
      · exact ih r' hr' p hp

/-- A weight that passed the test of line 334 is stored as a number `≥ 0` or
as the non-finite value. -/
theorem Weight.toDbl_of_not_lt_zero (w : Weight α) (h : w.lt_zero = false) :
    w.toDbl = Dbl.nan ∨ ∃ x : α, w.toDbl = fin x ∧ 0 ≤ x := by
  cases w with
  | num x =>
    right
    refine ⟨x, rfl, ?_⟩
    simpa [Weight.lt_zero] using h
  | inf negative => left; rfl
  | nan => left; rfl

/-- When every element has a `":"` and no number is out of range, the loop
over the elements stays within the bounds and every `e_count++` comes with a
stored pair. -/
theorem scanElements_of_noOutOfRange (stoi : List Char → Parsed Int)
    (stod : List Char → Parsed (Weight α)) :
    ∀ es : List (List Char),
      (∀ e ∈ es, ∃ r0 r1 tl, split e ':' = r0 :: r1 :: tl ∧
        stoi r0 ≠ Parsed.out_of_range ∧ stod r1 ≠ Parsed.out_of_range) →
      ∃ r, scanElements stoi stod es = some r ∧ r.2 = (r.1.length : Int) := by
  intro es
  induction es with
  | nil => intro _; exact ⟨_, rfl, rfl⟩
  | cons e rest ih =>
    intro h
    obtain ⟨r, hr, hlen⟩ := ih (fun x hx => h x (List.mem_cons_of_mem _ hx))
    obtain ⟨r0, r1, tl, heq, h0, h1⟩ := h e (List.mem_cons_self _ _)
    unfold scanElements elemAction
    simp only [heq]
    cases hd : stod r1 with
    | invalid_argument => exact ⟨_, rfl, rfl⟩
    | out_of_range => exact absurd hd h1
    | ok w =>
      by_cases hw : w.lt_zero = true
      · simp only [hw, if_true]
        exact ⟨r, hr, hlen⟩
      · have hw' : w.lt_zero = false := by simpa using hw
        simp only [hw', Bool.false_eq_true, if_false]
        cases hi : stoi r0 with
        | invalid_argument => exact ⟨_, rfl, rfl⟩
        | out_of_range => exact absurd hi h0
        | ok c =>
          refine ⟨((c, w) :: r.1, r.2 + 1), by simp only [hr, Option.map_some'], ?_⟩
          simp only [List.length_cons]
          push_cast
          omega

end Parse

section MatrixOf
variable {α : Type} [LinearOrderedField α]
set_option linter.unusedSectionVars false

theorem sum_counts {β γ : Type} (g : List β × Int → List γ) :
    ∀ l : List (List β × Int), (∀ r ∈ l, r.2 = ((g r).length : Int)) →
      ((l.map (fun r => r.2)).sum : Int) = ((l.flatMap g).length : Int) := by
  intro l
  induction l with
  | nil => intro _; rfl
  | cons a l ih =>
    intro h
    rw [List.map_cons, List.sum_cons, List.flatMap_cons, List.length_append,
      ih (fun r hr => h r (List.mem_cons_of_mem _ hr)), h a (List.mem_cons_self _ _)]
    push_cast
    rfl

theorem flatMap_getElem?_block {β γ : Type} (g : β → List γ) (A : List β) (i : Nat)
    (hi : i < A.length) (k : Nat) (hk : k < (g A[i]).length) :
    (A.flatMap g)[((A.take i).flatMap g).length + k]? = some (g A[i])[k] := by
  have hsplit : A.flatMap g =
      (A.take i).flatMap g ++ (g A[i] ++ (A.drop (i + 1)).flatMap g) := by
    conv_lhs => rw [← List.take_append_drop i A, List.drop_eq_getElem_cons hi]
    rw [List.flatMap_append, List.flatMap_cons]
  rw [hsplit, List.getElem?_append_right (Nat.le_add_right _ _), Nat.add_sub_cancel_left,
    List.getElem?_append_left hk, List.getElem?_eq_getElem hk]

theorem matrixOf_row_ptr_getD (rs : List (List (Int × Weight α) × Int))
    (hcount : ∀ r ∈ rs, r.2 = (r.1.length : Int)) (k : Nat) (hk : k ≤ rs.length) :
    (matrixOf rs).row_ptr.getD k 0 =
      ((((rs.take k).flatMap (fun r => r.1.map (fun p => p.2.toDbl))).length : Nat) : Int) := by
  have hlt : k < (matrixOf rs).row_ptr.length := by simp [matrixOf]; omega
  rw [List.getD_eq_getElem _ _ hlt]
  simp only [matrixOf, List.getElem_map, List.getElem_range]
  rw [sum_counts (fun r => r.1.map (fun p => (p.2.toDbl : Dbl α)))]
  intro r hr
  rw [List.length_map]
  exact hcount r (List.mem_of_mem_take hr)

theorem matrixOf_rowPairs (rs : List (List (Int × Weight α) × Int))
    (hcount : ∀ r ∈ rs, r.2 = (r.1.length : Int)) (k : Nat) (hk : k < rs.length) :
    (matrixOf rs).rowPairs k = rs[k].1.map (fun p => (p.1, p.2.toDbl)) := by
  unfold CSR.rowPairs rowRange
  have h0 := matrixOf_row_ptr_getD rs hcount k (le_of_lt hk)
  have h1 := matrixOf_row_ptr_getD rs hcount (k + 1) hk
  rw [take_succ_flatMap _ rs k hk, List.length_append, List.length_map] at h1
  rw [h0, h1, List.map_map]
  set off := ((rs.take k).flatMap (fun r => r.1.map (fun p => (p.2.toDbl : Dbl α)))).length
    with hoff
  have hlen : (((off + rs[k].1.length : Nat) : Int) - (off : Int)).toNat = rs[k].1.length := by
    omega
  rw [hlen]
  apply List.ext_getElem
  · simp
  · intro m hm1 hm2
    simp only [List.getElem_map, List.getElem_range, Function.comp_apply]
    have hm : m < rs[k].1.length := by simpa using hm2
    have hidx : ((off : Int) + (m : Int)) = ((off + m : Nat) : Int) := by push_cast; rfl
    have hoff2 : ((rs.take k).flatMap (fun r => r.1.map (fun p => p.1))).length = off := by
      rw [hoff]
      simp only [List.length_flatMap, List.length_map, Function.comp_def]
    have hv := flatMap_getElem?_block (fun r : List (Int × Weight α) × Int =>
      r.1.map (fun p => (p.2.toDbl : Dbl α))) rs k hk m (by simpa using hm)
    have hc := flatMap_getElem?_block (fun r : List (Int × Weight α) × Int =>
      r.1.map (fun p => p.1)) rs k hk m (by simpa using hm)
    rw [hoff2] at hc
    rw [hidx, getI_natCast, getI_natCast]
    simp only [matrixOf, hv, hc, Option.getD_some, List.getElem_map]

theorem matrixOf_values (rs : List (List (Int × Weight α) × Int))
    (h : ∀ r ∈ rs, ∀ p ∈ r.1, p.2.lt_zero = false) :
    ∀ v ∈ (matrixOf rs).values, ∃ w : Weight α, v = w.toDbl ∧ w.lt_zero = false := by
  intro v hv
  simp only [matrixOf, List.mem_flatMap, List.mem_map] at hv
  obtain ⟨r, hr, p, hp, rfl⟩ := hv
  exact ⟨p.2, rfl, h r hr p hp⟩

theorem scanLines_mem (stoi : List Char → Parsed Int) (stod : List Char → Parsed (Weight α)) :
    ∀ (lines : List (List Char)) (rs : List (List (Int × Weight α) × Int)),
      scanLines stoi stod lines = some rs →
      rs.length = lines.length ∧
      ∀ (k : Nat) (h1 : k < lines.length) (h2 : k < rs.length),
        scanElements stoi stod (lineElements lines[k]) = some rs[k] := by
  intro lines
  induction lines with
  | nil =>
    intro rs h
    simp only [scanLines, Option.some.injEq] at h
    subst h
    exact ⟨rfl, fun k h1 => absurd h1 (Nat.not_lt_zero k)⟩
  | cons line rest ih =>
    intro rs h
    unfold scanLines at h
    cases hl : scanElements stoi stod (lineElements line) with
    | none => simp [hl] at h
    | some r =>
      simp only [hl, Option.map_eq_some'] at h
      obtain ⟨rs', hrs', rfl⟩ := h
      obtain ⟨e1, e2⟩ := ih rs' hrs'
      refine ⟨by simp [e1], ?_⟩
      intro k h1 h2
      cases k with
      | zero => simpa using hl
      | succ k =>
        simp only [List.getElem_cons_succ]
        exact e2 k (by simpa using h1) (by simpa using h2)

end MatrixOf

section CsrFacts
variable {α : Type} [LinearOrderedField α]
set_option linter.unusedSectionVars false

theorem scanLines_of_noOutOfRange (stoi : List Char → Parsed Int)
    (stod : List Char → Parsed (Weight α)) :
    ∀ lines : List (List Char), (∀ line ∈ lines, NoOutOfRange stoi stod line) →
      ∃ rs, scanLines stoi stod lines = some rs ∧ ∀ r ∈ rs, r.2 = (r.1.length : Int) := by
  intro lines
  induction lines with
  | nil => intro _; exact ⟨[], rfl, by simp⟩
  | cons line rest ih =>
    intro h
    obtain ⟨rs, hrs, hlen⟩ := ih (fun l hl => h l (List.mem_cons_of_mem _ hl))
    obtain ⟨r, hr, hr2⟩ := scanElements_of_noOutOfRange stoi stod (lineElements line)
      (h line (List.mem_cons_self _ _))
    refine ⟨r :: rs, ?_, ?_⟩
    · unfold scanLines
      rw [hr, hrs]
      rfl
    · intro x hx
      rcases List.mem_cons.1 hx with rfl | hx
      · exact hr2
      · exact hlen x hx

/-- The run of `csr_matrix` on a file in which every element has a `":"` and
no number is out of range: it returns a matrix; the row of a record whose
pairs all parse holds, in order, the pairs of the record whose weight is not
strictly less than zero; every stored value is a weight that passed the test
of line 334: a number `≥ 0` or the non-finite value. -/
theorem csr_matrix_of_noOutOfRange (stoi : List Char → Parsed Int)
    (stod : List Char → Parsed (Weight α)) (lines : List (List Char))
    (h : ∀ line ∈ lines, NoOutOfRange stoi stod line) :
    ∃ (S : CSR α) (ids : List Int), csr_matrix stoi stod lines = some (S, ids) ∧
      (∀ (k : Nat) (hk : k < lines.length), PairsParse stoi stod lines[k] →
        S.rowPairs k = keptPairs stoi stod lines[k]) ∧
      (∀ v ∈ S.values, ∃ w : Weight α, v = w.toDbl ∧ w.lt_zero = false) ∧
      (∀ v ∈ S.values, v = Dbl.nan ∨ ∃ x : α, v = fin x ∧ 0 ≤ x) := by
  obtain ⟨rs, hrs, hlen⟩ := scanLines_of_noOutOfRange stoi stod lines h
  obtain ⟨e1, e2⟩ := scanLines_mem stoi stod lines rs hrs
  have hvals : ∀ v ∈ (matrixOf rs).values, ∃ w : Weight α, v = w.toDbl ∧ w.lt_zero = false := by
    apply matrixOf_values
    intro r hr
    obtain ⟨k, hk, rfl⟩ := List.getElem_of_mem hr
    exact scanElements_not_lt_zero stoi stod _ _ (e2 k (by omega) hk)
  refine ⟨matrixOf rs, lines.flatMap (lineIds stoi), ?_, ?_, hvals, ?_⟩
  · rw [csr_matrix_eq, hrs]
    rfl
  · intro k hk hparse
    have hk' : k < rs.length := by omega
    rw [matrixOf_rowPairs rs hlen k hk']
    have := e2 k hk hk'
    rw [scanElements_of_parse stoi stod _ hparse] at this
    rw [← Option.some.inj this]
    rfl
  · intro v hv
    obtain ⟨w, rfl, hw⟩ := hvals v hv
    exact Weight.toDbl_of_not_lt_zero w hw

/-- The number of rows of the matrix of `csr_matrix` is the number of lines,
and `file_ids` holds one identifier for each line whose identifier parses. -/
theorem csr_matrix_counts (stoi : List Char → Parsed Int) (stod : List Char → Parsed (Weight α))
    (lines : List (List Char)) (S : CSR α) (ids : List Int)
    (h : csr_matrix stoi stod lines = some (S, ids)) :
    S.get_nfile = (lines.length : Int) ∧ ids = lines.flatMap (lineIds stoi) := by
  rw [csr_matrix_eq] at h
  cases hs : scanLines stoi stod lines with
  | none => simp [hs] at h
  | some rs =>
    simp only [hs, Option.map_some', Option.some.injEq, Prod.mk.injEq] at h
    obtain ⟨rfl, rfl⟩ := h
    refine ⟨?_, rfl⟩
    have := (scanLines_mem stoi stod lines rs hs).1
    simp [CSR.get_nfile, matrixOf, this]

end CsrFacts

section CsrMore
variable {α : Type} [LinearOrderedField α]
set_option linter.unusedSectionVars false

/-- After the `break` of the `invalid_argument` handler the rest of the line
is not read. -/
theorem scanElements_stop (stoi : List Char → Parsed Int) (stod : List Char → Parsed (Weight α))
    (e : List Char) (post : List (List Char)) (he : elemAction stoi stod e = ElemAction.stop) :
    ∀ pre : List (List Char),
      scanElements stoi stod (pre ++ e :: post) = scanElements stoi stod (pre ++ [e]) := by
  intro pre
  induction pre with
  | nil => simp [scanElements, he]
  | cons a pre ih =>
    rw [List.cons_append, List.cons_append, scanElements, scanElements, ih]

/-- Without the `out_of_range` exception every `e_count++` comes with a
stored pair. -/
theorem scanElements_count (stoi : List Char → Parsed Int) (stod : List Char → Parsed (Weight α))
    (hi : ∀ t, stoi t ≠ Parsed.out_of_range) (hd : ∀ t, stod t ≠ Parsed.out_of_range) :
    ∀ (es : List (List Char)) (r : List (Int × Weight α) × Int),
      scanElements stoi stod es = some r → r.2 = (r.1.length : Int) := by
  intro es
  induction es with
  | nil =>
    intro r h
    simp only [scanElements, Option.some.injEq] at h
    subst h
    rfl
  | cons e es ih =>
    intro r h
    unfold scanElements at h
    cases ha : elemAction stoi stod e with
    | undefined => simp [ha] at h
    | stop =>
      simp only [ha, Option.some.injEq] at h
      subst h
      rfl
    | skip =>
      simp only [ha] at h
      exact ih r h
    | count =>
      exfalso
      unfold elemAction at ha
      split at ha
      · rename_i r0 r1 tl heq
        cases h1 : stod r1 with
        | invalid_argument => simp [h1] at ha
        | out_of_range => exact hd r1 h1
        | ok w =>
          simp only [h1] at ha
          split at ha
          · exact ElemAction.noConfusion ha
          · cases h0 : stoi r0 with
            | invalid_argument => simp [h0] at ha
            | out_of_range => exact hi r0 h0
            | ok c => simp [h0] at ha
      · exact ElemAction.noConfusion ha
    | store c w =>
      simp only [ha, Option.map_eq_some'] at h
      obtain ⟨r', hr', rfl⟩ := h
      have := ih r' hr'
      simp only [List.length_cons]
      push_cast
      omega

theorem matrixOf_wf (rs : List (List (Int × Weight α) × Int))
    (hcount : ∀ r ∈ rs, r.2 = (r.1.length : Int)) :
    (matrixOf rs).row_ptr.head? = some 0 ∧
    (matrixOf rs).row_ptr.Pairwise (· ≤ ·) ∧
    (matrixOf rs).row_ptr.getLast? = some ((matrixOf rs).values.length : Int) ∧
    (matrixOf rs).col_idx.length = (matrixOf rs).values.length := by
  have hsum : ∀ k : Nat, (((rs.take k).map (fun r => r.2)).sum : Int) =
      ((((rs.take k).flatMap (fun r => r.1.map (fun p => (p.2.toDbl : Dbl α)))).length : Nat) :
        Int) := by
    intro k
    rw [sum_counts (fun r => r.1.map (fun p => (p.2.toDbl : Dbl α)))]
    intro r hr
    rw [List.length_map]
    exact hcount r (List.mem_of_mem_take hr)
  refine ⟨?_, ?_, ?_, ?_⟩
  · simp [matrixOf, List.range_succ_eq_map]
  · simp only [matrixOf]
    rw [List.pairwise_map]
    refine (List.pairwise_lt_range _).imp (fun {a b} hab => ?_)
    rw [hsum a, hsum b]
    exact_mod_cast flatMap_take_length_mono _ rs (le_of_lt hab)
  · simp only [matrixOf, List.range_succ, List.map_append, List.map_cons, List.map_nil,
      List.getLast?_append, List.getLast?_singleton]
    rw [hsum rs.length, List.take_length]
    rfl
  · simp [matrixOf, Function.comp_def]

/-- When neither `std::stoi` nor `std::stod` throws `out_of_range`, the
matrix of `csr_matrix` satisfies the invariant of the offsets. -/
theorem csr_matrix_invariant (stoi : List Char → Parsed Int) (stod : List Char → Parsed (Weight α))
    (hi : ∀ t, stoi t ≠ Parsed.out_of_range) (hd : ∀ t, stod t ≠ Parsed.out_of_range)
    (lines : List (List Char)) (S : CSR α) (ids : List Int)
    (h : csr_matrix stoi stod lines = some (S, ids)) :
    S.row_ptr.head? = some 0 ∧ S.row_ptr.Pairwise (· ≤ ·) ∧
    S.row_ptr.getLast? = some (S.values.length : Int) ∧
    S.col_idx.length = S.values.length := by
  rw [csr_matrix_eq] at h
  cases hs : scanLines stoi stod lines with
  | none => simp [hs] at h
  | some rs =>
    simp only [hs, Option.map_some', Option.some.injEq, Prod.mk.injEq] at h
    obtain ⟨rfl, rfl⟩ := h
    apply matrixOf_wf
    intro r hr
    obtain ⟨k, hk, rfl⟩ := List.getElem_of_mem hr
    obtain ⟨e1, e2⟩ := scanLines_mem stoi stod lines rs hs
    exact scanElements_count stoi stod hi hd _ _ (e2 k (by omega) hk)

end CsrMore

section PerRecord
variable {α : Type} [LinearOrderedField α]
set_option linter.unusedSectionVars false

/-- On every input on which the run of `csr_matrix` returns, every stored
value is a weight that passed the test of line 334: a number `≥ 0` or the
non-finite value. -/
theorem csr_matrix_values (stoi : List Char → Parsed Int)
    (stod : List Char → Parsed (Weight α))
    (lines : List (List Char)) (S : CSR α) (ids : List Int)
    (h : csr_matrix stoi stod lines = some (S, ids)) :
    ∀ v ∈ S.values, v = Dbl.nan ∨ ∃ x : α, v = fin x ∧ 0 ≤ x := by
  rw [csr_matrix_eq] at h
  cases hs : scanLines stoi stod lines with
  | none => simp [hs] at h
  | some rs =>
    simp only [hs, Option.map_some', Option.some.injEq, Prod.mk.injEq] at h
    obtain ⟨rfl, rfl⟩ := h
    intro v hv
    obtain ⟨e1, e2⟩ := scanLines_mem stoi stod lines rs hs
    obtain ⟨w, rfl, hw⟩ := matrixOf_values rs (by
      intro r hr
      obtain ⟨k, hk, rfl⟩ := List.getElem_of_mem hr
      exact scanElements_not_lt_zero stoi stod _ _ (e2 k (by omega) hk)) v hv
    exact Weight.toDbl_of_not_lt_zero w hw

end PerRecord

/-! ### `LexRank::csr_matrix` on the example records -/

section Actions
variable {α : Type} [LinearOrderedField α]
set_option linter.unusedSectionVars false

theorem elemAction_store {stoi : List Char → Parsed Int} {stod : List Char → Parsed (Weight α)}
    (e r0 r1 : List Char) (tl : List (List Char)) (c : Int) (w : Weight α)
    (hs : split e ':' = r0 :: r1 :: tl) (hd : stod r1 = Parsed.ok w) (hw : w.lt_zero = false)
    (hi : stoi r0 = Parsed.ok c) : elemAction stoi stod e = ElemAction.store c w := by
  unfold elemAction
  simp only [hs, hd, hi, hw, Bool.false_eq_true, if_false]

theorem elemAction_skip {stoi : List Char → Parsed Int} {stod : List Char → Parsed (Weight α)}
    (e r0 r1 : List Char) (tl : List (List Char)) (w : Weight α)
    (hs : split e ':' = r0 :: r1 :: tl) (hd : stod r1 = Parsed.ok w) (hw : w.lt_zero = true) :
    elemAction stoi stod e = ElemAction.skip := by
  unfold elemAction
  simp only [hs, hd, hw, if_true]

theorem elemAction_count {stoi : List Char → Parsed Int} {stod : List Char → Parsed (Weight α)}
    (e r0 r1 : List Char) (tl : List (List Char)) (w : Weight α)
    (hs : split e ':' = r0 :: r1 :: tl) (hd : stod r1 = Parsed.ok w) (hw : w.lt_zero = false)
    (hi : stoi r0 = Parsed.out_of_range) : elemAction stoi stod e = ElemAction.count := by
  unfold elemAction
  simp only [hs, hd, hi, hw, Bool.false_eq_true, if_false]

theorem csr_matrix_of_scan {stoi : List Char → Parsed Int}
    {stod : List Char → Parsed (Weight α)}
    {lines : List (List Char)} {rs : List (List (Int × Weight α) × Int)} (ids : List Int)
    (h : scanLines stoi stod lines = some rs) (hid : lines.flatMap (lineIds stoi) = ids) :
    csr_matrix stoi stod lines = some (matrixOf rs, ids) := by
  rw [csr_matrix_eq, h, hid]
  rfl

theorem scanLines_cons {stoi : List Char → Parsed Int} {stod : List Char → Parsed (Weight α)}
    {line : List Char} {rest : List (List Char)} (es : List (List Char))
    {r : List (Int × Weight α) × Int} {rs : List (List (Int × Weight α) × Int)}
    (he : lineElements line = es)
    (hr : scanElements stoi stod es = some r) (hrest : scanLines stoi stod rest = some rs) :
    scanLines stoi stod (line :: rest) = some (r :: rs) := by
  rw [scanLines, he, hr, hrest]
  rfl

theorem scanElements_store {stoi : List Char → Parsed Int}
    {stod : List Char → Parsed (Weight α)}
    {e : List Char} (rest : List (List Char)) {c : Int} {w : Weight α}
    (r : List (Int × Weight α) × Int)
    (ha : elemAction stoi stod e = ElemAction.store c w)
    (hr : scanElements stoi stod rest = some r) :
    scanElements stoi stod (e :: rest) = some ((c, w) :: r.1, r.2 + 1) := by
  rw [scanElements, ha, hr]
  rfl

theorem scanElements_skip {stoi : List Char → Parsed Int}
    {stod : List Char → Parsed (Weight α)}
    {e : List Char} (rest : List (List Char)) (r : List (Int × Weight α) × Int)
    (ha : elemAction stoi stod e = ElemAction.skip)
    (hr : scanElements stoi stod rest = some r) :
    scanElements stoi stod (e :: rest) = some r := by
  rw [scanElements, ha, hr]

theorem scanElements_count_cons {stoi : List Char → Parsed Int}
    {stod : List Char → Parsed (Weight α)}
    {e : List Char} (rest : List (List Char)) (r : List (Int × Weight α) × Int)
    (ha : elemAction stoi stod e = ElemAction.count)
    (hr : scanElements stoi stod rest = some r) :
    scanElements stoi stod (e :: rest) = some (r.1, r.2 + 1) := by
  rw [scanElements, ha, hr]
  rfl

end Actions

/-! ### The decimal reader on the tokens of the examples -/

theorem stod10_half : (stod10 "0.5".toList : Parsed (Weight ℝ)) =
    Parsed.ok (Weight.num (5 / 10)) := by
  have h : (stod10 "0.5".toList : Parsed (Weight ℝ)) =
    Parsed.ok (Weight.num (((5 : ℕ) : ℝ) / 10 ^ 1)) := rfl
  rw [h]
  norm_num

theorem stod10_one : (stod10 "1".toList : Parsed (Weight ℝ)) = Parsed.ok (Weight.num 1) := by
  have h : (stod10 "1".toList : Parsed (Weight ℝ)) =
    Parsed.ok (Weight.num (((1 : ℕ) : ℝ) / 10 ^ 0)) := rfl
  rw [h]
  norm_num

theorem stod10_three : (stod10 "3".toList : Parsed (Weight ℝ)) = Parsed.ok (Weight.num 3) := by
  have h : (stod10 "3".toList : Parsed (Weight ℝ)) =
    Parsed.ok (Weight.num (((3 : ℕ) : ℝ) / 10 ^ 0)) := rfl
  rw [h]
  norm_num

theorem stod10_08 : (stod10 "0.8".toList : Parsed (Weight ℝ)) =
    Parsed.ok (Weight.num (8 / 10)) := by
  have h : (stod10 "0.8".toList : Parsed (Weight ℝ)) =
    Parsed.ok (Weight.num (((8 : ℕ) : ℝ) / 10 ^ 1)) := rfl
  rw [h]
  norm_num

theorem stod10_02 : (stod10 "0.2".toList : Parsed (Weight ℝ)) =
    Parsed.ok (Weight.num (2 / 10)) := by
  have h : (stod10 "0.2".toList : Parsed (Weight ℝ)) =
    Parsed.ok (Weight.num (((2 : ℕ) : ℝ) / 10 ^ 1)) := rfl
  rw [h]
  norm_num

theorem stod10_minus_03 : (stod10 "-0.3".toList : Parsed (Weight ℝ)) =
    Parsed.ok (Weight.num (-(3 / 10))) := by
  have h : (stod10 "-0.3".toList : Parsed (Weight ℝ)) =
    Parsed.ok (Weight.num (-(((3 : ℕ) : ℝ) / 10 ^ 1))) := rfl
  rw [h]
  norm_num

theorem stod10_nan : (stod10 "nan".toList : Parsed (Weight ℝ)) = Parsed.ok Weight.nan := rfl

theorem stod10_ne_out_of_range {α : Type} [LinearOrderedField α] (t : List Char) :
    (stod10 t : Parsed (Weight α)) ≠ Parsed.out_of_range := by
  unfold stod10
  simp only
  split
  · simp
  · split
    · simp
    · split <;> simp

theorem lt_zero_num_of_nonneg {x : ℝ} (h : 0 ≤ x) : (Weight.num x).lt_zero = false := by
  simp [Weight.lt_zero, h]

/-- The lines `"abc,1:0.5"` and `"7,0:1"`: two rows, one identifier. -/
theorem malformed_id_example :
    csr_matrix stoi10 (stod10 : List Char → Parsed (Weight ℝ))
      ["abc,1:0.5".toList, "7,0:1".toList] =
      some ({ values := [fin (5 / 10), fin 1], row_ptr := [0, 1, 2], col_idx := [1, 0] },
        [7]) := by
  have a1 : elemAction stoi10 (stod10 : List Char → Parsed (Weight ℝ)) "1:0.5".toList =
      ElemAction.store 1 (Weight.num (5 / 10)) :=
    elemAction_store "1:0.5".toList "1".toList "0.5".toList [] 1 (Weight.num (5 / 10))
      (by decide) stod10_half (lt_zero_num_of_nonneg (by norm_num)) (by decide)
  have a2 : elemAction stoi10 (stod10 : List Char → Parsed (Weight ℝ)) "0:1".toList =
      ElemAction.store 0 (Weight.num 1) :=
    elemAction_store "0:1".toList "0".toList "1".toList [] 0 (Weight.num 1) (by decide)
      stod10_one (lt_zero_num_of_nonneg (by norm_num)) (by decide)
  have s2 : scanLines stoi10 (stod10 : List Char → Parsed (Weight ℝ)) ["7,0:1".toList] =
      some [([(0, Weight.num 1)], 0 + 1)] :=
    scanLines_cons ["0:1".toList] (by decide) (scanElements_store [] ([], 0) a2 rfl) rfl
  have s1 : scanLines stoi10 (stod10 : List Char → Parsed (Weight ℝ))
      ["abc,1:0.5".toList, "7,0:1".toList] =
      some [([(1, Weight.num (5 / 10))], 0 + 1), ([(0, Weight.num 1)], 0 + 1)] :=
    scanLines_cons ["1:0.5".toList] (by decide) (scanElements_store [] ([], 0) a1 rfl) s2
  rw [csr_matrix_of_scan [7] s1 (by decide)]
  rfl

/-- The line `"1,99999999999:1"`: the feature id is out of the range of `int`. -/
theorem out_of_range_example :
    csr_matrix stoi10 (stod10 : List Char → Parsed (Weight ℝ)) ["1,99999999999:1".toList] =
      some ({ values := [], row_ptr := [0, 1], col_idx := [] }, [1]) := by
  have a1 : elemAction stoi10 (stod10 : List Char → Parsed (Weight ℝ))
      "99999999999:1".toList = ElemAction.count :=
    elemAction_count "99999999999:1".toList
      "99999999999".toList "1".toList [] (Weight.num 1) (by decide) stod10_one
      (lt_zero_num_of_nonneg (by norm_num)) (by decide)
  have s1 : scanLines stoi10 (stod10 : List Char → Parsed (Weight ℝ))
      ["1,99999999999:1".toList] = some [([], 0 + 1)] :=
    scanLines_cons ["99999999999:1".toList] (by decide)
      (scanElements_count_cons [] ([], 0) a1 rfl) rfl
  rw [csr_matrix_of_scan [1] s1 (by decide)]
  rfl

/-- The line `"1,99999999999:1,2:3"`: a pair after the one out of range. -/
theorem out_of_range_then_pair_example :
    csr_matrix stoi10 (stod10 : List Char → Parsed (Weight ℝ))
      ["1,99999999999:1,2:3".toList] =
      some ({ values := [fin 3], row_ptr := [0, 2], col_idx := [2] }, [1]) := by
  have a1 : elemAction stoi10 (stod10 : List Char → Parsed (Weight ℝ))
      "99999999999:1".toList = ElemAction.count :=
    elemAction_count "99999999999:1".toList
      "99999999999".toList "1".toList [] (Weight.num 1) (by decide) stod10_one
      (lt_zero_num_of_nonneg (by norm_num)) (by decide)
  have a2 : elemAction stoi10 (stod10 : List Char → Parsed (Weight ℝ)) "2:3".toList =
      ElemAction.store 2 (Weight.num 3) :=
    elemAction_store "2:3".toList "2".toList "3".toList [] 2 (Weight.num 3) (by decide)
      stod10_three (lt_zero_num_of_nonneg (by norm_num)) (by decide)
  have s0 : scanElements stoi10 (stod10 : List Char → Parsed (Weight ℝ)) ["2:3".toList] =
      some ([(2, Weight.num 3)], 0 + 1) :=
    scanElements_store [] ([], 0) a2 rfl
  have s1 : scanLines stoi10 (stod10 : List Char → Parsed (Weight ℝ))
      ["1,99999999999:1,2:3".toList] = some [([(2, Weight.num 3)], 0 + 1 + 1)] :=
    scanLines_cons ["99999999999:1".toList, "2:3".toList] (by decide)
      (scanElements_count_cons _ _ a1 s0) rfl
  rw [csr_matrix_of_scan [1] s1 (by decide)]
  rfl

/-! ### The record of the spec and a record with the weight `nan` -/

theorem record_example_elements : lineElements "5,1:0.8,2:-0.3,3:0.2".toList =
    ["1:0.8".toList, "2:-0.3".toList, "3:0.2".toList] := by decide

theorem record_example_pairs :
    (lineElements "5,1:0.8,2:-0.3,3:0.2".toList).filterMap
      (parsedPair stoi10 (stod10 : List Char → Parsed (Weight ℝ))) =
      [(1, Weight.num (8 / 10)), (2, Weight.num (-(3 / 10))), (3, Weight.num (2 / 10))] := by
  have h1 : parsedPair stoi10 (stod10 : List Char → Parsed (Weight ℝ)) "1:0.8".toList =
      some (1, Weight.num (8 / 10)) := by
    unfold parsedPair
    rw [show split "1:0.8".toList ':' = ["1".toList, "0.8".toList] by decide]
    simp only [stod10_08, show stoi10 "1".toList = Parsed.ok 1 by decide]
  have h2 : parsedPair stoi10 (stod10 : List Char → Parsed (Weight ℝ)) "2:-0.3".toList =
      some (2, Weight.num (-(3 / 10))) := by
    unfold parsedPair
    rw [show split "2:-0.3".toList ':' = ["2".toList, "-0.3".toList] by decide]
    simp only [stod10_minus_03, show stoi10 "2".toList = Parsed.ok 2 by decide]
  have h3 : parsedPair stoi10 (stod10 : List Char → Parsed (Weight ℝ)) "3:0.2".toList =
      some (3, Weight.num (2 / 10)) := by
    unfold parsedPair
    rw [show split "3:0.2".toList ':' = ["3".toList, "0.2".toList] by decide]
    simp only [stod10_02, show stoi10 "3".toList = Parsed.ok 3 by decide]
  rw [record_example_elements, List.filterMap_cons, h1, List.filterMap_cons, h2,
    List.filterMap_cons, h3, List.filterMap_nil]

theorem record_example_kept :
    keptPairs stoi10 (stod10 : List Char → Parsed (Weight ℝ)) "5,1:0.8,2:-0.3,3:0.2".toList =
      [(1, fin (8 / 10)), (3, fin (2 / 10))] := by
  rw [keptPairs, record_example_pairs]
  have e1 : (Weight.num (8 / 10 : ℝ)).lt_zero = false := lt_zero_num_of_nonneg (by norm_num)
  have e2 : (Weight.num (-(3 / 10) : ℝ)).lt_zero = true := by
    simp [Weight.lt_zero]
  have e3 : (Weight.num (2 / 10 : ℝ)).lt_zero = false := lt_zero_num_of_nonneg (by norm_num)
  simp only [List.filter_cons, e1, e2, e3, Bool.not_false, Bool.not_true, if_true,
    Bool.false_eq_true, if_false, List.filter_nil, List.map_cons, List.map_nil]
  rfl

theorem record_example_matrix :
    csr_matrix stoi10 (stod10 : List Char → Parsed (Weight ℝ))
      ["5,1:0.8,2:-0.3,3:0.2".toList] =
      some ({ values := [fin (8 / 10), fin (2 / 10)], row_ptr := [0, 2], col_idx := [1, 3] },
        [5]) := by
  have a1 : elemAction stoi10 (stod10 : List Char → Parsed (Weight ℝ)) "1:0.8".toList =
      ElemAction.store 1 (Weight.num (8 / 10)) :=
    elemAction_store "1:0.8".toList "1".toList "0.8".toList [] 1 (Weight.num (8 / 10))
      (by decide) stod10_08 (lt_zero_num_of_nonneg (by norm_num)) (by decide)
  have a2 : elemAction stoi10 (stod10 : List Char → Parsed (Weight ℝ)) "2:-0.3".toList =
      ElemAction.skip :=
    elemAction_skip "2:-0.3".toList "2".toList "-0.3".toList [] (Weight.num (-(3 / 10)))
      (by decide) stod10_minus_03 (by simp [Weight.lt_zero])
  have a3 : elemAction stoi10 (stod10 : List Char → Parsed (Weight ℝ)) "3:0.2".toList =
      ElemAction.store 3 (Weight.num (2 / 10)) :=
    elemAction_store "3:0.2".toList "3".toList "0.2".toList [] 3 (Weight.num (2 / 10))
      (by decide) stod10_02 (lt_zero_num_of_nonneg (by norm_num)) (by decide)
  have s3 : scanElements stoi10 (stod10 : List Char → Parsed (Weight ℝ)) ["3:0.2".toList] =
      some ([(3, Weight.num (2 / 10))], 0 + 1) :=
    scanElements_store [] ([], 0) a3 rfl
  have s2 : scanElements stoi10 (stod10 : List Char → Parsed (Weight ℝ))
      ["2:-0.3".toList, "3:0.2".toList] = some ([(3, Weight.num (2 / 10))], 0 + 1) :=
    scanElements_skip _ _ a2 s3
  have s1 : scanLines stoi10 (stod10 : List Char → Parsed (Weight ℝ))
      ["5,1:0.8,2:-0.3,3:0.2".toList] =
      some [([(1, Weight.num (8 / 10)), (3, Weight.num (2 / 10))], 0 + 1 + 1)] :=
    scanLines_cons ["1:0.8".toList, "2:-0.3".toList, "3:0.2".toList] (by decide)
      (scanElements_store _ _ a1 s2) rfl
  rw [csr_matrix_of_scan [5] s1 (by decide)]
  rfl

theorem record_example_parses :
    PairsParse stoi10 (stod10 : List Char → Parsed (Weight ℝ))
      "5,1:0.8,2:-0.3,3:0.2".toList := by
  intro e he
  rw [record_example_elements] at he
  simp only [List.mem_cons, List.mem_singleton, List.not_mem_nil, or_false] at he
  rcases he with rfl | rfl | rfl <;> rfl

theorem noOutOfRange_of_parse {α : Type} [LinearOrderedField α]
    {stoi : List Char → Parsed Int} {stod : List Char → Parsed (Weight α)} {line : List Char}
    (h : PairsParse stoi stod line) : NoOutOfRange stoi stod line := by
  intro e he
  obtain ⟨p, hp⟩ := Option.isSome_iff_exists.1 (h e he)
  obtain ⟨r0, r1, tl, heq, h0, h1⟩ := parsedPair_eq_some hp
  exact ⟨r0, r1, tl, heq, by rw [h0]; simp, by rw [h1]; simp⟩

theorem record_example_noOutOfRange : ∀ line ∈ ["5,1:0.8,2:-0.3,3:0.2".toList],
    NoOutOfRange stoi10 (stod10 : List Char → Parsed (Weight ℝ)) line := by
  intro line hl
  rw [List.mem_singleton] at hl
  subst hl
  exact noOutOfRange_of_parse record_example_parses

theorem nan_weight_parses :
    PairsParse stoi10 (stod10 : List Char → Parsed (Weight ℝ)) "5,1:nan".toList := by
  intro e he
  rw [show lineElements "5,1:nan".toList = ["1:nan".toList] by decide] at he
  rw [List.mem_singleton] at he
  subst he
  rfl

/-- The record `"5,1:nan"`: the weight is a NaN, which is not less than zero,
and it is stored. -/
theorem nan_weight_example :
    csr_matrix stoi10 (stod10 : List Char → Parsed (Weight ℝ)) ["5,1:nan".toList] =
      some ({ values := [Dbl.nan], row_ptr := [0, 1], col_idx := [1] }, [5]) := by
  have a1 : elemAction stoi10 (stod10 : List Char → Parsed (Weight ℝ)) "1:nan".toList =
      ElemAction.store 1 Weight.nan :=
    elemAction_store "1:nan".toList "1".toList "nan".toList [] 1 Weight.nan
      (by decide) stod10_nan rfl (by decide)
  have s1 : scanLines stoi10 (stod10 : List Char → Parsed (Weight ℝ)) ["5,1:nan".toList] =
      some [([(1, Weight.nan)], 0 + 1)] :=
    scanLines_cons ["1:nan".toList] (by decide) (scanElements_store [] ([], 0) a1 rfl) rfl
  rw [csr_matrix_of_scan [5] s1 (by decide)]
  rfl

/-! ### Concrete matrices -/

theorem S_tiny_wf : (S_tiny : CSR ℝ).WellFormed :=
  ⟨by decide, by decide, by decide, by decide, by decide⟩

theorem S_tiny_inv_diag :
    (S_tiny : CSR ℝ).inv_diag = some { values := [], row_ptr := [0, 1], col_idx := [0] } := by
  simp [CSR.inv_diag, S_tiny, forEntries, forLoop, rd, wr, List.range_succ, Dbl.zero_def,
    Dbl.one_def, ne_zero, CSR.eraseTiny_eq_filter, fabs_lt_eps, DBL_EPSILON]
  norm_num [abs_of_pos]

theorem M_square_wf : (M_square : CSR ℝ).WellFormed :=
  ⟨by decide, by decide, by decide, by decide, by decide⟩

theorem M_square_col_lt :
    ∀ c ∈ (M_square : CSR ℝ).col_idx, 0 ≤ c ∧ c < (((M_square : CSR ℝ).row_ptr.length - 1 : Nat) : Int) := by
  decide

theorem M_square_colDot :
    (List.range 2).map ((M_square : CSR ℝ).colDot [fin 1, fin 1]) = [fin 1, fin 5] := by
  simp [CSR.colDot, entries, rowRange, M_square, getI, rd, range_two, List.range_succ]
  norm_num

theorem M_square_prod_t :
    (M_square : CSR ℝ).prod_t [fin 1, fin 1] = some [fin 1, fin 5] := by
  rw [CSR.prod_t_eq M_square [fin 1, fin 1] M_square_wf (by decide) (by decide)]
  exact congrArg some M_square_colDot

theorem M_tall_inRange : (M_tall : CSR ℝ).InRange := by
  refine ⟨⟨by decide, by decide, by decide, by decide, by decide⟩, ?_, by decide⟩
  intro v hv
  simp only [M_tall, List.mem_cons, List.mem_singleton, List.not_mem_nil, or_false] at hv
  rcases hv with rfl | rfl <;> simp [Dbl.get]

theorem M_tall_positiveRows : (M_tall : CSR ℝ).PositiveRows := by
  intro i hi
  have hi : i < 2 := by simp [M_tall] at hi; omega
  interval_cases i
  · exact ⟨0, by simp [rowRange, M_tall], by simp [M_tall, getI, rd, Dbl.get]⟩
  · exact ⟨1, by simp [rowRange, M_tall], by simp [M_tall, getI, rd, Dbl.get]⟩

theorem S_shared_rowPairs : (S_shared : CSR ℝ).rowPairs 0 = (S_shared : CSR ℝ).rowPairs 1 := by
  simp [CSR.rowPairs, rowRange, S_shared, getI, rd]

/-! ### The degrees after `CSR::normalization` of any matrix with weights `≥ 0` -/

section Agree
variable {α : Type} [LinearOrderedField α]
set_option linter.unusedSectionVars false

/-- When the two zero tests of `CSR::inv_diag` agree on every degree, the
matrix that it returns is well formed and has the row count of `M`. -/
theorem CSR.inv_diag_wf_of_agree (M : CSR α) (hwf : M.WellFormed)
    (hcol : ∀ c ∈ M.col_idx, c < (M.row_ptr.length : Int) - 1)
    (hagree : ∀ v ∈ M.degree, ne_zero v = !fabs_lt_eps v) :
    ∃ D : CSR α, M.inv_diag = some D ∧ D.WellFormed ∧
      D.row_ptr.length = M.row_ptr.length ∧
      (∀ c ∈ D.col_idx, c < (M.row_ptr.length : Int) - 1) := by
  refine ⟨_, CSR.inv_diag_eq M hwf hcol, ?_, ?_, ?_⟩
  · have hlen : M.degree.length = M.row_ptr.length - 1 := by simp [CSR.degree]
    have hfilter : M.degree.filter (fun x => !fabs_lt_eps x) = M.degree.filter ne_zero := by
      apply List.filter_congr
      intro v hv
      rw [hagree v hv]
    have hcount : ((M.degree.filter (fun x => !fabs_lt_eps x)).length : Int) =
        nzCount M.degree (M.row_ptr.length - 1) := by
      rw [hfilter, filter_length_range ne_zero 0, hlen]
      rfl
    refine ⟨?_, ?_, ?_, ?_, ?_⟩
    · simp only
      cases hN : M.row_ptr.length - 1 with
      | zero => simp [nzCount]
      | succ n => simp [List.range_succ_eq_map, nzCount]
    · simp only
      have : (List.range (M.row_ptr.length - 1)).map (nzCount M.degree) ++
          [nzCount M.degree (M.row_ptr.length - 1)] =
          (List.range (M.row_ptr.length - 1 + 1)).map (nzCount M.degree) := by
        rw [List.range_succ, List.map_append]; rfl
      rw [this, List.pairwise_map]
      exact (List.pairwise_lt_range _).imp (fun hab => nzCount_mono _ (le_of_lt hab))
    · simp only [List.getLast?_append, List.getLast?_singleton, List.length_map]
      rw [hcount]; rfl
    · simp only [List.length_map]
      rw [hfilter, filter_length_range ne_zero 0, hlen]
    · intro c hc
      simp only [List.mem_map] at hc
      obtain ⟨k, _, rfl⟩ := hc
      exact Int.natCast_nonneg k
  · have := hwf.row_ptr_ne
    have : 0 < M.row_ptr.length := List.length_pos.2 this
    simp only [List.length_append, List.length_map, List.length_range, List.length_singleton]
    omega
  · intro c hc
    simp only [List.mem_map, List.mem_filter, List.mem_range] at hc
    obtain ⟨k, ⟨hk, _⟩, rfl⟩ := hc
    omega

theorem Dbl.mul_eq_fin {a b : Dbl α} {s : α} (h : a * b = fin s) :
    a = fin a.get ∧ b = fin b.get ∧ a.get * b.get = s := by
  cases a <;> cases b <;> simp [Dbl.get] at h ⊢
  exact h

theorem Dbl.eq_nan_or_fin (a : Dbl α) : a = nan ∨ a = fin a.get := by
  cases a
  · right; rfl
  · left; rfl

/-- A zero test of `CSR::inv_diag` on a NaN, on 0 and on a number `≥ 1`. -/
theorem tests_agree (v : Dbl ℝ) (h : v = nan ∨ v = fin 0 ∨ ∃ x : ℝ, v = fin x ∧ 1 ≤ x) :
    ne_zero v = !fabs_lt_eps v := by
  rcases h with rfl | rfl | ⟨x, rfl, hx⟩
  · rfl
  · simp [fabs_lt_eps, ne_zero, DBL_EPSILON]
  · have h1 : x ≠ 0 := by linarith
    have h2 : ¬ |x| < DBL_EPSILON := by
      rw [abs_of_nonneg (by linarith)]
      have : (DBL_EPSILON : ℝ) ≤ 1 := by
        unfold DBL_EPSILON; norm_num
      linarith
    simp [fabs_lt_eps, ne_zero, h1, h2]

end Agree

/-- Every entry of `S * S^T * 1` of the matrix after `CSR::normalization` is
a NaN, 0 for an empty row, or at least 1. -/
theorem CSR.RowScaled.degree_nan_zero_or_ge_one {S : CSR ℝ} (h : S.RowScaled) (i : Nat)
    (hi : i + 1 < S.row_ptr.length) :
    S.degree[i]?.getD 0 = nan ∨
      (rowRange S.row_ptr i = [] ∧ S.degree[i]?.getD 0 = fin 0) ∨
      (rowRange S.row_ptr i ≠ [] ∧ ∃ x : ℝ, S.degree[i]?.getD 0 = fin x ∧ 1 ≤ x) := by
  have hiN : i < S.row_ptr.length - 1 := by omega
  have hdeg : S.degree[i]?.getD 0 = S.rowDot ((List.range (S.row_ptr.length - 1)).map
      (S.colDot (List.replicate (S.row_ptr.length - 1) 1))) i := by
    unfold CSR.degree
    rw [List.getElem?_map, List.getElem?_range hiN]
    rfl
  rw [hdeg]
  set ones : List (Dbl ℝ) := List.replicate (S.row_ptr.length - 1) 1 with hones
  set temp : List (Dbl ℝ) := (List.range (S.row_ptr.length - 1)).map (S.colDot ones) with htemp
  by_cases hne : rowRange S.row_ptr i = []
  · right; left
    exact ⟨hne, CSR.rowDot_empty _ _ hne⟩
  cases hx : S.rowDot temp i with
  | nan => left; rfl
  | fin x =>
    right; right
    refine ⟨hne, x, rfl, ?_⟩
    unfold CSR.rowDot at hx
    obtain ⟨hterm, hsum⟩ := Dbl.sum_eq_fin _ _ _ hx
    rw [← hsum]
    -- every value of the row is finite
    have hvfin : ∀ j ∈ rowRange S.row_ptr i,
        getI S.values 0 j = fin (getI S.values 0 j).get :=
      fun j hj => (Dbl.mul_eq_fin (hterm j hj)).1
    have hsq : S.rowSumSq i = fin (((rowRange S.row_ptr i).map
        (fun j => (getI S.values 0 j).get * (getI S.values 0 j).get)).sum) := by
      unfold CSR.rowSumSq
      apply Dbl.sum_congr_fin
      intro j hj
      rw [hvfin j hj]
      rfl
    have hone : ((rowRange S.row_ptr i).map
        (fun j => (getI S.values 0 j).get * (getI S.values 0 j).get)).sum = 1 := by
      rcases h.unit i hi hne with h1 | h1
      · rw [hsq] at h1; exact absurd h1 (by simp)
      · rw [hsq] at h1; exact Dbl.fin.inj h1
    rw [← hone]
    apply List.sum_le_sum
    intro j hj
    obtain ⟨b1, b2, b3⟩ := h.wf.rowRange_bounds hi hj
    obtain ⟨t1, t2, t3⟩ := Dbl.mul_eq_fin (hterm j hj)
    rw [← t3]
    have hxj : 0 ≤ (getI S.values 0 j).get := by
      rcases h.value_cases _ (getI_mem _ _ b1 b2) with e | e
      · rw [e]; simp [Dbl.get]
      · exact e.2
    apply mul_le_mul_of_nonneg_left _ hxj
    -- the column sum of the column of `j` contains the value at `j`
    have hc0 := h.wf.col_idx_nonneg _ b3
    have hc1 := h.col_lt _ b3
    obtain ⟨c, hc⟩ := Int.eq_ofNat_of_zero_le hc0
    have hcN : c < S.row_ptr.length - 1 := by omega
    have htc : getI temp 0 (getI S.col_idx 0 j) = S.colDot ones c := by
      rw [hc, getI_natCast, htemp, List.getElem?_map, List.getElem?_range hcN]
      rfl
    rw [htc] at t2 ⊢
    cases hct : S.colDot ones c with
    | nan => rw [hct] at t2; exact absurd t2 (by simp)
    | fin t =>
      show (getI S.values 0 j).get ≤ t
      unfold CSR.colDot at hct
      obtain ⟨cterm, csum⟩ := Dbl.sum_eq_fin _ _ _ hct
      rw [← csum]
      have honesAt : ∀ p ∈ entries S.row_ptr, getI ones 0 p.1 = 1 := by
        intro p hp
        obtain ⟨q1, q2, _, _⟩ := h.wf.bounds hp
        exact List.eq_of_mem_replicate (getI_mem ones 0 q1 (by simp [hones]; omega))
      have hmemE : ((i : Int), j) ∈ (entries S.row_ptr).filter
          (fun p => (getI S.col_idx 0 p.2).toNat = c) := by
        apply List.mem_filter.2
        refine ⟨mem_entries_of_mem_rowRange hi hj, ?_⟩
        simp [hc]
      have hmem : (getI S.values 0 j).get ∈
          ((entries S.row_ptr).filter (fun p => (getI S.col_idx 0 p.2).toNat = c)).map
            (fun p => (getI S.values 0 p.2 * getI ones 0 p.1).get) := by
        apply List.mem_map.2
        refine ⟨((i : Int), j), hmemE, ?_⟩
        simp only
        rw [honesAt _ (List.mem_filter.1 hmemE).1, hvfin j hj]
        simp [Dbl.one_def, Dbl.get]
      refine List.single_le_sum ?_ _ hmem
      intro y hy
      obtain ⟨p, hp, rfl⟩ := List.mem_map.1 hy
      have hpE := (List.mem_filter.1 hp).1
      obtain ⟨q1, q2, q3, q4⟩ := h.wf.bounds hpE
      obtain ⟨u1, _, _⟩ := Dbl.mul_eq_fin (cterm p hp)
      rw [honesAt p hpE, u1]
      simp only [Dbl.one_def, Dbl.fin_mul_fin, Dbl.get, mul_one]
      rcases h.value_cases _ (getI_mem _ _ q3 q4) with e | e
      · rw [e] at u1; exact absurd u1 (by simp)
      · exact e.2

theorem CSR.InRange.rowSumSq_nonneg {S : CSR ℝ} (h : S.InRange) {i : Nat}
    (hi : i + 1 < S.row_ptr.length) : ∃ s : ℝ, S.rowSumSq i = fin s ∧ 0 ≤ s := by
  refine ⟨_, CSR.rowSumSq_fin h.wf (fun v hv => (h.nonneg v hv).1) hi, ?_⟩
  apply List.sum_nonneg
  intro x hx
  obtain ⟨j, _, rfl⟩ := List.mem_map.1 hx
  exact mul_self_nonneg _

/-- `CSR::normalization` on a feature matrix with weights `≥ 0` and feature
ids below the number of rows: each value is divided by the square root of the
sum of squares of its row, a NaN for a row of norm zero. -/
theorem CSR.InRange.rowScaled {S : CSR ℝ} (h : S.InRange) :
    ∃ S' : CSR ℝ, S.normalization Real.sqrt = some S' ∧ S'.row_ptr = S.row_ptr ∧
      S'.col_idx = S.col_idx ∧ S'.values.length = S.values.length ∧ S'.RowScaled ∧
      ∀ i : Nat, i + 1 < S.row_ptr.length → ∀ j ∈ rowRange S.row_ptr i,
        getI S'.values 0 j = getI S.values 0 j / Dbl.sqrt Real.sqrt (S.rowSumSq i) := by
  obtain ⟨S', h1, h2, h3, h4, h5⟩ := CSR.normalization_unit_rows_aux S h.wf
  obtain ⟨vals, g1, g2, g3⟩ := CSR.normalization_eq Real.sqrt S h.wf
  have hS' : S' = { S with values := vals } := by
    rw [h1] at g1
    exact Option.some.inj g1
  have hvals : S'.values = vals := by rw [hS']
  have hwf' : S'.WellFormed :=
    ⟨h2 ▸ h.wf.row_ptr_head, h2 ▸ h.wf.row_ptr_sorted, by rw [h2, h4]; exact h.wf.row_ptr_last,
      by rw [h3, h4]; exact h.wf.col_idx_length, h3 ▸ h.wf.col_idx_nonneg⟩
  have hrow : ∀ i : Nat, i + 1 < S.row_ptr.length → ∀ j ∈ rowRange S.row_ptr i,
      getI S'.values 0 j = getI S.values 0 j / Dbl.sqrt Real.sqrt (S.rowSumSq i) := by
    intro i hi j hj
    rw [hvals]
    exact g3 i hi j hj
  have hcase : ∀ i : Nat, i + 1 < S.row_ptr.length → ∀ j ∈ rowRange S.row_ptr i,
      (S.rowSumSq i = fin 0 ∧ getI S'.values 0 j = nan) ∨
      (S.rowSumSq i ≠ fin 0 ∧ getI S'.values 0 j = fin (getI S'.values 0 j).get ∧
        0 ≤ (getI S'.values 0 j).get) := by
    intro i hi j hj
    obtain ⟨s, hs, hs0⟩ := h.rowSumSq_nonneg hi
    obtain ⟨b1, b2, _⟩ := h.wf.rowRange_bounds hi hj
    obtain ⟨e1, e2⟩ := h.nonneg _ (getI_mem S.values 0 b1 b2)
    have hsq : Dbl.sqrt Real.sqrt (fin s) = fin (Real.sqrt s) := by
      simp [Dbl.sqrt, not_lt.2 hs0]
    rw [hrow i hi j hj, hs, hsq, e1]
    by_cases hz : s = 0
    · left
      subst hz
      refine ⟨rfl, ?_⟩
      rw [Real.sqrt_zero]
      exact Dbl.fin_div_zero _
    · right
      have hne : Real.sqrt s ≠ 0 :=
        (Real.sqrt_pos.2 (lt_of_le_of_ne hs0 (Ne.symm hz))).ne'
      refine ⟨fun hh => hz (Dbl.fin.inj hh), ?_⟩
      rw [Dbl.fin_div_fin_of_ne _ hne]
      exact ⟨rfl, div_nonneg e2 (Real.sqrt_nonneg s)⟩
  refine ⟨S', h1, h2, h3, h4, ⟨hwf', ?_, by rw [h2, h3]; exact h.col_lt, ?_⟩, hrow⟩
  · intro v hv
    obtain ⟨k, hk, rfl⟩ := List.getElem_of_mem hv
    obtain ⟨i, hi, hmem⟩ := exists_row_of_lt h.wf (h4 ▸ hk)
    have hget : getI S'.values 0 (k : Int) = S'.values[k] := by
      rw [getI_natCast, List.getElem?_eq_getElem hk]
      rfl
    rcases hcase i hi _ hmem with ⟨_, e⟩ | ⟨_, e⟩
    · left; rw [← hget]; exact e
    · right; rw [← hget]; exact e
  · intro i hi hne
    rw [h2] at hi hne
    obtain ⟨s, hs, hs0⟩ := h.rowSumSq_nonneg hi
    by_cases hz : s = 0
    · left
      obtain ⟨j, hj⟩ := List.exists_mem_of_ne_nil _ hne
      have hnan : getI S'.values 0 j = nan := by
        rcases hcase i hi j hj with ⟨_, e⟩ | ⟨e, _⟩
        · exact e
        · exact absurd (by rw [hs, hz]) e
      cases hx : S'.rowSumSq i with
      | nan => rfl
      | fin x =>
        exfalso
        unfold CSR.rowSumSq at hx
        rw [h2] at hx
        obtain ⟨hterm, _⟩ := Dbl.sum_eq_fin _ _ _ hx
        have := hterm j hj
        rw [hnan] at this
        exact absurd this (by simp)
    · right
      exact (h5 i s hi hs hz).2

theorem CSR.RowScaled.zero_tests_agree {S : CSR ℝ} (h : S.RowScaled) :
    ∀ v ∈ S.degree, ne_zero v = !fabs_lt_eps v := by
  intro v hv
  obtain ⟨i, hi, rfl⟩ := List.getElem_of_mem hv
  have hlen : S.degree.length = S.row_ptr.length - 1 := by simp [CSR.degree]
  have hget : S.degree[i]?.getD 0 = S.degree[i] := by
    rw [List.getElem?_eq_getElem hi]; rfl
  apply LexRank.tests_agree
  rw [← hget]
  rcases h.degree_nan_zero_or_ge_one i (by omega) with e | ⟨_, e⟩ | ⟨_, e⟩
  · exact Or.inl e
  · exact Or.inr (Or.inl e)
  · exact Or.inr (Or.inr e)

/-- On the matrix after `CSR::normalization` the two zero tests of
`CSR::inv_diag` agree, and the matrix that it returns is well formed. -/
theorem CSR.RowScaled.inv_diag_wf {S : CSR ℝ} (h : S.RowScaled) :
    ∃ D : CSR ℝ, S.inv_diag = some D ∧ D.WellFormed ∧
      D.row_ptr.length = S.row_ptr.length ∧
      (∀ c ∈ D.col_idx, c < (S.row_ptr.length : Int) - 1) :=
  CSR.inv_diag_wf_of_agree S h.wf h.col_lt h.zero_tests_agree

section Total
variable {α : Type} [LinearOrderedField α]
set_option linter.unusedSectionVars false

/-- One pass of the loop of `LexRank::prop` when the matrices are well formed
with column ids below the number `N` of rows: the three products stay within
the bounds, and the new score of item `i` is
`cons_vec[i] + (S'.prod(S'.prod_t(D.prod(p))))[i] * (1 - d)`. -/
theorem prop_step_total (S' D : CSR α) (hwf : S'.WellFormed)
    (hcol : ∀ c ∈ S'.col_idx, c < (S'.row_ptr.length : Int) - 1) (hD : D.WellFormed)
    (h5 : D.row_ptr.length = S'.row_ptr.length)
    (h6 : ∀ c ∈ D.col_idx, c < (S'.row_ptr.length : Int) - 1) (d : Dbl α)
    (cons_vec p : List (Dbl α)) (hcons : cons_vec.length = S'.row_ptr.length - 1)
    (hp : p.length = S'.row_ptr.length - 1) :
    prop_step S' D S'.get_nfile d cons_vec p =
      some (List.zipWith (fun cv x => cv + x) cons_vec
        (((List.range (S'.row_ptr.length - 1)).map
          (S'.rowDot ((List.range (S'.row_ptr.length - 1)).map
            (S'.colDot ((List.range (S'.row_ptr.length - 1)).map (D.rowDot p)))))).map
          (fun x => x * (1 - d)))) := by
  have hlen : 0 < S'.row_ptr.length := List.length_pos.2 hwf.row_ptr_ne
  have hnfile : S'.get_nfile.toNat = S'.row_ptr.length - 1 := by
    unfold CSR.get_nfile; omega
  have ha := CSR.prod_eq D p hD (by intro c hc; have := h6 c hc; rw [hp]; omega)
  rw [h5] at ha
  have hb := CSR.prod_t_eq S' ((List.range (S'.row_ptr.length - 1)).map (D.rowDot p)) hwf hcol
    (by simp)
  have hc := CSR.prod_eq S' ((List.range (S'.row_ptr.length - 1)).map
    (S'.colDot ((List.range (S'.row_ptr.length - 1)).map (D.rowDot p)))) hwf
    (by intro c hc; have := hcol c hc; simp; omega)
  exact prop_step_eq S' D S'.get_nfile d cons_vec p _ _ _ ha hb hc (by simp [hnfile])
    (by simp [hcons]) (by simp [hp])

/-- The run of `LexRank::prop` when the normalized matrix and the matrix of
`inv_diag` are well formed with column ids below the number of rows: every
number `k` of iterations returns a score vector `p` with one entry for each
item, and one more iteration returns the scores of `prop_step_total`. -/
theorem prop_total (sq : α → α) (S S' D : CSR α) (h1 : S.normalization sq = some S')
    (h4 : S'.inv_diag = some D) (hwf : S'.WellFormed)
    (hcol : ∀ c ∈ S'.col_idx, c < (S'.row_ptr.length : Int) - 1) (hD : D.WellFormed)
    (h5 : D.row_ptr.length = S'.row_ptr.length)
    (h6 : ∀ c ∈ D.col_idx, c < (S'.row_ptr.length : Int) - 1) (d : Dbl α) (k : Nat) :
    ∃ p : List (Dbl α), prop sq S (k : Int) d = some p ∧
      p.length = S'.row_ptr.length - 1 ∧
      prop sq S ((k + 1 : Nat) : Int) d =
        some (List.zipWith (fun cv x => cv + x)
          (List.replicate (S'.row_ptr.length - 1) (d / fin ((S'.get_nfile : Int) : α)))
          (((List.range (S'.row_ptr.length - 1)).map
            (S'.rowDot ((List.range (S'.row_ptr.length - 1)).map
              (S'.colDot ((List.range (S'.row_ptr.length - 1)).map (D.rowDot p)))))).map
            (fun x => x * (1 - d)))) := by
  have hlen : 0 < S'.row_ptr.length := List.length_pos.2 hwf.row_ptr_ne
  have hnfile : S'.get_nfile.toNat = S'.row_ptr.length - 1 := by
    unfold CSR.get_nfile; omega
  have hprop : ∀ n : Int, prop sq S n d =
      forLoop 0 n (fun _ p_vec => prop_step S' D S'.get_nfile d
        (List.replicate (S'.row_ptr.length - 1) (d / fin ((S'.get_nfile : Int) : α))) p_vec)
        (List.replicate (S'.row_ptr.length - 1) (d / fin ((S'.get_nfile : Int) : α))) := by
    intro n
    unfold prop
    simp only [Option.bind_eq_bind, Option.pure_def]
    rw [h1]
    simp only [Option.some_bind]
    rw [h4]
    simp only [Option.some_bind]
    rw [hnfile]
  obtain ⟨p, e1, e2⟩ := forLoop_invariant
    (fun _ (p : List (Dbl α)) => p.length = S'.row_ptr.length - 1)
    (fun _ p_vec => prop_step S' D S'.get_nfile d
      (List.replicate (S'.row_ptr.length - 1) (d / fin ((S'.get_nfile : Int) : α))) p_vec) k
    (by
      intro j _ p hp
      refine ⟨_, prop_step_total S' D hwf hcol hD h5 h6 d _ p (by simp) hp, ?_⟩
      simp)
    (List.replicate (S'.row_ptr.length - 1) (d / fin ((S'.get_nfile : Int) : α)))
    (by simp)
  refine ⟨p, by rw [hprop, e1], e2, ?_⟩
  rw [hprop, forLoop_succ, e1]
  exact prop_step_total S' D hwf hcol hD h5 h6 d _ p (by simp) e2

end Total

/-- On a feature matrix with weights `≥ 0` and feature ids below the number
of rows the run of `LexRank::prop` stays within the bounds of its vectors:
with `S'` the normalized matrix and `D` the matrix of `inv_diag`, every
number of iterations returns a vector with one score for each item. -/
theorem prop_in_range (S : CSR ℝ) (h : S.InRange) (d : Dbl ℝ) :
    ∃ S' D : CSR ℝ, S.normalization Real.sqrt = some S' ∧ S'.inv_diag = some D ∧
      S'.row_ptr = S.row_ptr ∧ S'.col_idx = S.col_idx ∧
      (∀ i : Nat, i + 1 < S.row_ptr.length → ∀ j ∈ rowRange S.row_ptr i,
        getI S'.values 0 j = getI S.values 0 j / Dbl.sqrt Real.sqrt (S.rowSumSq i)) ∧
      ∀ k : Nat, ∃ p : List (Dbl ℝ), prop Real.sqrt S (k : Int) d = some p ∧
        p.length = S.row_ptr.length - 1 ∧
        prop Real.sqrt S ((k + 1 : Nat) : Int) d =
          some (List.zipWith (fun cv x => cv + x)
            (List.replicate (S.row_ptr.length - 1) (d / fin ((S.get_nfile : Int) : ℝ)))
            (((List.range (S.row_ptr.length - 1)).map
              (S'.rowDot ((List.range (S.row_ptr.length - 1)).map
                (S'.colDot ((List.range (S.row_ptr.length - 1)).map (D.rowDot p)))))).map
              (fun x => x * (1 - d)))) := by
  obtain ⟨S', h1, h2, h3, _, hS', hrow⟩ := h.rowScaled
  obtain ⟨D, h4, hD, h5, h6⟩ := hS'.inv_diag_wf
  refine ⟨S', D, h1, h4, h2, h3, hrow, ?_⟩
  intro k
  obtain ⟨p, e1, e2, e3⟩ := prop_total Real.sqrt S S' D h1 h4 hS'.wf hS'.col_lt hD h5 h6 d k
  have hn : S'.get_nfile = S.get_nfile := by unfold CSR.get_nfile; rw [h2]
  rw [h2, hn] at e3
  rw [h2] at e2
  exact ⟨p, e1, e2, e3⟩

theorem S_zero_and_unit_inRange : (S_zero_and_unit : CSR ℝ).InRange := by
  refine ⟨⟨by decide, by decide, by decide, by decide, by decide⟩, ?_, by decide⟩
  intro v hv
  simp only [S_zero_and_unit, List.mem_cons, List.mem_singleton, List.not_mem_nil,
    or_false] at hv
  rcases hv with rfl | rfl <;> simp [Dbl.get]

theorem S_zero_and_unit_rowSumSq : (S_zero_and_unit : CSR ℝ).rowSumSq 1 = fin 1 := by
  simp [CSR.rowSumSq, rowRange, S_zero_and_unit, getI, rd, Dbl.zero_def, List.range_succ]

theorem S_zero_and_unit_normalization :
    (S_zero_and_unit : CSR ℝ).normalization Real.sqrt =
      some { values := [nan, fin 1], row_ptr := [0, 1, 2], col_idx := [0, 0] } := by
  simp [CSR.normalization, S_zero_and_unit, forEntries, forLoop, rd, wr, range_two,
    List.range_succ, Dbl.zero_def, Dbl.sqrt]
  norm_num

theorem S_zero_and_unit_degree :
    ({ values := [nan, fin 1], row_ptr := [0, 1, 2], col_idx := [0, 0] } : CSR ℝ).degree =
      [nan, nan] := by
  simp [CSR.degree, CSR.rowDot, CSR.colDot, entries, rowRange, getI, rd, range_two,
    List.range_succ, Dbl.zero_def, Dbl.one_def]

theorem S_zero_apart_inRange : (S_zero_apart : CSR ℝ).InRange := by
  refine ⟨⟨by decide, by decide, by decide, by decide, by decide⟩, ?_, by decide⟩
  intro v hv
  simp only [S_zero_apart, List.mem_cons, List.mem_singleton, List.not_mem_nil,
    or_false] at hv
  rcases hv with rfl | rfl <;> simp [Dbl.get]

theorem S_zero_apart_touches : (S_zero_apart : CSR ℝ).TouchesZeroRow 0 := by
  refine ⟨0, by simp [rowRange, S_zero_apart], 0, by simp [S_zero_apart], ?_, 0,
    by simp [rowRange, S_zero_apart], rfl⟩
  simp [CSR.rowSumSq, rowRange, S_zero_apart, getI, rd, Dbl.zero_def, List.range_succ]

theorem S_zero_apart_not_touches : ¬ (S_zero_apart : CSR ℝ).TouchesZeroRow 1 := by
  rintro ⟨j, hj, r, hr, hzero, q, hq, hcol⟩
  have hj1 : j = 1 := by simpa [rowRange, S_zero_apart, eq_comm] using hj
  subst hj1
  have hr2 : r < 2 := by simp [S_zero_apart] at hr; omega
  interval_cases r
  · have hq0 : q = 0 := by simpa [rowRange, S_zero_apart, eq_comm] using hq
    subst hq0
    simp [S_zero_apart, getI, rd] at hcol
  · simp [CSR.rowSumSq, rowRange, S_zero_apart, getI, rd, Dbl.zero_def, List.range_succ]
      at hzero

theorem S_zero_apart_row_one : rowRange (S_zero_apart : CSR ℝ).row_ptr 1 ≠ [] := by
  simp [rowRange, S_zero_apart]

theorem Dbl.sum_eq_nan_of_mem {ι : Type} (f : ι → Dbl ℝ) (l : List ι) {x : ι} (hx : x ∈ l)
    (h : f x = nan) : (l.map f).sum = nan := by
  cases hs : (l.map f).sum with
  | nan => rfl
  | fin s =>
    have := (Dbl.sum_eq_fin f l s hs).1 x hx
    rw [h] at this
    exact absurd this (by simp)

/-- A value of the normalized matrix: a NaN in a row of norm zero, a number
`≥ 0` in any other row. -/
theorem CSR.InRange.normalized_value {S S' : CSR ℝ} (h : S.InRange)
    (hrow : ∀ i : Nat, i + 1 < S.row_ptr.length → ∀ j ∈ rowRange S.row_ptr i,
      getI S'.values 0 j = getI S.values 0 j / Dbl.sqrt Real.sqrt (S.rowSumSq i))
    {i : Nat} (hi : i + 1 < S.row_ptr.length) {j : Int} (hj : j ∈ rowRange S.row_ptr i) :
    (S.rowSumSq i = fin 0 → getI S'.values 0 j = nan) ∧
    (S.rowSumSq i ≠ fin 0 → getI S'.values 0 j = fin (getI S'.values 0 j).get) := by
  obtain ⟨s, hs, hs0⟩ := h.rowSumSq_nonneg hi
  obtain ⟨b1, b2, _⟩ := h.wf.rowRange_bounds hi hj
  obtain ⟨e1, _⟩ := h.nonneg _ (getI_mem S.values 0 b1 b2)
  have hsq : Dbl.sqrt Real.sqrt (fin s) = fin (Real.sqrt s) := by
    simp [Dbl.sqrt, not_lt.2 hs0]
  rw [hrow i hi j hj, hs, hsq, e1]
  constructor
  · intro hz
    have : s = 0 := Dbl.fin.inj hz
    subst this
    rw [Real.sqrt_zero]
    exact Dbl.fin_div_zero _
  · intro hz
    have hne : Real.sqrt s ≠ 0 :=
      (Real.sqrt_pos.2 (lt_of_le_of_ne hs0 (fun e => hz (by rw [← e])))).ne'
    rw [Dbl.fin_div_fin_of_ne _ hne]
    rfl

/-- The degrees after `CSR::normalization` of a feature matrix with weights
`≥ 0` and feature ids below the number of rows: 0 for an empty row, a NaN for
a row that stores a feature of a row of norm zero, and at least 1 for every
other row. -/
theorem CSR.InRange.degree_characterised {S : CSR ℝ} (h : S.InRange) :
    ∃ S' : CSR ℝ, S.normalization Real.sqrt = some S' ∧
      S'.degree.length = S.row_ptr.length - 1 ∧
      ∀ i : Nat, i + 1 < S.row_ptr.length →
        (rowRange S.row_ptr i = [] → S'.degree[i]? = some (fin 0)) ∧
        (S.TouchesZeroRow i → S'.degree[i]? = some nan) ∧
        (rowRange S.row_ptr i ≠ [] → ¬ S.TouchesZeroRow i →
          ∃ x : ℝ, S'.degree[i]? = some (fin x) ∧ 1 ≤ x) := by
  obtain ⟨S', h1, h2, h3, _, hS', hrow⟩ := h.rowScaled
  have hlen : S'.degree.length = S.row_ptr.length - 1 := by simp [CSR.degree, h2]
  refine ⟨S', h1, hlen, ?_⟩
  intro i hi
  have hiN : i < S.row_ptr.length - 1 := by omega
  have hi' : i < S'.degree.length := by omega
  set ones : List (Dbl ℝ) := List.replicate (S.row_ptr.length - 1) 1 with hones
  have hdeg : S'.degree[i]? = some (S'.rowDot ((List.range (S.row_ptr.length - 1)).map
      (S'.colDot ones)) i) := by
    unfold CSR.degree
    rw [h2, List.getElem?_map, List.getElem?_range hiN]
    rfl
  have honesAt : ∀ p ∈ entries S.row_ptr, getI ones 0 p.1 = 1 := by
    intro p hp
    obtain ⟨q1, q2, _, _⟩ := h.wf.bounds hp
    exact List.eq_of_mem_replicate (getI_mem ones 0 q1 (by simp [hones]; omega))
  -- the entry of the column sums that position `j` of a row reads
  have htemp : ∀ (r : Nat), r + 1 < S.row_ptr.length → ∀ j ∈ rowRange S.row_ptr r,
      getI ((List.range (S.row_ptr.length - 1)).map (S'.colDot ones)) 0 (getI S.col_idx 0 j) =
        S'.colDot ones (getI S.col_idx 0 j).toNat := by
    intro r hr j hj
    obtain ⟨_, _, b3⟩ := h.wf.rowRange_bounds hr hj
    have hc0 := h.wf.col_idx_nonneg _ b3
    have hc1 := h.col_lt _ b3
    obtain ⟨c, hc⟩ := Int.eq_ofNat_of_zero_le hc0
    have hcN : c < S.row_ptr.length - 1 := by omega
    rw [hc, getI_natCast, List.getElem?_map, List.getElem?_range hcN]
    simp
  have hcases := hS'.degree_nan_zero_or_ge_one i (by rw [h2]; exact hi)
  have hget : S'.degree[i]?.getD 0 = S'.rowDot ((List.range (S.row_ptr.length - 1)).map
      (S'.colDot ones)) i := by
    rw [hdeg]; rfl
  rw [h2, hget] at hcases
  rw [hdeg]
  refine ⟨?_, ?_, ?_⟩
  · intro hempty
    rw [CSR.rowDot_empty S' _ (h2 ▸ hempty)]
    rfl
  · rintro ⟨j, hj, r, hr, hzero, q, hq, hcol⟩
    congr 1
    unfold CSR.rowDot
    rw [h2, h3]
    apply Dbl.sum_eq_nan_of_mem _ _ hj
    rw [htemp i hi j hj]
    have hcolsum : S'.colDot ones (getI S.col_idx 0 j).toNat = nan := by
      unfold CSR.colDot
      rw [h2, h3]
      have hmem : ((r : Int), q) ∈ (entries S.row_ptr).filter
          (fun p => (getI S.col_idx 0 p.2).toNat = (getI S.col_idx 0 j).toNat) := by
        apply List.mem_filter.2
        refine ⟨mem_entries_of_mem_rowRange hr hq, ?_⟩
        simp [hcol]
      apply Dbl.sum_eq_nan_of_mem _ _ hmem
      simp only
      rw [(h.normalized_value hrow hr hq).1 hzero]
      rfl
    rw [hcolsum]
    exact Dbl.mul_nan _
  · intro hne htouch
    rcases hcases with e | ⟨e, _⟩ | ⟨_, x, e, hx⟩
    · exfalso
      -- every term of the degree is finite
      have hnz : ∀ (r : Nat), r + 1 < S.row_ptr.length → ∀ q ∈ rowRange S.row_ptr r,
          (∃ j ∈ rowRange S.row_ptr i, getI S.col_idx 0 q = getI S.col_idx 0 j) →
          getI S'.values 0 q = fin (getI S'.values 0 q).get := by
        intro r hr q hq ⟨j, hj, hcol⟩
        apply (h.normalized_value hrow hr hq).2
        intro hzero
        exact htouch ⟨j, hj, r, hr, hzero, q, hq, hcol⟩
      have hfin : S'.rowDot ((List.range (S.row_ptr.length - 1)).map (S'.colDot ones)) i =
          fin (((rowRange S.row_ptr i).map (fun j => (getI S'.values 0 j).get *
            (S'.colDot ones (getI S.col_idx 0 j).toNat).get)).sum) := by
        unfold CSR.rowDot
        rw [h2, h3]
        apply Dbl.sum_congr_fin
        intro j hj
        rw [htemp i hi j hj, hnz i hi j hj ⟨j, hj, rfl⟩]
        have hc : S'.colDot ones (getI S.col_idx 0 j).toNat =
            fin (S'.colDot ones (getI S.col_idx 0 j).toNat).get := by
          have : S'.colDot ones (getI S.col_idx 0 j).toNat =
              fin ((((entries S.row_ptr).filter
                (fun p => (getI S.col_idx 0 p.2).toNat = (getI S.col_idx 0 j).toNat)).map
                (fun p => (getI S'.values 0 p.2).get * 1)).sum) := by
            unfold CSR.colDot
            rw [h2, h3]
            apply Dbl.sum_congr_fin
            intro p hp
            obtain ⟨hpE, hpc⟩ := List.mem_filter.1 hp
            obtain ⟨r, k, hr, hk, rfl⟩ := mem_entries.1 hpE
            have hq : S.row_ptr.getD r 0 + (k : Int) ∈ rowRange S.row_ptr r := by
              unfold rowRange
              exact List.mem_map.2 ⟨k, List.mem_range.2 hk, rfl⟩
            obtain ⟨_, _, c3⟩ := h.wf.rowRange_bounds hr hq
            obtain ⟨_, _, d3⟩ := h.wf.rowRange_bounds hi hj
            have hcol : getI S.col_idx 0 (S.row_ptr.getD r 0 + (k : Int)) =
                getI S.col_idx 0 j := by
              have e1 := h.wf.col_idx_nonneg _ c3
              have e2 := h.wf.col_idx_nonneg _ d3
              have e3 : (getI S.col_idx 0 (S.row_ptr.getD r 0 + (k : Int))).toNat =
                  (getI S.col_idx 0 j).toNat := by simpa using hpc
              omega
            rw [hnz r hr _ hq ⟨j, hj, hcol⟩, honesAt _ hpE]
            rfl
          rw [this]
          rfl
        rw [hc]
        rfl
      rw [hfin] at e
      exact absurd e (by simp)
    · exact absurd (h2 ▸ e) hne
    · exact ⟨x, by rw [e], hx⟩

/-! ### Equal rows, scaled rows and rows of norm zero -/

section RowPairs
variable {α : Type} [LinearOrderedField α]
set_option linter.unusedSectionVars false

theorem CSR.rowDot_eq_rowPairs (M : CSR α) (vec : List (Dbl α)) (i : Nat) :
    M.rowDot vec i = ((M.rowPairs i).map (fun q => q.2 * getI vec 0 q.1)).sum := by
  unfold CSR.rowDot CSR.rowPairs
  rw [List.map_map]
  rfl

theorem CSR.rowSumSq_eq_rowPairs (M : CSR α) (i : Nat) :
    M.rowSumSq i = ((M.rowPairs i).map (fun q => q.2 * q.2)).sum := by
  unfold CSR.rowSumSq CSR.rowPairs
  rw [List.map_map]
  rfl

/-- The row of the normalized matrix is a function of the row of the matrix. -/
theorem CSR.rowPairs_normalized (sq : α → α) (S S' : CSR α) (h2 : S'.row_ptr = S.row_ptr)
    (h3 : S'.col_idx = S.col_idx) (i : Nat)
    (hrow : ∀ j ∈ rowRange S.row_ptr i,
      getI S'.values 0 j = getI S.values 0 j / Dbl.sqrt sq (S.rowSumSq i)) :
    S'.rowPairs i = (S.rowPairs i).map (fun q =>
      (q.1, q.2 / Dbl.sqrt sq (((S.rowPairs i).map (fun q => q.2 * q.2)).sum))) := by
  rw [← CSR.rowSumSq_eq_rowPairs]
  unfold CSR.rowPairs
  rw [h2, h3, List.map_map]
  apply List.map_congr_left
  intro j hj
  simp only [Function.comp_apply]
  rw [hrow j hj]

/-- An entry of the vector that one pass of the loop of `LexRank::prop`
returns. -/
theorem zipWith_cons_getElem? (cons : Dbl α) (d : Dbl α) (N : Nat) (f : Nat → Dbl α) (i : Nat)
    (hi : i < N) :
    (List.zipWith (fun cv x => cv + x) (List.replicate N cons)
      (((List.range N).map f).map (fun x => x * (1 - d))))[i]? =
      some (cons + f i * (1 - d)) := by
  rw [List.getElem?_zipWith, List.getElem?_replicate, if_pos hi, List.getElem?_map,
    List.getElem?_map, List.getElem?_range hi]
  rfl

end RowPairs

/-- Two items with the same stored row receive the same score. -/
theorem prop_equal_rows_aux (S : CSR ℝ) (h : S.InRange) (d : Dbl ℝ) (n i j : Nat)
    (hi : i + 1 < S.row_ptr.length) (hj : j + 1 < S.row_ptr.length)
    (hrows : S.rowPairs i = S.rowPairs j) :
    ∃ u : List (Dbl ℝ), prop Real.sqrt S (n : Int) d = some u ∧
      u.length = S.row_ptr.length - 1 ∧ u[i]? = u[j]? := by
  have hiN : i < S.row_ptr.length - 1 := by omega
  have hjN : j < S.row_ptr.length - 1 := by omega
  cases n with
  | zero =>
    refine ⟨_, prop_zero_iterations Real.sqrt S h.wf h.col_lt d, by simp, ?_⟩
    rw [List.getElem?_replicate, if_pos hiN, List.getElem?_replicate, if_pos hjN]
  | succ k =>
    obtain ⟨S', D, h1, h4, h2, h3, hrow, hk⟩ := prop_in_range S h d
    obtain ⟨p, _, _, e3⟩ := hk k
    refine ⟨_, e3, by simp, ?_⟩
    rw [zipWith_cons_getElem? _ d _ _ i hiN, zipWith_cons_getElem? _ d _ _ j hjN]
    have hpi := CSR.rowPairs_normalized Real.sqrt S S' h2 h3 i (hrow i hi)
    have hpj := CSR.rowPairs_normalized Real.sqrt S S' h2 h3 j (hrow j hj)
    rw [CSR.rowDot_eq_rowPairs S' _ i, CSR.rowDot_eq_rowPairs S' _ j, hpi, hpj, hrows]

theorem mem_rowRange {rp : List Int} {i : Nat} {j : Int} (hj : j ∈ rowRange rp i) :
    ∃ k : Nat, j = rp.getD i 0 + (k : Int) ∧ rp.getD i 0 ≤ j ∧ j < rp.getD (i + 1) 0 := by
  unfold rowRange at hj
  obtain ⟨k, hk, rfl⟩ := List.mem_map.1 hj
  have := List.mem_range.1 hk
  exact ⟨k, rfl, by omega, by omega⟩

/-- The rows of a well-formed matrix are disjoint ranges of positions. -/
theorem rowRange_disjoint {rp : List Int} (hs : rp.Pairwise (· ≤ ·)) {r i : Nat}
    (hr : r + 1 < rp.length) (hi : i + 1 < rp.length) {j : Int} (hj : j ∈ rowRange rp r)
    (h1 : rp.getD i 0 ≤ j) (h2 : j < rp.getD (i + 1) 0) : r = i := by
  obtain ⟨_, _, g1, g2⟩ := mem_rowRange hj
  by_contra hne
  rcases Nat.lt_or_gt_of_ne hne with hlt | hgt
  · have := getD_le_getD hs (show r + 1 ≤ i by omega) (by omega)
    omega
  · have := getD_le_getD hs (show i + 1 ≤ r by omega) (by omega)
    omega

section Scale
variable {α : Type} [LinearOrderedField α]
set_option linter.unusedSectionVars false

theorem CSR.scaleRow_wf {S : CSR α} (h : S.WellFormed) (i : Nat) (c : α) :
    (S.scaleRow i c).WellFormed :=
  ⟨h.row_ptr_head, h.row_ptr_sorted, by simpa [CSR.scaleRow] using h.row_ptr_last,
    by simpa [CSR.scaleRow] using h.col_idx_length, h.col_idx_nonneg⟩

theorem CSR.scaleRow_getI (S : CSR α) (i : Nat) (c : α) {j : Int} (h0 : 0 ≤ j)
    (h1 : j < S.values.length) :
    getI (S.scaleRow i c).values 0 j =
      if S.row_ptr.getD i 0 ≤ j ∧ j < S.row_ptr.getD (i + 1) 0
      then fin c * getI S.values 0 j else getI S.values 0 j := by
  obtain ⟨k, rfl⟩ := Int.eq_ofNat_of_zero_le h0
  have hk : k < S.values.length := by exact_mod_cast h1
  rw [getI_natCast, getI_natCast]
  simp only [CSR.scaleRow, List.getElem?_map, List.getElem?_range hk, Option.map_some',
    Option.getD_some]

end Scale

/-- A row and its multiple by `c > 0` have the same normalized values. -/
theorem scaled_value (c x : ℝ) (hc : 0 < c) (l : List ℝ) :
    (fin (c * x) / Dbl.sqrt Real.sqrt (fin ((l.map (fun y => c * y * (c * y))).sum)) : Dbl ℝ) =
      fin x / Dbl.sqrt Real.sqrt (fin ((l.map (fun y => y * y)).sum)) := by
  have hs : (l.map (fun y => c * y * (c * y))).sum = c * c * (l.map (fun y => y * y)).sum := by
    induction l with
    | nil => simp
    | cons a l ih =>
      simp only [List.map_cons, List.sum_cons, ih]
      ring
  have hnn : 0 ≤ (l.map (fun y => y * y)).sum := by
    apply List.sum_nonneg
    intro y hy
    obtain ⟨z, _, rfl⟩ := List.mem_map.1 hy
    exact mul_self_nonneg z
  set s := (l.map (fun y => y * y)).sum with hsdef
  have hnn2 : 0 ≤ c * c * s := mul_nonneg (mul_self_nonneg c) hnn
  have hsqrt : Real.sqrt (c * c * s) = c * Real.sqrt s := by
    rw [Real.sqrt_mul (mul_self_nonneg c), Real.sqrt_mul_self hc.le]
  rw [hs]
  simp only [Dbl.sqrt, not_lt.2 hnn, not_lt.2 hnn2, if_false, hsqrt]
  by_cases hz : Real.sqrt s = 0
  · rw [hz, mul_zero, Dbl.fin_div_zero, Dbl.fin_div_zero]
  · rw [Dbl.fin_div_fin_of_ne _ hz, Dbl.fin_div_fin_of_ne _ (mul_ne_zero hc.ne' hz)]
    congr 1
    field_simp
    ring

/-- `CSR::normalization` maps a matrix and the matrix with one row multiplied
by `c > 0` to the same matrix. -/
theorem CSR.InRange.normalization_scaleRow {S : CSR ℝ} (h : S.InRange) (i : Nat)
    (hi : i + 1 < S.row_ptr.length) (c : ℝ) (hc : 0 < c) :
    (S.scaleRow i c).normalization Real.sqrt = S.normalization Real.sqrt := by
  obtain ⟨vs, g1, g2, g3⟩ := CSR.normalization_eq Real.sqrt S h.wf
  obtain ⟨vt, t1, t2, t3⟩ := CSR.normalization_eq Real.sqrt (S.scaleRow i c)
    (CSR.scaleRow_wf h.wf i c)
  have hlenT : (S.scaleRow i c).values.length = S.values.length := by simp [CSR.scaleRow]
  have hrpT : (S.scaleRow i c).row_ptr = S.row_ptr := rfl
  rw [g1, t1]
  have hvals : vt = vs := by
    apply List.ext_getElem (by rw [t2, g2, hlenT])
    intro k hk1 hk2
    have hk : k < S.values.length := by rw [← g2]; exact hk2
    obtain ⟨r, hr, hmem⟩ := exists_row_of_lt h.wf hk
    have e1 : vt[k] = getI vt 0 (k : Int) := by
      rw [getI_natCast, List.getElem?_eq_getElem hk1]; rfl
    have e2 : vs[k] = getI vs 0 (k : Int) := by
      rw [getI_natCast, List.getElem?_eq_getElem hk2]; rfl
    rw [e1, e2, t3 r hr _ hmem, g3 r hr _ hmem]
    have hfin : ∀ j ∈ rowRange S.row_ptr r, getI S.values 0 j = fin (getI S.values 0 j).get := by
      intro j hj
      obtain ⟨b1, b2, _⟩ := h.wf.rowRange_bounds hr hj
      exact (h.nonneg _ (getI_mem _ _ b1 b2)).1
    by_cases hri : r = i
    · subst hri
      have hT : ∀ j ∈ rowRange S.row_ptr r,
          getI (S.scaleRow r c).values 0 j = fin (c * (getI S.values 0 j).get) := by
        intro j hj
        obtain ⟨b1, b2, _⟩ := h.wf.rowRange_bounds hr hj
        obtain ⟨_, _, q1, q2⟩ := mem_rowRange hj
        rw [CSR.scaleRow_getI S r c b1 b2, if_pos ⟨q1, q2⟩, hfin j hj]
        rfl
      have hsumT : (S.scaleRow r c).rowSumSq r = fin ((((rowRange S.row_ptr r).map
          (fun j => (getI S.values 0 j).get)).map (fun y => c * y * (c * y))).sum) := by
        unfold CSR.rowSumSq
        rw [hrpT, List.map_map]
        apply Dbl.sum_congr_fin
        intro j hj
        rw [hT j hj]
        rfl
      have hsumS : S.rowSumSq r = fin ((((rowRange S.row_ptr r).map
          (fun j => (getI S.values 0 j).get)).map (fun y => y * y)).sum) := by
        unfold CSR.rowSumSq
        rw [List.map_map]
        apply Dbl.sum_congr_fin
        intro j hj
        rw [hfin j hj]
        rfl
      rw [hsumT, hsumS, hT _ hmem, hfin _ hmem]
      exact scaled_value c _ hc _
    · have hT : ∀ j ∈ rowRange S.row_ptr r,
          getI (S.scaleRow i c).values 0 j = getI S.values 0 j := by
        intro j hj
        obtain ⟨b1, b2, _⟩ := h.wf.rowRange_bounds hr hj
        rw [CSR.scaleRow_getI S i c b1 b2, if_neg]
        rintro ⟨q1, q2⟩
        exact hri (rowRange_disjoint h.wf.row_ptr_sorted hr hi hj q1 q2)
      have hsum : (S.scaleRow i c).rowSumSq r = S.rowSumSq r := by
        unfold CSR.rowSumSq
        rw [hrpT]
        congr 1
        apply List.map_congr_left
        intro j hj
        rw [hT j hj]
      rw [hsum, hT _ hmem]
  rw [hvals]
  rfl

/-- The scores of a matrix and of the matrix with one row multiplied by
`c > 0` are the same vector. -/
theorem prop_scaleRow_aux (S : CSR ℝ) (h : S.InRange) (i : Nat)
    (hi : i + 1 < S.row_ptr.length) (c : ℝ) (hc : 0 < c) (d : Dbl ℝ) (n : Nat) :
    ∃ u : List (Dbl ℝ), prop Real.sqrt S (n : Int) d = some u ∧
      u.length = S.row_ptr.length - 1 ∧
      prop Real.sqrt (S.scaleRow i c) (n : Int) d = some u := by
  obtain ⟨_, _, _, _, _, _, _, hk⟩ := prop_in_range S h d
  obtain ⟨u, e1, e2, _⟩ := hk n
  refine ⟨u, e1, e2, ?_⟩
  rw [← e1]
  unfold prop
  rw [h.normalization_scaleRow i hi c hc]

/-- A stored row of norm zero is normalized to NaN and receives a NaN score
after every number `n ≥ 1` of iterations, for every `d`. -/
theorem prop_zero_norm_row_nan (S : CSR ℝ) (h : S.InRange) (d : Dbl ℝ) (k i : Nat)
    (hi : i + 1 < S.row_ptr.length) (hne : rowRange S.row_ptr i ≠ [])
    (hzero : S.rowSumSq i = fin 0) :
    ∃ u : List (Dbl ℝ), prop Real.sqrt S ((k + 1 : Nat) : Int) d = some u ∧
      u.length = S.row_ptr.length - 1 ∧ u[i]? = some nan := by
  have hiN : i < S.row_ptr.length - 1 := by omega
  obtain ⟨S', D, h1, h4, h2, h3, hrow, hk⟩ := prop_in_range S h d
  obtain ⟨p, _, _, e3⟩ := hk k
  refine ⟨_, e3, by simp, ?_⟩
  rw [zipWith_cons_getElem? _ d _ _ i hiN]
  obtain ⟨j, hj⟩ := List.exists_mem_of_ne_nil _ hne
  have hnan : S'.rowDot ((List.range (S.row_ptr.length - 1)).map
      (S'.colDot ((List.range (S.row_ptr.length - 1)).map (D.rowDot p)))) i = nan := by
    unfold CSR.rowDot
    rw [h2]
    apply Dbl.sum_eq_nan_of_mem _ _ hj
    rw [(h.normalized_value hrow hi hj).1 hzero]
    rfl
  rw [hnan]
  simp

theorem S_disjoint_normalization :
    (S_disjoint : CSR ℝ).normalization Real.sqrt = some S_disjoint := by
  simp [CSR.normalization, S_disjoint, forEntries, forLoop, rd, wr, range_two, range_three,
    List.range_succ, Dbl.zero_def, Dbl.sqrt]
  norm_num

theorem S_zero_weight_inRange : (S_zero_weight : CSR ℝ).InRange := by
  refine ⟨⟨by decide, by decide, by decide, by decide, by decide⟩, ?_, by decide⟩
  intro v hv
  simp only [S_zero_weight, List.mem_singleton] at hv
  subst hv
  simp [Dbl.get]

theorem S_zero_weight_row : rowRange (S_zero_weight : CSR ℝ).row_ptr 0 ≠ [] ∧
    (S_zero_weight : CSR ℝ).rowSumSq 0 = fin 0 := by
  constructor
  · simp [rowRange, S_zero_weight]
  · simp [CSR.rowSumSq, rowRange, S_zero_weight, getI, rd, Dbl.zero_def, List.range_succ]

/-! ### The total of the scores -/

/-! ### Sums over the stored entries -/

theorem list_sum_comm {ι κ : Type} (l : List ι) (m : List κ) (f : ι → κ → ℝ) :
    (l.map (fun p => (m.map (fun q => f p q)).sum)).sum =
      (m.map (fun q => (l.map (fun p => f p q)).sum)).sum := by
  induction l with
  | nil => simp
  | cons a l ih =>
    simp only [List.map_cons, List.sum_cons, ih, List.sum_map_add]

theorem sum_filter_ite {ι : Type} (l : List ι) (P : ι → Prop) [DecidablePred P] (g : ι → ℝ) :
    ((l.filter (fun q => decide (P q))).map g).sum =
      (l.map (fun q => if P q then g q else 0)).sum := by
  induction l with
  | nil => rfl
  | cons a l ih =>
    by_cases h : P a
    · simp [List.filter_cons, h, ih]
    · simp [List.filter_cons, h, ih]

theorem sum_flatMap_map {ι κ : Type} (l : List ι) (f : ι → List κ) (g : κ → ℝ) :
    ((l.flatMap f).map g).sum = (l.map (fun i => ((f i).map g).sum)).sum := by
  induction l with
  | nil => rfl
  | cons a l ih =>
    simp only [List.flatMap_cons, List.map_append, List.sum_append, ih, List.map_cons,
      List.sum_cons]

/-- The symmetry of `S * S^T`: the sum over the entries `p` of
`v p * (S^T w)[col p]` is the sum of `w p * v p * (S^T 1)[col p]`. -/
theorem sum_symm {ι : Type} (E : List ι) (cc : ι → Nat) (v w : ι → ℝ) :
    (E.map (fun p => v p *
        ((E.filter (fun q => decide (cc q = cc p))).map (fun q => v q * w q)).sum)).sum =
      (E.map (fun p => w p * (v p *
        ((E.filter (fun q => decide (cc q = cc p))).map (fun q => v q * 1)).sum))).sum := by
  have h1 : ∀ p, v p * ((E.filter (fun q => decide (cc q = cc p))).map
      (fun q => v q * w q)).sum =
      (E.map (fun q => if cc q = cc p then v p * v q * w q else 0)).sum := by
    intro p
    rw [sum_filter_ite E (fun q => cc q = cc p), ← List.sum_map_mul_left]
    congr 1
    apply List.map_congr_left
    intro q _
    split <;> ring
  have h2 : ∀ p, w p * (v p * ((E.filter (fun q => decide (cc q = cc p))).map
      (fun q => v q * 1)).sum) =
      (E.map (fun q => if cc p = cc q then v q * v p * w p else 0)).sum := by
    intro p
    rw [sum_filter_ite E (fun q => cc q = cc p), ← List.sum_map_mul_left,
      ← List.sum_map_mul_left]
    congr 1
    apply List.map_congr_left
    intro q _
    by_cases h : cc q = cc p
    · rw [if_pos h, if_pos h.symm]; ring
    · rw [if_neg h, if_neg (fun h' => h h'.symm)]; ring
  simp only [h1, h2]
  exact list_sum_comm E E (fun p q => if cc q = cc p then v p * v q * w q else 0)

theorem eq_map_range {β : Type} (l : List β) (dflt : β) :
    l = (List.range l.length).map (fun (i : Nat) => l[i]?.getD dflt) := by
  apply List.ext_getElem (by simp)
  intro k h1 h2
  simp [List.getElem?_eq_getElem h1]

theorem sum_map_get_range (l : List (Dbl ℝ)) :
    (l.map Dbl.get).sum = ((List.range l.length).map (fun (i : Nat) => (l[i]?.getD 0).get)).sum := by
  conv_lhs => rw [eq_map_range l 0]
  rw [List.map_map]
  rfl

theorem nzCount_all {dv : List (Dbl ℝ)} (h : ∀ v ∈ dv, ne_zero v = true) :
    ∀ k : Nat, k ≤ dv.length → nzCount dv k = (k : Int) := by
  intro k
  induction k with
  | zero => intro _; simp [nzCount]
  | succ k ih =>
    intro hk
    have hk' : k < dv.length := by omega
    rw [nzCount_succ, ih (by omega), List.getElem?_eq_getElem hk']
    simp only [Option.getD_some]
    rw [if_pos (h _ (List.getElem_mem hk'))]
    push_cast
    rfl

/-- When every degree is a number `≥ 1`, `CSR::inv_diag` returns the diagonal
matrix of the inverses of the degrees. -/
theorem CSR.inv_diag_diagonal (M : CSR ℝ) (hwf : M.WellFormed)
    (hcol : ∀ c ∈ M.col_idx, c < (M.row_ptr.length : Int) - 1)
    (hdeg : ∀ v ∈ M.degree, ∃ x : ℝ, v = fin x ∧ 1 ≤ x) :
    M.inv_diag = some
      { values := M.degree.map (fun x => 1 / x)
        row_ptr := (List.range (M.row_ptr.length - 1 + 1)).map (fun (k : Nat) => (k : Int))
        col_idx := (List.range (M.row_ptr.length - 1)).map (fun (k : Nat) => (k : Int)) } := by
  have hlen : M.degree.length = M.row_ptr.length - 1 := by simp [CSR.degree]
  have hnz : ∀ v ∈ M.degree, ne_zero v = true := by
    intro v hv
    obtain ⟨x, rfl, hx⟩ := hdeg v hv
    have : x ≠ 0 := by linarith
    simp [ne_zero, this]
  have hkeep : ∀ v ∈ M.degree, (!fabs_lt_eps v) = true := by
    intro v hv
    rw [← tests_agree v (Or.inr (Or.inr (hdeg v hv)))]
    exact hnz v hv
  rw [CSR.inv_diag_eq M hwf hcol]
  congr 2
  · rw [List.filter_eq_self.2 hkeep]
  · rw [List.range_succ, List.map_append, List.map_singleton,
      nzCount_all hnz _ (le_of_eq hlen.symm)]
    congr 1
    apply List.map_congr_left
    intro k hk
    exact nzCount_all hnz k (by have := List.mem_range.1 hk; omega)
  · congr 1
    apply List.filter_eq_self.2
    intro k hk
    have hk' : k < M.degree.length := by have := List.mem_range.1 hk; omega
    rw [List.getElem?_eq_getElem hk']
    exact hnz _ (List.getElem_mem hk')

/-- A row of the diagonal matrix of `inv_diag_diagonal` times a vector. -/
theorem diagonal_rowDot (vals p : List (Dbl ℝ)) (N i : Nat) (hi : i < N) :
    ({ values := vals
       row_ptr := (List.range (N + 1)).map (fun (k : Nat) => (k : Int))
       col_idx := (List.range N).map (fun (k : Nat) => (k : Int)) } : CSR ℝ).rowDot p i =
      vals[i]?.getD 0 * p[i]?.getD 0 := by
  unfold CSR.rowDot rowRange
  have h0 : ((List.range (N + 1)).map (fun (k : Nat) => (k : Int))).getD i 0 = (i : Int) := by
    rw [List.getD_eq_getElem _ _ (by simp; omega)]
    simp
  have h1 : ((List.range (N + 1)).map (fun (k : Nat) => (k : Int))).getD (i + 1) 0 =
      ((i + 1 : Nat) : Int) := by
    rw [List.getD_eq_getElem _ _ (by simp; omega)]
    simp
  simp only [h0, h1]
  have h2 : (((i + 1 : Nat) : Int) - (i : Int)).toNat = 1 := by omega
  rw [h2, show List.range 1 = [0] from rfl]
  simp only [List.map_cons, List.map_nil, List.sum_cons, List.sum_nil,
    add_zero, Nat.cast_zero]
  rw [getI_natCast, getI_natCast, List.getElem?_map, List.getElem?_range hi]
  simp only [Option.map_some', Option.getD_some]
  rw [getI_natCast]

theorem Dbl.get_fin (x : ℝ) : (fin x : Dbl ℝ).get = x := rfl

theorem entries_eq_flatMap_rowRange (rp : List Int) :
    entries rp = (List.range (rp.length - 1)).flatMap
      (fun (i : Nat) => (rowRange rp i).map (fun j => ((i : Int), j))) := by
  unfold entries rowRange
  congr 1
  funext i
  rw [List.map_map]
  rfl

/-- The number in entry `i` of `M.prod(vec)` for a vector of finite entries
`f 0, ..., f (N-1)`. -/
theorem CSR.rowDot_get (S : CSR ℝ) (hwf : S.WellFormed)
    (hcol : ∀ c ∈ S.col_idx, c < (S.row_ptr.length : Int) - 1)
    (hval : ∀ v ∈ S.values, v = fin v.get) (f : Nat → Dbl ℝ)
    (hf : ∀ c : Nat, c < S.row_ptr.length - 1 → f c = fin (f c).get) (i : Nat)
    (hi : i + 1 < S.row_ptr.length) :
    S.rowDot ((List.range (S.row_ptr.length - 1)).map f) i =
      fin (((rowRange S.row_ptr i).map (fun j =>
        (getI S.values 0 j).get * (f (getI S.col_idx 0 j).toNat).get)).sum) := by
  have hvec : ∀ v ∈ (List.range (S.row_ptr.length - 1)).map f, v = fin v.get := by
    intro v hv
    obtain ⟨c, hc, rfl⟩ := List.mem_map.1 hv
    exact hf c (List.mem_range.1 hc)
  rw [CSR.rowDot_fin S _ hwf (by intro c hc; have := hcol c hc; simp; omega) hval hvec hi]
  congr 2
  apply List.map_congr_left
  intro j hj
  obtain ⟨_, _, b3⟩ := hwf.rowRange_bounds hi hj
  have hc0 := hwf.col_idx_nonneg _ b3
  have hc1 := hcol _ b3
  obtain ⟨c, hc⟩ := Int.eq_ofNat_of_zero_le hc0
  have hcN : c < S.row_ptr.length - 1 := by omega
  rw [hc, getI_natCast, List.getElem?_map, List.getElem?_range hcN]
  simp

/-- The symmetry of `S * S^T` on the stored entries: the entries of
`S.prod(S.prod_t(a))` add up to the sum of `a[i]` times the degree of row
`i`. -/
theorem CSR.Normalized.sum_rows {S : CSR ℝ} (h : S.Normalized) (a : List (Dbl ℝ))
    (ha : a.length = S.row_ptr.length - 1) (hafin : ∀ v ∈ a, v = fin v.get) :
    ((List.range (S.row_ptr.length - 1)).map (fun (i : Nat) =>
      (S.rowDot ((List.range (S.row_ptr.length - 1)).map (S.colDot a)) i).get)).sum =
    ((List.range (S.row_ptr.length - 1)).map (fun (i : Nat) =>
      (a[i]?.getD 0).get * (S.degree[i]?.getD 0).get)).sum := by
  have hval : ∀ v ∈ S.values, v = fin v.get := fun v hv => (h.nonneg v hv).1
  set ones : List (Dbl ℝ) := List.replicate (S.row_ptr.length - 1) 1 with hones
  have hones_fin : ∀ v ∈ ones, v = fin v.get := by
    intro v hv
    rw [List.eq_of_mem_replicate hv]
    rfl
  have honesAt : ∀ p ∈ entries S.row_ptr, getI ones 0 p.1 = 1 := by
    intro p hp
    obtain ⟨q1, q2, _, _⟩ := h.wf.bounds hp
    exact List.eq_of_mem_replicate (getI_mem ones 0 q1 (by simp [hones]; omega))
  -- the two column sums
  have hB : ∀ c : Nat, S.colDot a c = fin ((((entries S.row_ptr).filter
      (fun q => decide ((getI S.col_idx 0 q.2).toNat = c))).map
      (fun q => (getI S.values 0 q.2).get * (getI a 0 q.1).get)).sum) :=
    fun c => CSR.colDot_fin S a h.wf (le_of_eq ha.symm) hval hafin c
  have hT : ∀ c : Nat, S.colDot ones c = fin ((((entries S.row_ptr).filter
      (fun q => decide ((getI S.col_idx 0 q.2).toNat = c))).map
      (fun q => (getI S.values 0 q.2).get * 1)).sum) := by
    intro c
    rw [CSR.colDot_fin S ones h.wf (by simp [hones]) hval hones_fin c]
    congr 2
    apply List.map_congr_left
    intro q hq
    rw [honesAt q (List.mem_filter.1 hq).1]
    rfl
  -- both sides as sums over the stored entries
  have hL : ∀ i ∈ List.range (S.row_ptr.length - 1),
      (S.rowDot ((List.range (S.row_ptr.length - 1)).map (S.colDot a)) i).get =
      (((rowRange S.row_ptr i).map (fun j => ((i : Int), j))).map
        (fun p => (getI S.values 0 p.2).get *
          (((entries S.row_ptr).filter (fun q => decide ((getI S.col_idx 0 q.2).toNat =
            (getI S.col_idx 0 p.2).toNat))).map
            (fun q => (getI S.values 0 q.2).get * (getI a 0 q.1).get)).sum)).sum := by
    intro i hi
    have hi' : i + 1 < S.row_ptr.length := by have := List.mem_range.1 hi; omega
    rw [CSR.rowDot_get S h.wf h.col_lt hval (S.colDot a)
      (fun c _ => by rw [hB c]; rfl) i hi', List.map_map, Dbl.get_fin]
    congr 1
    apply List.map_congr_left
    intro j _
    simp only [Function.comp_apply, hB, Dbl.get_fin]
  have hR : ∀ i ∈ List.range (S.row_ptr.length - 1),
      (a[i]?.getD 0).get * (S.degree[i]?.getD 0).get =
      (((rowRange S.row_ptr i).map (fun j => ((i : Int), j))).map
        (fun p => (getI a 0 p.1).get * ((getI S.values 0 p.2).get *
          (((entries S.row_ptr).filter (fun q => decide ((getI S.col_idx 0 q.2).toNat =
            (getI S.col_idx 0 p.2).toNat))).map
            (fun q => (getI S.values 0 q.2).get * 1)).sum))).sum := by
    intro i hi
    have hiN := List.mem_range.1 hi
    have hi' : i + 1 < S.row_ptr.length := by omega
    have hdeg : S.degree[i]?.getD 0 = S.rowDot ((List.range (S.row_ptr.length - 1)).map
        (S.colDot ones)) i := by
      unfold CSR.degree
      rw [List.getElem?_map, List.getElem?_range hiN]
      rfl
    rw [hdeg, CSR.rowDot_get S h.wf h.col_lt hval (S.colDot ones)
      (fun c _ => by rw [hT c]; rfl) i hi', List.map_map, Dbl.get_fin,
      ← List.sum_map_mul_left]
    congr 1
    apply List.map_congr_left
    intro j _
    simp only [Function.comp_apply, hT, getI_natCast, Dbl.get_fin]
  rw [List.map_congr_left hL, List.map_congr_left hR]
  rw [← sum_flatMap_map (List.range (S.row_ptr.length - 1))
      (fun (i : Nat) => (rowRange S.row_ptr i).map (fun j => ((i : Int), j))),
    ← sum_flatMap_map (List.range (S.row_ptr.length - 1))
      (fun (i : Nat) => (rowRange S.row_ptr i).map (fun j => ((i : Int), j))),
    ← entries_eq_flatMap_rowRange]
  exact sum_symm (entries S.row_ptr) (fun p => (getI S.col_idx 0 p.2).toNat)
    (fun p => (getI S.values 0 p.2).get) (fun p => (getI a 0 p.1).get)

theorem CSR.PositiveRows.noZeroRow {S : CSR ℝ} (h : S.InRange) (hpos : S.PositiveRows) :
    S.NoZeroRow := by
  intro i hi _ h0
  obtain ⟨j, hj, hx⟩ := hpos i hi
  rw [CSR.rowSumSq_fin h.wf (fun v hv => (h.nonneg v hv).1) hi] at h0
  have h0 : ((rowRange S.row_ptr i).map
      (fun j => (getI S.values 0 j).get * (getI S.values 0 j).get)).sum = 0 := Dbl.fin.inj h0
  have hle := List.single_le_sum (l := (rowRange S.row_ptr i).map
      (fun j => (getI S.values 0 j).get * (getI S.values 0 j).get)) (by
    intro x hx
    obtain ⟨k, _, rfl⟩ := List.mem_map.1 hx
    exact mul_self_nonneg _) _ (List.mem_map.2 ⟨j, hj, rfl⟩)
  have := mul_pos hx hx
  linarith

theorem CSR.Normalized.toRowScaled {S : CSR ℝ} (h : S.Normalized) : S.RowScaled :=
  ⟨h.wf, fun v hv => Or.inr (h.nonneg v hv), h.col_lt,
    fun i hi hne => Or.inr (h.unit i hi hne)⟩

/-- In a normalized matrix without empty rows every degree is a number `≥ 1`. -/
theorem CSR.Normalized.degree_ge_one {S : CSR ℝ} (h : S.Normalized)
    (hne : ∀ i : Nat, i + 1 < S.row_ptr.length → rowRange S.row_ptr i ≠ []) :
    ∀ v ∈ S.degree, ∃ x : ℝ, v = fin x ∧ 1 ≤ x := by
  intro v hv
  have hfin := (h.degree_cases v hv).1
  obtain ⟨i, hi, rfl⟩ := List.getElem_of_mem hv
  have hlen : S.degree.length = S.row_ptr.length - 1 := by simp [CSR.degree]
  have hget : S.degree[i]?.getD 0 = S.degree[i] := by
    rw [List.getElem?_eq_getElem hi]; rfl
  rcases h.toRowScaled.degree_nan_zero_or_ge_one i (by omega) with e | ⟨e, _⟩ | ⟨_, x, e, hx⟩
  · rw [hget] at e
    rw [e] at hfin
    exact absurd hfin (by simp)
  · exact absurd e (hne i (by omega))
  · exact ⟨x, by rw [← hget]; exact e, hx⟩

theorem sum_affine (N : Nat) (R : Nat → ℝ) (c e : ℝ) :
    ((List.range N).map (fun i => c + R i * e)).sum =
      c * (N : ℝ) + e * ((List.range N).map R).sum := by
  induction N with
  | zero => simp
  | succ N ih =>
    rw [List.range_succ, List.map_append, List.sum_append, ih, List.map_append, List.sum_append]
    simp only [List.map_cons, List.map_nil, List.sum_cons, List.sum_nil, Nat.cast_succ]
    ring

/-- One pass of the loop of `LexRank::prop` on a normalized matrix without
empty rows maps scores of total `s` to scores of total `cons * N + (1 - d) * s`. -/
theorem CSR.Normalized.step_sum {S' : CSR ℝ} (h : S'.Normalized)
    (hne : ∀ i : Nat, i + 1 < S'.row_ptr.length → rowRange S'.row_ptr i ≠ [])
    (d cons : ℝ) (p : List (Dbl ℝ)) (hp : p.length = S'.row_ptr.length - 1)
    (hpfin : ∀ v ∈ p, v = fin v.get) :
    ∃ D : CSR ℝ, S'.inv_diag = some D ∧ D.WellFormed ∧
      D.row_ptr.length = S'.row_ptr.length ∧
      (∀ c ∈ D.col_idx, c < (S'.row_ptr.length : Int) - 1) ∧
      ∃ u : List (Dbl ℝ),
        List.zipWith (fun cv x => cv + x) (List.replicate (S'.row_ptr.length - 1) (fin cons))
          (((List.range (S'.row_ptr.length - 1)).map
            (S'.rowDot ((List.range (S'.row_ptr.length - 1)).map
              (S'.colDot ((List.range (S'.row_ptr.length - 1)).map (D.rowDot p)))))).map
            (fun x => x * (1 - fin d))) = u ∧
        u.length = S'.row_ptr.length - 1 ∧ (∀ v ∈ u, v = fin v.get) ∧
        (u.map Dbl.get).sum =
          cons * ((S'.row_ptr.length - 1 : Nat) : ℝ) + (1 - d) * (p.map Dbl.get).sum := by
  have hval : ∀ v ∈ S'.values, v = fin v.get := fun v hv => (h.nonneg v hv).1
  have hdeg := h.degree_ge_one hne
  have hdlen : S'.degree.length = S'.row_ptr.length - 1 := by simp [CSR.degree]
  obtain ⟨D', hD', hDwf, hD5, hD6, _⟩ := h.inv_diag
  have hDeq := CSR.inv_diag_diagonal S' h.wf h.col_lt hdeg
  rw [hD'] at hDeq
  have hDeq := Option.some.inj hDeq
  subst hDeq
  -- the vector `a = D.prod(p)`
  have hA : ∀ i : Nat, i < S'.row_ptr.length - 1 →
      CSR.rowDot { values := S'.degree.map (fun x => 1 / x)
                   row_ptr := (List.range (S'.row_ptr.length - 1 + 1)).map
                     (fun (k : Nat) => (k : Int))
                   col_idx := (List.range (S'.row_ptr.length - 1)).map
                     (fun (k : Nat) => (k : Int)) } p i =
        fin ((p[i]?.getD 0).get / (S'.degree[i]?.getD 0).get) ∧
        1 ≤ (S'.degree[i]?.getD 0).get := by
    intro i hi
    have hi1 : i < S'.degree.length := by omega
    have hi2 : i < p.length := by omega
    obtain ⟨x, hx, hx1⟩ := hdeg _ (List.getElem_mem hi1)
    have hx0 : x ≠ 0 := by linarith
    rw [diagonal_rowDot _ p _ i hi, List.getElem?_map, List.getElem?_eq_getElem hi1,
      List.getElem?_eq_getElem hi2]
    simp only [Option.map_some', Option.getD_some]
    rw [hx, hpfin _ (List.getElem_mem hi2), Dbl.one_def, Dbl.fin_div_fin_of_ne _ hx0]
    refine ⟨?_, hx1⟩
    simp only [Dbl.fin_mul_fin, Dbl.get_fin]
    congr 1
    field_simp
  set a : List (Dbl ℝ) := (List.range (S'.row_ptr.length - 1)).map
    (CSR.rowDot { values := S'.degree.map (fun x => 1 / x)
                  row_ptr := (List.range (S'.row_ptr.length - 1 + 1)).map
                    (fun (k : Nat) => (k : Int))
                  col_idx := (List.range (S'.row_ptr.length - 1)).map
                    (fun (k : Nat) => (k : Int)) } p) with ha
  have halen : a.length = S'.row_ptr.length - 1 := by simp [ha]
  have hafin : ∀ v ∈ a, v = fin v.get := by
    intro v hv
    obtain ⟨i, hi, rfl⟩ := List.mem_map.1 hv
    rw [(hA i (List.mem_range.1 hi)).1]
    rfl
  have hR : ∀ i : Nat, i < S'.row_ptr.length - 1 →
      S'.rowDot ((List.range (S'.row_ptr.length - 1)).map (S'.colDot a)) i =
        fin (S'.rowDot ((List.range (S'.row_ptr.length - 1)).map (S'.colDot a)) i).get := by
    intro i hi
    rw [CSR.rowDot_get S' h.wf h.col_lt hval (S'.colDot a) (fun c _ => by
      rw [CSR.colDot_fin S' a h.wf (le_of_eq halen.symm) hval hafin c]
      rfl) i (by omega)]
    rfl
  have hu : ∀ i : Nat, i < S'.row_ptr.length - 1 →
      (List.zipWith (fun cv x => cv + x) (List.replicate (S'.row_ptr.length - 1) (fin cons))
        (((List.range (S'.row_ptr.length - 1)).map
          (S'.rowDot ((List.range (S'.row_ptr.length - 1)).map (S'.colDot a)))).map
          (fun x => x * (1 - fin d))))[i]? =
        some (fin (cons +
          (S'.rowDot ((List.range (S'.row_ptr.length - 1)).map (S'.colDot a)) i).get *
            (1 - d))) := by
    intro i hi
    rw [zipWith_cons_getElem? _ (fin d) _ _ i hi, hR i hi]
    rfl
  refine ⟨_, hD', hDwf, hD5, hD6, _, rfl, by simp, ?_, ?_⟩
  · intro v hv
    obtain ⟨i, hi, rfl⟩ := List.getElem_of_mem hv
    have hi' : i < S'.row_ptr.length - 1 := by simpa using hi
    have := hu i hi'
    rw [List.getElem?_eq_getElem hi] at this
    rw [Option.some.inj this]
    rfl
  · rw [sum_map_get_range]
    have hlenu : (List.zipWith (fun cv x => cv + x)
        (List.replicate (S'.row_ptr.length - 1) (fin cons))
        (((List.range (S'.row_ptr.length - 1)).map
          (S'.rowDot ((List.range (S'.row_ptr.length - 1)).map (S'.colDot a)))).map
          (fun x => x * (1 - fin d)))).length = S'.row_ptr.length - 1 := by simp
    rw [hlenu]
    have e1 : (List.range (S'.row_ptr.length - 1)).map (fun (i : Nat) =>
        ((List.zipWith (fun cv x => cv + x)
          (List.replicate (S'.row_ptr.length - 1) (fin cons))
          (((List.range (S'.row_ptr.length - 1)).map
            (S'.rowDot ((List.range (S'.row_ptr.length - 1)).map (S'.colDot a)))).map
            (fun x => x * (1 - fin d))))[i]?.getD 0).get) =
        (List.range (S'.row_ptr.length - 1)).map (fun (i : Nat) => cons +
          (S'.rowDot ((List.range (S'.row_ptr.length - 1)).map (S'.colDot a)) i).get *
            (1 - d)) := by
      apply List.map_congr_left
      intro i hi
      rw [hu i (List.mem_range.1 hi)]
      rfl
    rw [e1, sum_affine, h.sum_rows a halen hafin]
    congr 2
    rw [sum_map_get_range, hp]
    congr 1
    apply List.map_congr_left
    intro i hi
    have hi' := List.mem_range.1 hi
    obtain ⟨g1, g2⟩ := hA i hi'
    have hai : a[i]?.getD 0 = fin ((p[i]?.getD 0).get / (S'.degree[i]?.getD 0).get) := by
      rw [ha, List.getElem?_map, List.getElem?_range hi']
      exact g1
    rw [hai, Dbl.get_fin]
    have : (S'.degree[i]?.getD 0).get ≠ 0 := by linarith
    field_simp

/-- The total of the scores: on an input with `N ≥ 1` items, weights `≥ 0`,
a strictly positive weight in every record and feature ids below `N`, the
scores after `n` iterations are finite and add up to `1 - (1 - d)^(n + 1)`. -/
theorem prop_sum_aux (S : CSR ℝ) (h : S.InRange) (hpos : S.PositiveRows)
    (hN : 1 < S.row_ptr.length) (d : ℝ) (n : Nat) :
    ∃ u : List (Dbl ℝ), prop Real.sqrt S (n : Int) (fin d) = some u ∧
      u.length = S.row_ptr.length - 1 ∧ (∀ v ∈ u, v = fin v.get) ∧
      (u.map Dbl.get).sum = 1 - (1 - d) ^ (n + 1) := by
  have hz := hpos.noZeroRow h
  obtain ⟨S', g1, g2, g3, hS'⟩ := h.normalization hz
  have hne : ∀ i : Nat, i + 1 < S'.row_ptr.length → rowRange S'.row_ptr i ≠ [] := by
    intro i hi
    rw [g2] at hi ⊢
    obtain ⟨j, hj, _⟩ := hpos i hi
    exact List.ne_nil_of_mem hj
  have hNpos : (0 : ℝ) < ((S.row_ptr.length - 1 : Nat) : ℝ) := by
    have : 0 < S.row_ptr.length - 1 := by omega
    exact_mod_cast this
  have hcast : (((S.row_ptr.length : Int) - 1 : Int) : ℝ) = ((S.row_ptr.length - 1 : Nat) : ℝ) := by
    have : ((S.row_ptr.length : Int) - 1 : Int) = ((S.row_ptr.length - 1 : Nat) : Int) := by omega
    rw [this]; simp
  have hcons : (fin d / fin (((S.row_ptr.length : Int) - 1 : Int) : ℝ) : Dbl ℝ) =
      fin (d / ((S.row_ptr.length - 1 : Nat) : ℝ)) := by
    rw [hcast, Dbl.fin_div_fin_of_ne _ hNpos.ne']
  induction n with
  | zero =>
    have h0 := prop_zero_iterations Real.sqrt S h.wf h.col_lt (fin d)
    rw [hcons] at h0
    refine ⟨_, by simpa using h0, by simp, ?_, ?_⟩
    · intro v hv
      rw [List.eq_of_mem_replicate hv]
      rfl
    · rw [List.map_replicate, List.sum_replicate, Dbl.get_fin, nsmul_eq_mul, mul_div_assoc',
        mul_div_cancel_left₀ d hNpos.ne']
      ring
  | succ k ih =>
    obtain ⟨p, e1, e2, e3, e4⟩ := ih
    obtain ⟨D, hD, hDwf, hD5, hD6, u, hu, hu1, hu2, hu3⟩ :=
      hS'.step_sum hne d (d / ((S.row_ptr.length - 1 : Nat) : ℝ)) p (by rw [g2]; exact e2) e3
    obtain ⟨p', f1, _, f3⟩ := prop_total Real.sqrt S S' D g1 hD hS'.wf hS'.col_lt hDwf hD5 hD6
      (fin d) k
    rw [e1] at f1
    have hpp := Option.some.inj f1
    subst hpp
    have hnf : ((S'.get_nfile : Int) : ℝ) = (((S.row_ptr.length : Int) - 1 : Int) : ℝ) := by
      unfold CSR.get_nfile; rw [g2]
    rw [hnf, hcons, hu] at f3
    rw [g2] at hu1 hu3
    refine ⟨u, f3, hu1, hu2, ?_⟩
    rw [hu3, e4, div_mul_cancel₀ d hNpos.ne']
    ring

/-! ## The claims on the damping factor, `csr_matrix`, `inv_diag`, `prod_t` and the scores -/

/-- C3, as stated, fails: for the record `"1,0:0"` (one item, a stored weight
0) and `d = 1`, one iteration returns a NaN score, not the uniform value
`1/N = 1`. -/
theorem C3_counterexample_zero_weight_row :
    prop Real.sqrt (S_zero_weight : CSR ℝ) 1 (fin 1) = some [nan] ∧
      prop Real.sqrt (S_zero_weight : CSR ℝ) 1 (fin 1) ≠
        some (List.replicate 1 (fin (1 / 1))) := by
  have h := S_zero_weight_prop (fin 1) 0
  have e : ((0 : Nat) : Int) + 1 = 1 := rfl
  rw [e] at h
  rw [h]
  exact ⟨rfl, by simp⟩

/-- C3 (amended), in exact arithmetic: for `d = 1` and every feature matrix
`S` with `N` rows whose feature ids lie in `[0, N)` and whose weights are
finite and `≥ 0`: when no row that stores an entry has norm zero,
`LexRank::prop` returns, for every `n ≥ 0`, the uniform vector whose entries
are `1/N`; and a row that stores an entry and has norm zero receives a NaN
score for every `n ≥ 1`. -/
theorem C3_prop_damping_one (S : CSR ℝ) (h : S.InRange) (n : Nat) :
    (S.NoZeroRow →
      prop Real.sqrt S (n : Int) (fin 1) =
        some (List.replicate (S.row_ptr.length - 1)
          (fin (1 / ((S.row_ptr.length - 1 : Nat) : ℝ))))) ∧
    (∀ i : Nat, i + 1 < S.row_ptr.length → rowRange S.row_ptr i ≠ [] →
      S.rowSumSq i = fin 0 →
      ∃ u : List (Dbl ℝ), prop Real.sqrt S ((n + 1 : Nat) : Int) (fin 1) = some u ∧
        u.length = S.row_ptr.length - 1 ∧ u[i]? = some nan) :=
  ⟨fun hz => prop_damping_one_aux S h hz n,
    fun i hi hne hzero => prop_zero_norm_row_nan S h (fin 1) n i hi hne hzero⟩

/-- C3 (amended) on the records `"1,0:1"`, `"2,0:1"`, `"3"` with `n = 3`, where
no stored row has norm zero, and on the record `"1,0:0"`, whose row has norm
zero. -/
theorem C3_prop_damping_one_witness :
    ((S_shared : CSR ℝ).InRange ∧ (S_shared : CSR ℝ).NoZeroRow ∧
      prop Real.sqrt (S_shared : CSR ℝ) ((3 : Nat) : Int) (fin 1) =
        some (List.replicate ((S_shared : CSR ℝ).row_ptr.length - 1)
          (fin (1 / (((S_shared : CSR ℝ).row_ptr.length - 1 : Nat) : ℝ))))) ∧
    ((S_zero_weight : CSR ℝ).InRange ∧ rowRange (S_zero_weight : CSR ℝ).row_ptr 0 ≠ [] ∧
      (S_zero_weight : CSR ℝ).rowSumSq 0 = fin 0 ∧
      ∃ u : List (Dbl ℝ),
        prop Real.sqrt (S_zero_weight : CSR ℝ) ((3 + 1 : Nat) : Int) (fin 1) = some u ∧
        u.length = (S_zero_weight : CSR ℝ).row_ptr.length - 1 ∧ u[0]? = some nan) :=
  ⟨⟨S_shared_inRange, S_shared_noZeroRow,
      (C3_prop_damping_one S_shared S_shared_inRange 3).1 S_shared_noZeroRow⟩,
    ⟨S_zero_weight_inRange, S_zero_weight_row.1, S_zero_weight_row.2,
      (C3_prop_damping_one S_zero_weight S_zero_weight_inRange 3).2 0 (by decide)
        S_zero_weight_row.1 S_zero_weight_row.2⟩⟩

/-- C11 (code bug): for the well-formed `1 × 1` matrix with the value `2^-30`
the matrix that `CSR::inv_diag` returns breaks the invariant: its last offset
is 1 and its `col_idx` has one entry, and its `values` is empty. -/
theorem C11_inv_diag_breaks_invariant :
    (S_tiny : CSR ℝ).WellFormed ∧
      ∃ D : CSR ℝ, (S_tiny : CSR ℝ).inv_diag = some D ∧
        D.row_ptr.getLast? = some 1 ∧ D.col_idx.length = 1 ∧ D.values.length = 0 ∧
        ¬ D.WellFormed := by
  refine ⟨S_tiny_wf, _, S_tiny_inv_diag, rfl, rfl, rfl, ?_⟩
  intro h
  exact absurd h.col_idx_length (by decide)

/-- C12, as stated, fails: all the pairs of the record `"5,1:nan"` parse
(`std::stod` returns a NaN for the token `nan`), the NaN is not less than
zero and `csr_matrix` stores it: a stored value that is not `≥ 0`. -/
theorem C12_counterexample_nan_weight :
    PairsParse stoi10 (stod10 : List Char → Parsed (Weight ℝ)) "5,1:nan".toList ∧
    ∃ (S : CSR ℝ) (ids : List Int),
      csr_matrix stoi10 stod10 ["5,1:nan".toList] = some (S, ids) ∧
      S.values = [Dbl.nan] ∧ ¬ ∀ v ∈ S.values, ∃ x : ℝ, v = fin x ∧ 0 ≤ x := by
  refine ⟨nan_weight_parses, _, _, nan_weight_example, rfl, ?_⟩
  intro h
  obtain ⟨x, hx, _⟩ := h Dbl.nan (List.mem_singleton.2 rfl)
  exact absurd hx (by simp)

/-- C12 (amended): on a file in which every element has a `":"` and no number
is out of range, `csr_matrix` returns a matrix in which the row of every
record whose pairs all parse holds, in the order of the record, exactly the
pairs whose weight is not strictly less than zero; every stored value is a
weight that passed that test: a number `≥ 0`, or the non-finite value for the
tokens `nan` and `inf`. -/
theorem C12_negative_weights_dropped (stoi : List Char → Parsed Int)
    (stod : List Char → Parsed (Weight ℝ)) (lines : List (List Char))
    (h : ∀ line ∈ lines, NoOutOfRange stoi stod line) :
    ∃ (S : CSR ℝ) (ids : List Int), csr_matrix stoi stod lines = some (S, ids) ∧
      (∀ (k : Nat) (hk : k < lines.length), PairsParse stoi stod lines[k] →
        S.rowPairs k = keptPairs stoi stod lines[k]) ∧
      (∀ v ∈ S.values, ∃ w : Weight ℝ, v = w.toDbl ∧ w.lt_zero = false) ∧
      (∀ v ∈ S.values, v = Dbl.nan ∨ ∃ x : ℝ, v = fin x ∧ 0 ≤ x) :=
  csr_matrix_of_noOutOfRange stoi stod lines h

/-- C12, the record of the spec: `"5,1:0.8,2:-0.3,3:0.2"` gives a row with
exactly the entries (1, 0.8) and (3, 0.2); feature 2 is not in `col_idx`. -/
theorem C12_negative_weights_dropped_witness :
    (∀ line ∈ ["5,1:0.8,2:-0.3,3:0.2".toList],
      NoOutOfRange stoi10 (stod10 : List Char → Parsed (Weight ℝ)) line) ∧
    PairsParse stoi10 (stod10 : List Char → Parsed (Weight ℝ))
      "5,1:0.8,2:-0.3,3:0.2".toList ∧
    ∃ (S : CSR ℝ) (ids : List Int),
      csr_matrix stoi10 stod10 ["5,1:0.8,2:-0.3,3:0.2".toList] = some (S, ids) ∧
      S.rowPairs 0 = [(1, fin (8 / 10)), (3, fin (2 / 10))] ∧
      (2 : Int) ∉ S.col_idx ∧
      (∀ v ∈ S.values, v = Dbl.nan ∨ ∃ x : ℝ, v = fin x ∧ 0 ≤ x) := by
  refine ⟨record_example_noOutOfRange, record_example_parses, ?_⟩
  obtain ⟨S, ids, h1, h2, _, h4⟩ := C12_negative_weights_dropped stoi10 stod10
    ["5,1:0.8,2:-0.3,3:0.2".toList] record_example_noOutOfRange
  refine ⟨S, ids, h1, ?_, ?_, h4⟩
  · rw [h2 0 (by simp) record_example_parses]
    exact record_example_kept
  · rw [record_example_matrix] at h1
    simp only [Option.some.injEq, Prod.mk.injEq] at h1
    rw [← h1.1]
    decide

/-- C13 (code bug): on the lines `"abc,1:0.5"` and `"7,0:1"`, the first with
an identifier that does not parse, `csr_matrix` returns a matrix with two
rows and a `file_ids` with the single identifier 7: the line with the
malformed identifier emits a row, and the row count and the number of
identifiers differ. -/
theorem C13_malformed_id_keeps_row :
    ∃ (S : CSR ℝ) (ids : List Int),
      csr_matrix stoi10 stod10 ["abc,1:0.5".toList, "7,0:1".toList] = some (S, ids) ∧
      S = { values := [fin (5 / 10), fin 1], row_ptr := [0, 1, 2], col_idx := [1, 0] } ∧
      ids = [7] ∧ S.get_nfile = 2 ∧ (ids.length : Int) ≠ S.get_nfile :=
  ⟨_, _, malformed_id_example, rfl, rfl, by decide, by decide⟩

/-- C14 (code bug): on the line `"1,99999999999:1"`, whose feature id is out of
the range of `int`, `csr_matrix` stores nothing and still counts the pair:
the returned matrix has `row_ptr = [0, 1]` and no value, so that the last
offset is not the number of stored values. -/
theorem C14_out_of_range_breaks_invariant :
    ∃ (S : CSR ℝ) (ids : List Int),
      csr_matrix stoi10 stod10 ["1,99999999999:1".toList] = some (S, ids) ∧
      S = { values := [], row_ptr := [0, 1], col_idx := [] } ∧
      S.row_ptr.getLast? = some 1 ∧ S.values.length = 0 ∧ ¬ S.WellFormed := by
  refine ⟨_, _, out_of_range_example, rfl, rfl, rfl, ?_⟩
  intro h
  exact absurd h.row_ptr_last (by decide)

/-- C15 (code bug): on the line `"1,99999999999:1,2:3"` the pair after the one
whose feature id is out of the range of `int` is stored: `csr_matrix` returns
`values = [3]` and `col_idx = [2]`, with the offsets `[0, 2]` counting two
entries. -/
theorem C15_pair_after_out_of_range_is_stored :
    ∃ (S : CSR ℝ) (ids : List Int),
      csr_matrix stoi10 stod10 ["1,99999999999:1,2:3".toList] = some (S, ids) ∧
      S = { values := [fin 3], row_ptr := [0, 2], col_idx := [2] } ∧
      (2 : Int) ∈ S.col_idx ∧ fin 3 ∈ S.values ∧ S.row_ptr.getLast? = some 2 :=
  ⟨_, _, out_of_range_then_pair_example, rfl, by decide, List.mem_singleton.2 rfl, rfl⟩

/-- C16: for a well-formed matrix `M` whose column ids lie in `[0, nrows)` and
a vector `v` of length `nrows`, `CSR::prod_t` makes no out-of-range access
(the run returns a vector), the result has length `nrows`, and its entry `c`
is the sum of `values[e] * v[i]` over the stored entries `e` of the rows `i`
with `col_idx[e] = c`. -/
theorem C16_prod_t_in_range (M : CSR ℝ) (v : List (Dbl ℝ)) (hwf : M.WellFormed)
    (hcol : ∀ c ∈ M.col_idx, 0 ≤ c ∧ c < ((M.row_ptr.length - 1 : Nat) : Int))
    (hv : v.length = M.row_ptr.length - 1) :
    ∃ r : List (Dbl ℝ), M.prod_t v = some r ∧ r.length = M.row_ptr.length - 1 ∧
      ∀ c : Nat, c < M.row_ptr.length - 1 →
        r[c]? = some ((((entries M.row_ptr).filter
          (fun p => decide (getI M.col_idx 0 p.2 = (c : Int)))).map
          (fun p => getI M.values 0 p.2 * getI v 0 p.1)).sum) := by
  have hne := hwf.row_ptr_ne
  have hlen : 0 < M.row_ptr.length := List.length_pos.2 hne
  refine ⟨_, CSR.prod_t_eq M v hwf (fun c hc => by have := (hcol c hc).2; omega)
    (le_of_eq hv.symm), by simp, ?_⟩
  intro c hc
  rw [List.getElem?_map, List.getElem?_range hc]
  simp only [Option.map_some', CSR.colDot]
  congr 3
  apply List.filter_congr
  intro p hp
  obtain ⟨_, _, b3, b4⟩ := hwf.bounds hp
  have hmem := getI_mem M.col_idx 0 b3 (by rw [hwf.col_idx_length]; exact b4)
  have h0 := hwf.col_idx_nonneg _ hmem
  apply decide_eq_decide.2
  omega

/-- C16 on the `2 × 2` matrix with rows `(1 2)` and `(0 3)` and the vector
`(1, 1)`: the transposed product is `(1, 5)`. -/
theorem C16_prod_t_in_range_witness :
    (M_square : CSR ℝ).prod_t [fin 1, fin 1] = some [fin 1, fin 5] ∧
    ∃ r : List (Dbl ℝ), (M_square : CSR ℝ).prod_t [fin 1, fin 1] = some r ∧
      r.length = 2 ∧
      ∀ c : Nat, c < 2 →
        r[c]? = some ((((entries (M_square : CSR ℝ).row_ptr).filter
          (fun p => decide (getI (M_square : CSR ℝ).col_idx 0 p.2 = (c : Int)))).map
          (fun p => getI (M_square : CSR ℝ).values 0 p.2 *
            getI [fin 1, fin 1] 0 p.1)).sum) :=
  ⟨M_square_prod_t,
    C16_prod_t_in_range M_square [fin 1, fin 1] M_square_wf M_square_col_lt rfl⟩

/-- C17: for an input with `N ≥ 1` items in which every weight is `≥ 0`,
every record has a strictly positive weight and every feature id lies in
`[0, N)`, for every `d` and every `n ≥ 0` the run of `LexRank::prop` returns
`N` scores whose sum is `1 - (1 - d)^(n + 1)` in exact arithmetic. -/
theorem C17_scores_total (S : CSR ℝ) (h : S.InRange) (hpos : S.PositiveRows)
    (hN : 1 < S.row_ptr.length) (d : ℝ) (n : Nat) :
    ∃ u : List (Dbl ℝ), prop Real.sqrt S (n : Int) (fin d) = some u ∧
      u.length = S.row_ptr.length - 1 ∧ u.sum = fin (1 - (1 - d) ^ (n + 1)) := by
  obtain ⟨u, h1, h2, h3, h4⟩ := prop_sum_aux S h hpos hN d n
  refine ⟨u, h1, h2, ?_⟩
  rw [← h4, ← Dbl.sum_congr_fin (fun x => x) Dbl.get u h3, List.map_id']

/-- C17 on the records `"1,0:1"`, `"2,0:1"` with `d = 1/2` and `n = 1`: the two
scores add up to `1 - (1/2)^2`. -/
theorem C17_scores_total_witness :
    ∃ u : List (Dbl ℝ), prop Real.sqrt (M_tall : CSR ℝ) ((1 : Nat) : Int) (fin (1 / 2)) = some u ∧
      u.length = (M_tall : CSR ℝ).row_ptr.length - 1 ∧
      u.sum = fin (1 - (1 - 1 / 2) ^ (1 + 1)) :=
  C17_scores_total M_tall M_tall_inRange M_tall_positiveRows (by decide) (1 / 2) 1

/-- C18 (counterexample): in the matrix of the records `"1,0:0"`, `"2,0:1"`
(weights `≥ 0`, feature ids below the number of rows) row 1 has norm 1, and
after `CSR::normalization` its degree is a NaN, not a number `≥ 1`: it
shares feature 0 with row 0, whose norm is zero and whose value becomes
`0/0`. -/
theorem C18_counterexample_degree_nan :
    (S_zero_and_unit : CSR ℝ).InRange ∧ (S_zero_and_unit : CSR ℝ).rowSumSq 1 = fin 1 ∧
      ∃ S' : CSR ℝ, (S_zero_and_unit : CSR ℝ).normalization Real.sqrt = some S' ∧
        S'.degree[1]? = some nan ∧ ¬ ∃ x : ℝ, S'.degree[1]? = some (fin x) ∧ 1 ≤ x := by
  refine ⟨S_zero_and_unit_inRange, S_zero_and_unit_rowSumSq, _,
    S_zero_and_unit_normalization, ?_, ?_⟩
  · rw [S_zero_and_unit_degree]; rfl
  · rw [S_zero_and_unit_degree]
    rintro ⟨x, hx, _⟩
    exact absurd hx (by simp)

/-- C18 (amended), in exact arithmetic: for a matrix with finite weights `≥ 0`
and column ids in `[0, nrows)`, after `CSR::normalization` the degree of row
`i` is 0 when the row is empty, a NaN when the row stores a feature that a
row of norm zero stores too (the row itself included), and at least 1 for
every other row that stores an entry.  No degree lies strictly between 0 and
`DBL_EPSILON`, the tests `!= 0` and `fabs(x) < DBL_EPSILON` of
`CSR::inv_diag` agree on every degree, and when no stored row has norm zero
no degree is a NaN. -/
theorem C18_degree_cases (S : CSR ℝ) (h : S.InRange) :
    ∃ S' : CSR ℝ, S.normalization Real.sqrt = some S' ∧
      S'.degree.length = S.row_ptr.length - 1 ∧
      (∀ i : Nat, i + 1 < S.row_ptr.length →
        (rowRange S.row_ptr i = [] → S'.degree[i]? = some (fin 0)) ∧
        (S.TouchesZeroRow i → S'.degree[i]? = some nan) ∧
        (rowRange S.row_ptr i ≠ [] → ¬ S.TouchesZeroRow i →
          ∃ x : ℝ, S'.degree[i]? = some (fin x) ∧ 1 ≤ x)) ∧
      (∀ v ∈ S'.degree, ∀ x : ℝ, v = fin x → ¬ (0 < x ∧ x < DBL_EPSILON)) ∧
      (∀ v ∈ S'.degree, ne_zero v = !fabs_lt_eps v) ∧
      (S.NoZeroRow → ∀ v ∈ S'.degree, v ≠ nan) := by
  obtain ⟨S', h1, hlen, hchar⟩ := h.degree_characterised
  obtain ⟨S'', g1, _, _, _, hS'', _⟩ := h.rowScaled
  rw [h1] at g1
  have := Option.some.inj g1
  subst this
  refine ⟨S', h1, hlen, hchar, ?_, hS''.zero_tests_agree, ?_⟩
  · intro v hv x hx hlt
    have hag := hS''.zero_tests_agree v hv
    subst hx
    have h1 : x ≠ 0 := hlt.1.ne'
    have h2 : |x| < DBL_EPSILON := by rw [abs_of_pos hlt.1]; exact hlt.2
    simp [ne_zero, fabs_lt_eps, h1, h2] at hag
  · intro hz v hv hnan
    obtain ⟨S3, g1, _, _, hN⟩ := h.normalization hz
    rw [h1] at g1
    have := Option.some.inj g1
    subst this
    have := (hN.degree_cases v hv).1
    rw [hnan] at this
    exact absurd this (by simp)

/-- C18 (amended) on the matrix of the records `"1,0:0"`, `"2,1:1"`: row 0 has
norm zero and its degree is a NaN; row 1 shares no feature with it and its
degree is at least 1. -/
theorem C18_degree_cases_witness :
    (S_zero_apart : CSR ℝ).InRange ∧ (S_zero_apart : CSR ℝ).TouchesZeroRow 0 ∧
    rowRange (S_zero_apart : CSR ℝ).row_ptr 1 ≠ [] ∧
    ¬ (S_zero_apart : CSR ℝ).TouchesZeroRow 1 ∧
    ∃ S' : CSR ℝ, (S_zero_apart : CSR ℝ).normalization Real.sqrt = some S' ∧
      S'.degree[0]? = some nan ∧ (∃ x : ℝ, S'.degree[1]? = some (fin x) ∧ 1 ≤ x) ∧
      (∀ v ∈ S'.degree, ne_zero v = !fabs_lt_eps v) := by
  refine ⟨S_zero_apart_inRange, S_zero_apart_touches, S_zero_apart_row_one,
    S_zero_apart_not_touches, ?_⟩
  obtain ⟨S', h1, _, h3, _, h5, _⟩ := C18_degree_cases S_zero_apart S_zero_apart_inRange
  exact ⟨S', h1, (h3 0 (by decide)).2.1 S_zero_apart_touches,
    (h3 1 (by decide)).2.2 S_zero_apart_row_one S_zero_apart_not_touches, h5⟩

/-- C19 (code bug): in the records `"1,5:1"`, `"2,5:1"` the two items carry the
same feature list, and the run returns no scores for them, whatever `n` and
`d` are: the matrix is well formed, and `CSR::inv_diag` writes `temp[5]` in a
vector of length 2. -/
theorem C19_equal_rows_out_of_range (n : Int) (d : Dbl ℝ) :
    (S_two_five : CSR ℝ).WellFormed ∧
      (S_two_five : CSR ℝ).rowPairs 0 = (S_two_five : CSR ℝ).rowPairs 1 ∧
      (S_two_five : CSR ℝ).rowPairs 0 = [(5, fin 1)] ∧
      prop Real.sqrt (S_two_five : CSR ℝ) n d = none :=
  ⟨S_two_five_wf, by simp [CSR.rowPairs, rowRange, S_two_five, getI, rd, List.range_succ],
    by simp [CSR.rowPairs, rowRange, S_two_five, getI, rd, List.range_succ], rfl⟩

/-- C20 (code bug): for the record `"1,7:1"` and for the same record with its
weight multiplied by `c` the run returns no score vector, whatever `c`, `n`
and `d` are: the matrix is well formed, and `CSR::inv_diag` writes `temp[7]`
in a vector of length 1. -/
theorem C20_scaled_row_out_of_range (c : ℝ) (n : Int) (d : Dbl ℝ) :
    (S_one_seven : CSR ℝ).WellFormed ∧
      ((S_one_seven : CSR ℝ).scaleRow 0 c).values = [fin c * fin 1] ∧
      prop Real.sqrt (S_one_seven : CSR ℝ) n d = none ∧
      prop Real.sqrt ((S_one_seven : CSR ℝ).scaleRow 0 c) n d = none :=
  ⟨S_one_seven_wf, by simp [CSR.scaleRow, S_one_seven, List.range_succ], rfl, rfl⟩

end LexRank
